import Mathlib

/-!
The forum service db_forum: posts, listings, votes, forums.

A shallow embedding of `internal/models/models.go`, of the storage
(`thread_storage.go`, `user_storage.go`, `forum_storage.go`, `post_storage.go`),
of the services (`thread_service.go`, `forum_service.go`, `post_service.go`) and
of the listing handler of `internal/api/thread_handler.go`.

The persisted store (PostgreSQL behind `pgxpool`) is a record of tables, each
table a list of rows in insertion order.  A query is a total function of the
store: a `SELECT` through `QueryRow` is the first matching row, and text
columns are compared with `=` exactly as the queries are written.  I/O failures
of the driver (lost connection, cancelled context) are not part of the model,
exhaustion of memory is not either.  The failures that are a function of the
arguments alone and that the source shows are: the `::int` cast of
`GetThreadIDBySlugOrID`, a `LIMIT` that is negative or does not fit the 32-bit
parameter of `LIMIT NULLIF($n, 0)`, and, in `UpdateThreadVote`, a new tally
that does not fit the `int32` field `Thread.Votes` it is read into.
`time.Now()` is an argument of the operation that calls it.  Identifiers and
counters are `Int`.
-/

namespace DbForum

/-- Instants of `time.Time`, as integers. -/
abbrev Time := Int

/-- Go `error` values as the program builds them: the package-level values of
`models`, `errors.New`, `fmt.Errorf` with a `%w` verb, and an error of the
database driver other than `pgx.ErrNoRows`.  `Panic` is not an error value: it
stands for a run-time panic, which leaves every caller at once. -/
inductive GoError where
  | ErrNotFound
  | ErrOwnerNotFound
  | ErrUserConflict
  | ErrForumConflict
  | ErrThreadConflict
  | ErrParentNotFound
  | ErrPostNotFound
  | New (text : String)
  | Errorf (text : String) (err : GoError)
  | Driver (text : String)
  | Panic (text : String)
  deriving DecidableEq, Repr

/-- Go `errors.Is`: the target is the error itself or is reached by unwrapping. -/
def errorsIs : GoError → GoError → Bool
  | .Errorf text err, target => decide (GoError.Errorf text err = target) || errorsIs err target
  | e, target => decide (e = target)

namespace models

structure User where
  Nickname : String
  Fullname : String
  About : String
  Email : String
  deriving DecidableEq, Repr

structure Forum where
  Title : String
  User : String
  Slug : String
  Posts : Int
  Threads : Int
  deriving DecidableEq, Repr

structure Thread where
  ID : Int
  Title : String
  Author : String
  Forum : String
  Message : String
  Votes : Int
  Slug : Option String
  Created : Time
  deriving DecidableEq, Repr

/-- The Go struct `models.Post`.  `Path` is a Go slice: `none` is the nil slice. -/
structure Post where
  ID : Int
  Parent : Int
  Author : String
  Message : String
  IsEdited : Bool
  Forum : String
  Thread : Int
  Created : Time
  Path : Option (List Int)
  RootParentID : Int
  deriving DecidableEq, Repr

structure Vote where
  Nickname : String
  Voice : Int
  deriving DecidableEq, Repr

end models

namespace storage

/-- A row of table `posts`, with the columns the queries name. -/
structure PostRow where
  id : Int
  parent : Int
  author : String
  message : String
  is_edited : Bool
  forum : String
  thread_id : Int
  created : Time
  path : List Int
  root_parent_id : Int
  deriving DecidableEq, Repr

/-- A row of table `votes`. -/
structure VoteRow where
  thread_id : Int
  user_nickname : String
  voice : Int
  deriving DecidableEq, Repr

/-- The persisted store.  `forum_users` holds `(forum_slug, user_nickname)`, and
`postSeq` is the last value of the identifier sequence of table `posts`. -/
structure Store where
  users : List models.User
  forums : List models.Forum
  threads : List models.Thread
  posts : List PostRow
  forum_users : List (String × String)
  votes : List VoteRow
  postSeq : Int
  deriving DecidableEq, Repr

/-- Modelled from the spec: the identifier sequence of table `posts`, whose
schema is not part of the source.  Identifiers are "monotonic, persisted-store
generated": the next one is the last value plus one, so the rows of one
`INSERT` receive consecutive identifiers in the order of its `VALUES` list.
The sequence keeps its value when a transaction is rolled back. -/
def nextval (seq : Int) : Int :=
  seq + 1

/-- Value of a run of decimal digits, most significant first; `none` when a
character is not a digit. -/
def digitsValue : List Char → Nat → Option Nat
  | [], acc => some acc
  | c :: cs, acc =>
    if 48 ≤ c.toNat ∧ c.toNat ≤ 57 then digitsValue cs (acc * 10 + (c.toNat - 48)) else none

/-- Go `strconv.ParseInt(s, 10, 64)`: an optional sign and a non-empty run of
decimal digits whose value fits a signed 64-bit integer; `none` is an error. -/
def ParseInt (s : String) : Option Int :=
  match s.data with
  | [] => none
  | c :: cs =>
    let neg := decide (c = '-')
    let digits := if c = '+' ∨ c = '-' then cs else c :: cs
    match digits with
    | [] => none
    | d :: ds =>
      match digitsValue (d :: ds) 0 with
      | none => none
      | some un =>
        if ¬ neg ∧ un ≥ 2 ^ 63 then none
        else if neg ∧ un > 2 ^ 63 then none
        else some (if neg then - (un : Int) else (un : Int))

/-- `GetThreadIDBySlugOrID`: `SELECT id FROM threads WHERE slug = $1 OR id = $2::int`,
where `$2` is the parsed identifier, or 0 when the text is not a number.  A
value outside 32 bits cannot be sent for the `int` parameter: the driver
reports an error that is not `pgx.ErrNoRows`. -/
def GetThreadIDBySlugOrID (s : Store) (slugOrID : String) : Except GoError Int :=
  let idInt : Int := match ParseInt slugOrID with
    | some n => n
    | none => 0
  if idInt < -2147483648 ∨ 2147483647 < idInt then
    .error (.Errorf "failed to get thread ID by slug or ID" (.Driver "value out of range for int4"))
  else
    match s.threads.find? (fun t => decide (t.Slug = some slugOrID) || decide (t.ID = idInt)) with
    | some t => .ok t.ID
    | none => .error .ErrNotFound

/-- `CheckParentPostExistsInThread`:
`SELECT EXISTS(SELECT 1 FROM posts WHERE id = $1 AND thread_id = $2)`. -/
def CheckParentPostExistsInThread (s : Store) (parentID threadID : Int) : Bool :=
  s.posts.any (fun r => decide (r.id = parentID) && decide (r.thread_id = threadID))

/-- `GetUserByNickname`: `SELECT ... FROM users WHERE nickname = $1`. -/
def GetUserByNickname (s : Store) (nickname : String) : Except GoError models.User :=
  match s.users.find? (fun u => decide (u.Nickname = nickname)) with
  | some u => .ok u
  | none => .error .ErrNotFound

end storage


/-- Insertion into a list that is sorted by `less`: `a` goes before the first
element that is not `less` than it. -/
def orderedInsert {α : Type} (less : α → α → Bool) (a : α) : List α → List α
  | [] => [a]
  | b :: bs => if less b a then b :: orderedInsert less a bs else a :: b :: bs

/-- Sorting by a comparison function: Go `sort.Slice` and SQL `ORDER BY`.  The
program only sorts by keys that end in the row identifier, so `less` is a
strict total order on the rows sorted and the sorted sequence is the same
whatever algorithm produces it. -/
def sortSlice {α : Type} (less : α → α → Bool) : List α → List α
  | [] => []
  | a :: as => orderedInsert less a (sortSlice less as)

namespace storage

/-- The rows of `INSERT INTO posts(author, created, forum, message, parent, thread_id)`
for the batch, the sequence standing at `seq`.  `is_edited`, `path` and
`root_parent_id` take the column defaults (the schema is not part of the
source); the last two are overwritten for every row before the transaction
commits and are not read in between. -/
def insertedRows (seq : Int) (threadForumSlug : String) (created : Time) :
    List models.Post → List PostRow
  | [] => []
  | p :: ps =>
    { id := nextval seq, parent := p.Parent, author := p.Author, message := p.Message,
      is_edited := false, forum := threadForumSlug, thread_id := p.Thread,
      created := created, path := [], root_parent_id := 0 }
      :: insertedRows (nextval seq) threadForumSlug created ps

/-- The `rows.Scan` of the `RETURNING` clause (lines 120-133): `Path` is set to
the empty, non-nil slice and `RootParentID` to 0. -/
def scanCreated (r : PostRow) : models.Post :=
  { ID := r.id, Parent := r.parent, Author := r.author, Message := r.message,
    IsEdited := r.is_edited, Forum := r.forum, Thread := r.thread_id,
    Created := r.created, Path := some [], RootParentID := 0 }

/-- The comparison function of `sort.Slice` at lines 143-154. -/
def processingLess (a b : models.Post) : Bool :=
  if a.Parent = 0 ∧ b.Parent ≠ 0 then true
  else if a.Parent ≠ 0 ∧ b.Parent = 0 then false
  else if a.Parent ≠ b.Parent then decide (a.Parent < b.Parent)
  else decide (a.ID < b.ID)

/-- The body of the loop at lines 158-186: `finalPath` and `finalRootParentID`
of `currentPost`.  `newlyCreatedPostsMap` is the list of the created posts,
looked up by identifier (the identifiers of one batch are distinct); `tx` is
table `posts` as the transaction sees it.  `append` is taken on values.  In
the code `append(parentPost.Path, currentPost.ID)` writes into the backing
array of the slice of the parent when that slice has spare capacity, which
the children of one parent of the batch then share; the slice of a post
without parent, `[]int64{ID}`, and the empty slice of line 129 have none, and
a path read from the store is a slice of its own.  The root, the length of a
path, and the path of a child of a stored post, of a post without parent or
of a post not yet processed do not depend on the sharing. -/
def resolvePath (tx : List PostRow) (newlyCreatedPostsMap : List models.Post)
    (currentPost : models.Post) : Except GoError (List Int × Int) :=
  if currentPost.Parent = 0 then
    .ok ([currentPost.ID], currentPost.ID)
  else
    match newlyCreatedPostsMap.find? (fun q => decide (q.ID = currentPost.Parent)) with
    | some parentPost =>
      match parentPost.Path with
      | none =>
        .error (.New ("internal error: parent post " ++ toString parentPost.ID
          ++ " path not set before child " ++ toString currentPost.ID))
      | some parentPath => .ok (parentPath ++ [currentPost.ID], parentPost.RootParentID)
    | none =>
      match tx.find? (fun r => decide (r.id = currentPost.Parent)
          && decide (r.thread_id = currentPost.Thread)) with
      | none => .error .ErrParentNotFound
      | some r => .ok (r.path ++ [currentPost.ID], r.root_parent_id)

/-- The assignment at lines 187-188, through the pointer shared by the map and
`postsInOriginalOrder`. -/
def setPath (newlyCreatedPostsMap : List models.Post) (id : Int) (finalPath : List Int)
    (finalRootParentID : Int) : List models.Post :=
  newlyCreatedPostsMap.map (fun q =>
    if q.ID = id then { q with Path := some finalPath, RootParentID := finalRootParentID } else q)

/-- The loop at lines 158-190 over `postsForProcessing`: the created posts with
their paths assigned, and the queued `UPDATE` statements `(path, root_parent_id, id)`. -/
def assignPaths (tx : List PostRow) :
    List models.Post → List models.Post → List (List Int × Int × Int) →
      Except GoError (List models.Post × List (List Int × Int × Int))
  | [], newlyCreatedPostsMap, updateBatch => .ok (newlyCreatedPostsMap, updateBatch)
  | currentPost :: rest, newlyCreatedPostsMap, updateBatch =>
    match resolvePath tx newlyCreatedPostsMap currentPost with
    | .error e => .error e
    | .ok (finalPath, finalRootParentID) =>
      assignPaths tx rest
        (setPath newlyCreatedPostsMap currentPost.ID finalPath finalRootParentID)
        (updateBatch ++ [(finalPath, finalRootParentID, currentPost.ID)])

/-- One queued `UPDATE posts SET path = $1, root_parent_id = $2 WHERE id = $3`. -/
def execUpdate (rows : List PostRow) (u : List Int × Int × Int) : List PostRow :=
  rows.map (fun r => if r.id = u.2.2 then { r with path := u.1, root_parent_id := u.2.1 } else r)

/-- The loop at lines 207-217: one queued `INSERT INTO forum_users` per author
not seen before in the batch. -/
def queueForumUsers (threadForumSlug : String) :
    List models.Post → List String → List (String × String)
  | [], _ => []
  | p :: ps, uniqueAuthors =>
    if p.Author ∈ uniqueAuthors then queueForumUsers threadForumSlug ps uniqueAuthors
    else (threadForumSlug, p.Author) :: queueForumUsers threadForumSlug ps (p.Author :: uniqueAuthors)

/-- One `INSERT INTO forum_users ... ON CONFLICT (forum_slug, user_nickname) DO NOTHING`. -/
def insertForumUser (forum_users : List (String × String)) (row : String × String) :
    List (String × String) :=
  if row ∈ forum_users then forum_users else forum_users ++ [row]

/-- `postgresThreadStorage.CreatePosts`, with `created` the value of `time.Now()`
at line 94.  A failure after the `INSERT` rolls the transaction back: only the
sequence has moved.  Constraints of the absent schema (foreign keys) are not
modelled. -/
def CreatePosts (s : Store) (posts : List models.Post) (created : Time) :
    Except GoError (List models.Post) × Store :=
  match posts with
  | [] => (.ok [], s)
  | p0 :: _ =>
    match s.threads.find? (fun t => decide (t.ID = p0.Thread)) with
    | none => (.error .ErrNotFound, s)
    | some thread =>
      let threadForumSlug := thread.Forum
      let rows := insertedRows s.postSeq threadForumSlug created posts
      let tx := s.posts ++ rows
      let postsInOriginalOrder := rows.map scanCreated
      let postsForProcessing := sortSlice processingLess postsInOriginalOrder
      match assignPaths tx postsForProcessing postsInOriginalOrder [] with
      | .error e => (.error e, { s with postSeq := s.postSeq + posts.length })
      | .ok (result, updateBatch) =>
        (.ok result,
          { s with
            posts := updateBatch.foldl execUpdate tx
            forums := s.forums.map (fun f =>
              if f.Slug = threadForumSlug then { f with Posts := f.Posts + posts.length } else f)
            forum_users := (queueForumUsers threadForumSlug postsInOriginalOrder []).foldl
              insertForumUser s.forum_users
            postSeq := s.postSeq + posts.length })

end storage

namespace storage

/-- PostgreSQL order of `bigint[]` values: element by element, a proper prefix first. -/
def pathLess : List Int → List Int → Bool
  | [], [] => false
  | [], _ :: _ => true
  | _ :: _, [] => false
  | a :: as, b :: bs => if a < b then true else if b < a then false else pathLess as bs

/-- The `rows.Scan` of the listing queries. -/
def scanPost (r : PostRow) : models.Post :=
  { ID := r.id, Parent := r.parent, Author := r.author, Message := r.message,
    IsEdited := r.is_edited, Forum := r.forum, Thread := r.thread_id,
    Created := r.created, Path := some r.path, RootParentID := r.root_parent_id }

/-- `LIMIT NULLIF($n, 0)` for a limit the store accepts: none below 0, none
above 32 bits. -/
def limitRows {α : Type} (limit : Int) (rows : List α) : List α :=
  if limit = 0 then rows else rows.take limit.toNat

/-- `ORDER BY created ASC, id ASC`, or `ORDER BY created DESC, id DESC`. -/
def flatLess (desc : Bool) (a b : PostRow) : Bool :=
  if desc then decide (b.created < a.created) || (decide (a.created = b.created) && decide (b.id < a.id))
  else decide (a.created < b.created) || (decide (a.created = b.created) && decide (a.id < b.id))

/-- `ORDER BY path ASC, id ASC`, or `ORDER BY path DESC, id DESC`. -/
def treeLess (desc : Bool) (a b : PostRow) : Bool :=
  if desc then pathLess b.path a.path || (decide (a.path = b.path) && decide (b.id < a.id))
  else pathLess a.path b.path || (decide (a.path = b.path) && decide (a.id < b.id))

/-- `ORDER BY id ASC`, or `ORDER BY id DESC`. -/
def idLess (desc : Bool) (a b : PostRow) : Bool :=
  if desc then decide (b.id < a.id) else decide (a.id < b.id)

/-- `ORDER BY root_parent_id ASC, path ASC, id ASC`, or
`ORDER BY root_parent_id DESC, path ASC, id DESC`. -/
def parentTreeLess (desc : Bool) (a b : PostRow) : Bool :=
  if desc then
    decide (b.root_parent_id < a.root_parent_id) || (decide (a.root_parent_id = b.root_parent_id)
      && (pathLess a.path b.path || (decide (a.path = b.path) && decide (b.id < a.id))))
  else
    decide (a.root_parent_id < b.root_parent_id) || (decide (a.root_parent_id = b.root_parent_id)
      && (pathLess a.path b.path || (decide (a.path = b.path) && decide (a.id < b.id))))

/-- The listing query of `GetFlatThreadPosts` and `GetTreeThreadPosts` (lines
368-400, 436-468) with the cursor condition `cond` and order `less`; `queryError`
is the text `fmt.Errorf` puts before an error of `s.pool.Query` (lines 380, 448).
The parameter of `LIMIT NULLIF($n, 0)` is compared with the `integer` 0, so it
is a 32-bit `integer`: a limit outside 32 bits cannot be sent and `Query`
returns the error of the driver.  Otherwise the query is sent before
`make([]models.Post, 0, limit)` runs, and a negative capacity panics there; a
capacity within 32 bits is in the range `make` accepts. -/
def listPage (s : Store) (threadID : Int) (limit : Int) (queryError : String)
    (less : PostRow → PostRow → Bool) (cond : PostRow → Bool) :
    Except GoError (List models.Post) :=
  if limit < -2147483648 ∨ 2147483647 < limit then
    .error (.Errorf queryError (.Driver "value out of range for int4"))
  else if limit < 0 then .error (.Panic "runtime error: makeslice: cap out of range")
  else
    .ok ((limitRows limit (sortSlice less
      (s.posts.filter (fun r => decide (r.thread_id = threadID) && cond r)))).map scanPost)

/-- `postgresThreadStorage.GetFlatThreadPosts`. -/
def GetFlatThreadPosts (s : Store) (threadID : Int) (limit : Int) (since : Int) (desc : Bool) :
    Except GoError (List models.Post) :=
  if since > 0 then
    match s.posts.find? (fun r => decide (r.id = since) && decide (r.thread_id = threadID)) with
    | none => .ok []
    | some sinceRow =>
      listPage s threadID limit "failed to query flat posts" (flatLess desc) (fun r =>
        if desc then
          decide (r.created < sinceRow.created)
            || (decide (r.created = sinceRow.created) && decide (r.id < sinceRow.id))
        else
          decide (r.created > sinceRow.created)
            || (decide (r.created = sinceRow.created) && decide (r.id > sinceRow.id)))
  else listPage s threadID limit "failed to query flat posts" (flatLess desc) (fun _ => true)

/-- `postgresThreadStorage.GetTreeThreadPosts`. -/
def GetTreeThreadPosts (s : Store) (threadID : Int) (limit : Int) (since : Int) (desc : Bool) :
    Except GoError (List models.Post) :=
  if since > 0 then
    match s.posts.find? (fun r => decide (r.id = since) && decide (r.thread_id = threadID)) with
    | none => .ok []
    | some sinceRow =>
      listPage s threadID limit "failed to query tree posts" (treeLess desc) (fun r =>
        if desc then
          pathLess r.path sinceRow.path
            || (decide (r.path = sinceRow.path) && decide (r.id < sinceRow.id))
        else
          pathLess sinceRow.path r.path
            || (decide (r.path = sinceRow.path) && decide (r.id > sinceRow.id)))
  else listPage s threadID limit "failed to query tree posts" (treeLess desc) (fun _ => true)

/-- The two queries of `GetParentTreeThreadPosts` (lines 608-677) with the
cursor condition `cond` on root posts.  A limit outside 32 bits cannot be sent
for the parameter of `LIMIT NULLIF($n, 0)`: `Query` returns the error of the
driver (line 620).  A negative limit within 32 bits is refused by the store and
reported by `rootRows.Err()` (line 633). -/
def parentTreePage (s : Store) (threadID : Int) (limit : Int) (desc : Bool)
    (cond : PostRow → Bool) : Except GoError (List models.Post) :=
  if limit < -2147483648 ∨ 2147483647 < limit then
    .error (.Errorf "failed to query root posts for parent_tree pagination"
      (.Driver "value out of range for int4"))
  else if limit < 0 then
    .error (.Errorf "rows error in root post IDs query" (.Driver "LIMIT must not be negative"))
  else
    let rootPostIDs := (limitRows limit (sortSlice (idLess desc)
      (s.posts.filter (fun r =>
        decide (r.thread_id = threadID) && decide (r.parent = 0) && cond r)))).map (fun r => r.id)
    if rootPostIDs.length = 0 then .ok []
    else
      .ok ((sortSlice (parentTreeLess desc)
        (s.posts.filter (fun r =>
          decide (r.thread_id = threadID) && decide (r.root_parent_id ∈ rootPostIDs)))).map scanPost)

/-- `postgresThreadStorage.GetParentTreeThreadPosts`. -/
def GetParentTreeThreadPosts (s : Store) (threadID : Int) (limit : Int) (since : Int)
    (desc : Bool) : Except GoError (List models.Post) :=
  if since > 0 then
    match s.posts.find? (fun r => decide (r.id = since) && decide (r.thread_id = threadID)) with
    | none => .ok []
    | some sinceRow =>
      parentTreePage s threadID limit desc (fun r =>
        if desc then decide (r.id < sinceRow.root_parent_id)
        else decide (r.id > sinceRow.root_parent_id))
  else parentTreePage s threadID limit desc (fun _ => true)

end storage

namespace service

/-- The authors of the batch, each once: the keys of `uniqueAuthors` (lines 44-47). -/
def uniqueAuthors : List models.Post → List String → List String
  | [], seen => seen
  | p :: ps, seen => if p.Author ∈ seen then uniqueAuthors ps seen else uniqueAuthors ps (seen ++ [p.Author])

/-- The loop at lines 49-57.  Go ranges over the map in no fixed order; every
miss gives the same error, so the outcome does not depend on the order. -/
def checkAuthors (s : storage.Store) : List String → Except GoError Unit
  | [] => .ok ()
  | author :: rest =>
    match storage.GetUserByNickname s author with
    | .error err =>
      if errorsIs err .ErrNotFound then .error .ErrOwnerNotFound
      else .error (.Errorf ("failed to check post author '" ++ author ++ "'") err)
    | .ok _ => checkAuthors s rest

/-- The loop at lines 59-69. -/
def checkParents (s : storage.Store) (threadID : Int) : List models.Post → Except GoError Unit
  | [] => .ok ()
  | post :: rest =>
    if post.Parent ≠ 0 then
      if storage.CheckParentPostExistsInThread s post.Parent threadID then checkParents s threadID rest
      else .error .ErrParentNotFound
    else checkParents s threadID rest

/-- The posts handed to the storage (lines 73-84). -/
def postsToCreate (threadID : Int) (creationTime : Time) (newPosts : List models.Post) :
    List models.Post :=
  newPosts.map (fun post =>
    { ID := 0, Parent := post.Parent, Author := post.Author, Message := post.Message,
      IsEdited := false, Forum := "", Thread := threadID, Created := creationTime,
      Path := none, RootParentID := 0 })

/-- `threadServiceImpl.CreatePosts`: `creationTime` is `time.Now()` at line 71,
`created` the one taken by the storage. -/
def CreatePosts (s : storage.Store) (slugOrID : String) (newPosts : List models.Post)
    (creationTime created : Time) : Except GoError (List models.Post) × storage.Store :=
  match storage.GetThreadIDBySlugOrID s slugOrID with
  | .error err =>
    if errorsIs err .ErrNotFound then (.error .ErrNotFound, s)
    else (.error (.Errorf "failed to get thread ID" err), s)
  | .ok threadID =>
    if newPosts.length = 0 then (.ok [], s)
    else
      match checkAuthors s (uniqueAuthors newPosts []) with
      | .error err => (.error err, s)
      | .ok _ =>
        match checkParents s threadID newPosts with
        | .error err => (.error err, s)
        | .ok _ =>
          match storage.CreatePosts s (postsToCreate threadID creationTime newPosts) created with
          | (.error err, s') => (.error (.Errorf "failed to create posts in storage" err), s')
          | (.ok createdPosts, s') => (.ok createdPosts, s')

/-- `threadServiceImpl.GetThreadPosts`. -/
def GetThreadPosts (s : storage.Store) (slugOrID : String) (limit : Int) (since : Int)
    (sort : String) (desc : Bool) : Except GoError (List models.Post) :=
  match storage.GetThreadIDBySlugOrID s slugOrID with
  | .error err =>
    if errorsIs err .ErrNotFound then .error .ErrNotFound
    else .error (.Errorf "failed to get thread ID for posts" err)
  | .ok threadID =>
    let listed : Option (Except GoError (List models.Post)) :=
      if sort = "flat" then some (storage.GetFlatThreadPosts s threadID limit since desc)
      else if sort = "tree" then some (storage.GetTreeThreadPosts s threadID limit since desc)
      else if sort = "parent_tree" then
        some (storage.GetParentTreeThreadPosts s threadID limit since desc)
      else none
    match listed with
    | none => .error (.New "invalid sort type")
    | some (.error (.Panic text)) => .error (.Panic text)
    | some (.error err) =>
      if errorsIs err .ErrNotFound then .ok []
      else .error (.Errorf ("failed to get thread posts from storage for sort " ++ sort) err)
    | some (.ok posts) => .ok posts

end service

/-! ## Notions used by the statements -/

namespace storage

/-- The primary key of table `posts`: identifiers are distinct and were issued
by the sequence. -/
def PostsKeyed (s : Store) : Prop :=
  (∀ r ∈ s.posts, r.id ≤ s.postSeq) ∧ (s.posts.map (fun r => r.id)).Nodup

instance (s : Store) : Decidable (PostsKeyed s) := by
  unfold PostsKeyed
  infer_instance

/-- The stored post with identifier `id`. -/
def postByID (s : Store) (id : Int) : Option PostRow :=
  s.posts.find? (fun r => decide (r.id = id))

/-- Path and root of a post whose parent, if any, is looked up in `rows`. -/
def directPath (rows : List PostRow) (q : models.Post) : List Int × Int :=
  if q.Parent = 0 then ([q.ID], q.ID)
  else
    match rows.find? (fun r => decide (r.id = q.Parent) && decide (r.thread_id = q.Thread)) with
    | some r => (r.path ++ [q.ID], r.root_parent_id)
    | none => ([], 0)

/-- The post `q` carrying `directPath rows q`. -/
def withDirect (rows : List PostRow) (q : models.Post) : models.Post :=
  { q with Path := some (directPath rows q).1, RootParentID := (directPath rows q).2 }

/-- A post without its path and root. -/
def corePost (q : models.Post) : models.Post :=
  { q with Path := none, RootParentID := 0 }

end storage

namespace storage

/-- A user with this nickname is stored: `GetUserByNickname` finds a row. -/
def UserExists (s : Store) (nickname : String) : Prop :=
  ∃ u ∈ s.users, u.Nickname = nickname

instance (s : Store) (nickname : String) : Decidable (UserExists s nickname) := by
  unfold UserExists
  infer_instance

/-- The identifiers the sequence gives to a batch of `n` posts. -/
def batchIDs (s : Store) (n : Nat) : List Int :=
  (List.range n).map (fun i => s.postSeq + 1 + (i : Int))

/-- All queued updates applied to one row. -/
def applyUpdates (us : List (List Int × Int × Int)) (r : PostRow) : PostRow :=
  us.foldl (fun r u => if r.id = u.2.2 then { r with path := u.1, root_parent_id := u.2.1 } else r) r

end storage

/-! ## A small store, for the instances of the theorems -/

namespace example1

/-- Two users, two forums, one thread (identifier 1, slug `th`) in forum `f`,
and two committed posts by `ann`: the root 1 and its reply 2. -/
def store : storage.Store :=
  { users := [
      { Nickname := "ann", Fullname := "Ann", About := "", Email := "ann@x" },
      { Nickname := "bob", Fullname := "Bob", About := "", Email := "bob@x" }]
    forums := [
      { Title := "Forum", User := "ann", Slug := "f", Posts := 2, Threads := 1 },
      { Title := "Other", User := "ann", Slug := "g", Posts := 0, Threads := 0 }]
    threads := [
      { ID := 1, Title := "T", Author := "ann", Forum := "f", Message := "m",
        Votes := 0, Slug := some "th", Created := 0 }]
    posts := [
      { id := 1, parent := 0, author := "ann", message := "a", is_edited := false,
        forum := "f", thread_id := 1, created := 1, path := [1], root_parent_id := 1 },
      { id := 2, parent := 1, author := "ann", message := "b", is_edited := false,
        forum := "f", thread_id := 1, created := 1, path := [1, 2], root_parent_id := 1 }]
    forum_users := [("f", "ann")]
    votes := []
    postSeq := 2 }

/-- A request body: only `parent`, `author` and `message` are set. -/
def newPost (parent : Int) (author message : String) : models.Post :=
  { ID := 0, Parent := parent, Author := author, Message := message, IsEdited := false,
    Forum := "", Thread := 0, Created := 0, Path := none, RootParentID := 0 }

/-- A batch of a reply to post 2, a root post, and a reply to post 1. -/
def batch : List models.Post :=
  [newPost 2 "bob" "x", newPost 0 "ann" "y", newPost 1 "bob" "z"]

/-- The posts `CreatePosts` returns for `batch` on `store`, created at instant 11. -/
def created : List models.Post := [
  { ID := 3, Parent := 2, Author := "bob", Message := "x", IsEdited := false, Forum := "f",
    Thread := 1, Created := 11, Path := some [1, 2, 3], RootParentID := 1 },
  { ID := 4, Parent := 0, Author := "ann", Message := "y", IsEdited := false, Forum := "f",
    Thread := 1, Created := 11, Path := some [4], RootParentID := 4 },
  { ID := 5, Parent := 1, Author := "bob", Message := "z", IsEdited := false, Forum := "f",
    Thread := 1, Created := 11, Path := some [1, 5], RootParentID := 1 }]

/-- The store after that call. -/
def storeAfter : storage.Store :=
  { users := [
      { Nickname := "ann", Fullname := "Ann", About := "", Email := "ann@x" },
      { Nickname := "bob", Fullname := "Bob", About := "", Email := "bob@x" }]
    forums := [
      { Title := "Forum", User := "ann", Slug := "f", Posts := 5, Threads := 1 },
      { Title := "Other", User := "ann", Slug := "g", Posts := 0, Threads := 0 }]
    threads := [
      { ID := 1, Title := "T", Author := "ann", Forum := "f", Message := "m",
        Votes := 0, Slug := some "th", Created := 0 }]
    posts := [
      { id := 1, parent := 0, author := "ann", message := "a", is_edited := false,
        forum := "f", thread_id := 1, created := 1, path := [1], root_parent_id := 1 },
      { id := 2, parent := 1, author := "ann", message := "b", is_edited := false,
        forum := "f", thread_id := 1, created := 1, path := [1, 2], root_parent_id := 1 },
      { id := 3, parent := 2, author := "bob", message := "x", is_edited := false,
        forum := "f", thread_id := 1, created := 11, path := [1, 2, 3], root_parent_id := 1 },
      { id := 4, parent := 0, author := "ann", message := "y", is_edited := false,
        forum := "f", thread_id := 1, created := 11, path := [4], root_parent_id := 4 },
      { id := 5, parent := 1, author := "bob", message := "z", is_edited := false,
        forum := "f", thread_id := 1, created := 11, path := [1, 5], root_parent_id := 1 }]
    forum_users := [("f", "ann"), ("f", "bob")]
    votes := []
    postSeq := 5 }

/-- A batch whose second post names as parent the identifier 3 that the first
post is about to receive. -/
def chained : List models.Post :=
  [newPost 0 "ann" "r", newPost 3 "ann" "c"]

/-- A batch with a parent, 9, that is no post at all. -/
def orphan : List models.Post :=
  [newPost 0 "ann" "r", newPost 9 "ann" "c"]

end example1

namespace storage

/-- The store before anything is created. -/
def emptyStore : Store :=
  { users := [], forums := [], threads := [], posts := [], forum_users := [], votes := [],
    postSeq := 0 }

end storage

/-! ## Error texts, the listing handler, votes -/

/-- Go `err.Error()`: the text of an error; `fmt.Errorf("<text>: %w", err)` puts
the text of the wrapped error after its own. -/
def GoError.Error : GoError → String
  | .ErrNotFound => "not found"
  | .ErrOwnerNotFound => "owner not found"
  | .ErrUserConflict => "user conflict"
  | .ErrForumConflict => "forum conflict"
  | .ErrThreadConflict => "thread conflict"
  | .ErrParentNotFound => "parent not found"
  | .ErrPostNotFound => "post not found"
  | .New text => text
  | .Errorf text err => text ++ ": " ++ err.Error
  | .Driver text => text
  | .Panic text => text

namespace api

/-- What a handler writes: a status with a `message` body, a status with a list
of posts, or the bare status the recovery middleware of `gin.Default()` answers
to a panic. -/
inductive Response where
  | message (status : Nat) (text : String)
  | posts (status : Nat) (posts : List models.Post)
  | aborted (status : Nat)
  deriving DecidableEq, Repr

/-- The status code of a response. -/
def Response.status : Response → Nat
  | .message status _ => status
  | .posts status _ => status
  | .aborted status => status

/-- Go `strconv.ParseBool`; `none` is an error. -/
def ParseBool (str : String) : Option Bool :=
  if str = "1" ∨ str = "t" ∨ str = "T" ∨ str = "TRUE" ∨ str = "true" ∨ str = "True" then some true
  else if str = "0" ∨ str = "f" ∨ str = "F" ∨ str = "FALSE" ∨ str = "false" ∨ str = "False" then
    some false
  else none

/-- `ThreadHandler.GetThreadPosts`.  The query parameters are `none` when the
key is absent from the request: `c.Query` then gives the empty text and
`c.DefaultQuery` the default.  `strconv.Atoi` reads what
`strconv.ParseInt(s, 10, 64)` reads. -/
def GetThreadPosts (s : storage.Store) (slugOrID : String)
    (limitQuery sinceQuery sortQuery descQuery : Option String) : Response :=
  let limitStr := limitQuery.getD ""
  let sinceStr := sinceQuery.getD ""
  let sort := sortQuery.getD "flat"
  let descStr := descQuery.getD "false"
  if (storage.ParseInt limitStr).isNone ∧ limitStr ≠ "" then
    .message 400 "Invalid limit parameter"
  else
    let limit0 : Int := (storage.ParseInt limitStr).getD 0
    let limit : Int := if limit0 = 0 ∧ limitStr = "" then 100 else limit0
    if sinceStr ≠ "" ∧ (storage.ParseInt sinceStr).isNone then
      .message 400 "Invalid since parameter"
    else
      let since : Int := if sinceStr ≠ "" then (storage.ParseInt sinceStr).getD 0 else 0
      match ParseBool descStr with
      | none => .message 400 "Invalid desc parameter"
      | some desc =>
        match service.GetThreadPosts s slugOrID limit since sort desc with
        | .error (.Panic _) => .aborted 500
        | .error err =>
          if err = .ErrNotFound then
            .message 404 ("Can't find thread with slug or id: " ++ slugOrID)
          else if err.Error = "invalid sort type" then .message 400 "Invalid sort type"
          else .message 500 "Internal server error"
        | .ok posts => .posts 200 posts

end api

namespace storage

/-- The values an `int32` holds. -/
def fitsInt32 (n : Int) : Prop := -2147483648 ≤ n ∧ n ≤ 2147483647

instance (n : Int) : Decidable (fitsInt32 n) := by
  unfold fitsInt32
  infer_instance

/-- `postgresThreadStorage.UpdateThreadVote`.  The whole body is one
transaction, undone by the deferred `Rollback` unless `Commit` is reached.  The
thread is read back into a `models.Thread`, whose field `Votes` is an `int32`
(models.go, line 29): when the tally does not fit, `Scan` fails (line 286), the
error is wrapped (line 294) and the store is as before; so it is when the
thread cannot be read back.  The columns of the absent schema hold exact
integers, and `voice - oldVoice` is the difference of two values of column
`voice`; were column `votes` itself 32 bits wide, the `UPDATE` before the
read-back would fail for such a tally, with the same outcome under another
text: an error, and nothing stored. -/
def UpdateThreadVote (s : Store) (threadID : Int) (nickname : String) (voice : Int) :
    Except GoError models.Thread × Store :=
  let tx : Store :=
    match s.votes.find? (fun v =>
        decide (v.thread_id = threadID) && decide (v.user_nickname = nickname)) with
    | none =>
      { s with
        votes := s.votes ++ [{ thread_id := threadID, user_nickname := nickname, voice := voice }]
        threads := s.threads.map (fun t =>
          if t.ID = threadID then { t with Votes := t.Votes + voice } else t) }
    | some old =>
      if old.voice ≠ voice then
        { s with
          votes := s.votes.map (fun v =>
            if v.thread_id = threadID ∧ v.user_nickname = nickname then { v with voice := voice }
            else v)
          threads := s.threads.map (fun t =>
            if t.ID = threadID then { t with Votes := t.Votes + (voice - old.voice) } else t) }
      else s
  match tx.threads.find? (fun t => decide (t.ID = threadID)) with
  | none => (.error .ErrNotFound, s)
  | some updatedThread =>
    if fitsInt32 updatedThread.Votes then (.ok updatedThread, tx)
    else
      (.error (.Errorf "failed to retrieve updated thread after vote"
        (.Driver "value out of range for int32")), s)

end storage

namespace service

/-- `threadServiceImpl.VoteThread`. -/
def VoteThread (s : storage.Store) (slugOrID : String) (vote : models.Vote) :
    Except GoError models.Thread × storage.Store :=
  match storage.GetUserByNickname s vote.Nickname with
  | .error err =>
    if errorsIs err .ErrNotFound then (.error .ErrOwnerNotFound, s)
    else (.error (.Errorf "failed to check voter existence" err), s)
  | .ok _ =>
    match storage.GetThreadIDBySlugOrID s slugOrID with
    | .error err =>
      if errorsIs err .ErrNotFound then (.error .ErrNotFound, s)
      else (.error (.Errorf "failed to get thread ID for voting" err), s)
    | .ok threadID =>
      match storage.UpdateThreadVote s threadID vote.Nickname vote.Voice with
      | (.error err, s') =>
        if errorsIs err .ErrNotFound then (.error .ErrNotFound, s')
        else (.error (.Errorf "failed to update thread vote" err), s')
      | (.ok updatedThread, s') => (.ok updatedThread, s')

end service

namespace storage

/-- The voice of the vote stored for the pair (thread, voter), or 0 when there
is none. -/
def storedVoice (s : Store) (threadID : Int) (nickname : String) : Int :=
  match s.votes.find? (fun v =>
      decide (v.thread_id = threadID) && decide (v.user_nickname = nickname)) with
  | some v => v.voice
  | none => 0

end storage

namespace example1

/-- The vote `+1` of `ann`. -/
def voteUp : models.Vote :=
  { Nickname := "ann", Voice := 1 }

/-- The vote `-1` of `ann`. -/
def voteDown : models.Vote :=
  { Nickname := "ann", Voice := -1 }

end example1

/-! ## Orders -/

/-- A comparison function that is a strict weak order: `less` is asymmetric and
"not greater" is transitive. -/
structure StrictWeak {α : Type} (less : α → α → Bool) : Prop where
  asymm : ∀ a b, less a b = true → less b a = false
  ntrans : ∀ a b c, less b a = false → less c b = false → less c a = false

/-- A comparison function that is a strict total order. -/
structure StrictTotal {κ : Type} (lt : κ → κ → Bool) : Prop where
  irrefl : ∀ a, lt a a = false
  trans : ∀ a b c, lt a b = true → lt b c = true → lt a c = true
  total : ∀ a b, lt a b = true ∨ a = b ∨ lt b a = true

/-- A strict weak order on rows in which two rows that are not ordered have the
same identifier. -/
structure RowOrder (less : storage.PostRow → storage.PostRow → Bool) : Prop where
  weak : StrictWeak less
  sep : ∀ a b, less a b = false → less b a = false → a.id = b.id

/-! ## Cursors -/

namespace storage

/-- The row a cursor stands for: the post of the thread with identifier
`since`, looked up only when `since > 0`. -/
def cursorRow (s : Store) (tid since : Int) : Option PostRow :=
  if since > 0 then
    s.posts.find? (fun r => decide (r.id = since) && decide (r.thread_id = tid))
  else none

/-- The cursor is absent (`since ≤ 0`) or resolves to a post of the thread. -/
def CursorOk (s : Store) (tid since : Int) : Prop :=
  since ≤ 0 ∨ (cursorRow s tid since).isSome = true

instance (s : Store) (tid since : Int) : Decidable (CursorOk s tid since) := by
  unfold CursorOk
  infer_instance

/-- The row `r` comes strictly after the cursor row in the order `less`; every
row does when there is no cursor row. -/
def after (less : PostRow → PostRow → Bool) (cursor : Option PostRow) (r : PostRow) : Bool :=
  match cursor with
  | none => true
  | some c => less c r

/-- The identifier of the root post `r` is beyond the root of the cursor row:
greater, or smaller when `desc`. -/
def rootAfter (desc : Bool) (cursor : Option PostRow) (r : PostRow) : Bool :=
  match cursor with
  | none => true
  | some c => if desc then decide (r.id < c.root_parent_id) else decide (r.id > c.root_parent_id)

end storage

/-! ## The thread of the scenario: A, B, C, D -/

namespace example2

/-- The root A (1). -/
def rowA : storage.PostRow :=
  { id := 1, parent := 0, author := "ann", message := "A", is_edited := false,
    forum := "f", thread_id := 1, created := 1, path := [1], root_parent_id := 1 }

/-- The reply B (2) to A. -/
def rowB : storage.PostRow :=
  { id := 2, parent := 1, author := "bob", message := "B", is_edited := false,
    forum := "f", thread_id := 1, created := 2, path := [1, 2], root_parent_id := 1 }

/-- The reply C (3) to B. -/
def rowC : storage.PostRow :=
  { id := 3, parent := 2, author := "ann", message := "C", is_edited := false,
    forum := "f", thread_id := 1, created := 3, path := [1, 2, 3], root_parent_id := 1 }

/-- The root D (4). -/
def rowD : storage.PostRow :=
  { id := 4, parent := 0, author := "bob", message := "D", is_edited := false,
    forum := "f", thread_id := 1, created := 4, path := [4], root_parent_id := 4 }

/-- A later reply E (5) to A. -/
def rowE : storage.PostRow :=
  { id := 5, parent := 1, author := "bob", message := "E", is_edited := false,
    forum := "f", thread_id := 1, created := 5, path := [1, 5], root_parent_id := 1 }

/-- The root F (6) of another thread. -/
def rowF : storage.PostRow :=
  { id := 6, parent := 0, author := "ann", message := "F", is_edited := false,
    forum := "f", thread_id := 2, created := 6, path := [6], root_parent_id := 6 }

/-- The thread of the scenario, its rows stored in the order D, B, A, C. -/
def store : storage.Store :=
  { users := example1.store.users
    forums := example1.store.forums
    threads := example1.store.threads
    posts := [rowD, rowB, rowA, rowC]
    forum_users := [("f", "ann"), ("f", "bob")]
    votes := []
    postSeq := 4 }

/-- The same thread with the later reply E, and a second thread with the post F. -/
def store2 : storage.Store :=
  { users := example1.store.users
    forums := example1.store.forums
    threads := example1.store.threads ++ [
      { ID := 2, Title := "U", Author := "bob", Forum := "f", Message := "n",
        Votes := 0, Slug := none, Created := 0 }]
    posts := [rowD, rowB, rowF, rowA, rowE, rowC]
    forum_users := [("f", "ann"), ("f", "bob")]
    votes := []
    postSeq := 6 }

end example2

namespace storage

/-- Every stored path ends with the identifier of its post. -/
def PathsKeyed (s : Store) : Prop :=
  ∀ r ∈ s.posts, r.path.getLast? = some r.id

instance (s : Store) : Decidable (PathsKeyed s) := by
  unfold PathsKeyed
  infer_instance

end storage

namespace storage

/-- The path invariant on a set of posts: a root has the path made of its own
identifier, a reply the path of its parent followed by its own identifier. -/
def PathInvariant (posts : List PostRow) : Prop :=
  ∀ r ∈ posts, (r.parent = 0 → r.path = [r.id]) ∧
    (r.parent ≠ 0 → ∃ q ∈ posts, q.id = r.parent ∧ r.path = q.path ++ [r.id])

instance (posts : List PostRow) : Decidable (PathInvariant posts) := by
  unfold PathInvariant
  infer_instance

/-- The subtree of `a` in a set of posts: `a` itself and, with a post, the
replies to it. -/
inductive InSubtree (posts : List PostRow) (a : PostRow) : PostRow → Prop where
  | self : InSubtree posts a a
  | reply (q d : PostRow) : InSubtree posts a q → d ∈ posts → d.parent ≠ 0 →
      d.parent = q.id → InSubtree posts a d

end storage

namespace storage

/-- The state of table `posts` that the program keeps: the sequence has not
gone below its start, identifiers are distinct, positive and were issued by the
sequence, every path ends with the identifier of its post, and a post without
parent is its own root. -/
def WellFormed (s : Store) : Prop :=
  0 ≤ s.postSeq ∧ PostsKeyed s ∧ (∀ r ∈ s.posts, 0 < r.id) ∧ PathsKeyed s ∧
    (∀ r ∈ s.posts, r.parent = 0 → r.root_parent_id = r.id)

instance (s : Store) : Decidable (WellFormed s) := by
  unfold WellFormed
  infer_instance

end storage

/-! ## Forums and threads: `forum_storage.go`, `forum_service.go` -/

namespace models

structure ThreadUpdate where
  Title : Option String
  Message : Option String
  deriving DecidableEq, Repr

/-- The zero value `models.Forum{}`. -/
def emptyForum : Forum :=
  { Title := "", User := "", Slug := "", Posts := 0, Threads := 0 }

/-- The zero value `models.Thread{}`. -/
def emptyThread : Thread :=
  { ID := 0, Title := "", Author := "", Forum := "", Message := "", Votes := 0, Slug := none,
    Created := 0 }

end models

/-- Go `Time.IsZero`: the zero instant is the integer 0. -/
def IsZero (t : Time) : Bool :=
  decide (t = 0)

namespace storage

/-- `postgresForumStorage.GetForumBySlug`:
`SELECT slug, title, user_nickname, posts, threads FROM forums WHERE slug = $1`. -/
def GetForumBySlug (s : Store) (slug : String) : Except GoError models.Forum :=
  match s.forums.find? (fun f => decide (f.Slug = slug)) with
  | some f => .ok f
  | none => .error .ErrNotFound

/-- Modelled from the spec: the value of a counter column that an `INSERT` does
not name (`posts` and `threads` of a forum, `votes` of a thread).  The schema is
not part of the source; the counters are running counts and the tally of a
thread is the "sum of all current vote values cast on this thread", of which a
new thread has none. -/
def counterDefault : Int :=
  0

/-- Modelled from the spec: the uniqueness constraint of table `forums`, whose
schema is not part of the source ("a uniqueness constraint on (forum slug)"):
a stored forum has the slug. -/
def forumSlugTaken (s : Store) (slug : String) : Bool :=
  s.forums.any (fun f => decide (f.Slug = slug))

/-- Modelled from the spec: the uniqueness constraints of table `threads`, whose
schema is not part of the source ("identity: integer id, optional unique
human-readable slug"): a stored thread has the identifier, or has the slug when
there is one. -/
def threadKeysTaken (s : Store) (id : Int) (slug : Option String) : Bool :=
  s.threads.any (fun t => decide (t.ID = id) || (slug.isSome && decide (t.Slug = slug)))

/-- `postgresForumStorage.CreateForum`.  A violation of the uniqueness
constraint is the code 23505 that line 89 tests. -/
def CreateForum (s : Store) (forum : models.Forum) : Except GoError models.Forum × Store :=
  match s.users.find? (fun u => decide (u.Nickname = forum.User)) with
  | none => (.error .ErrNotFound, s)
  | some u =>
    if forumSlugTaken s forum.Slug then (.error .ErrForumConflict, s)
    else
      let createdForum : models.Forum :=
        { Slug := forum.Slug, Title := forum.Title, User := u.Nickname,
          Posts := counterDefault, Threads := counterDefault }
      (.ok createdForum, { s with forums := s.forums ++ [createdForum] })

/-- `postgresForumStorage.IncrementForumThreadsCount`: `none` is the nil error. -/
def IncrementForumThreadsCount (s : Store) (forumSlug : String) : Option GoError × Store :=
  if s.forums.any (fun f => decide (f.Slug = forumSlug)) then
    (none, { s with forums := s.forums.map (fun f =>
      if f.Slug = forumSlug then { f with Threads := f.Threads + 1 } else f) })
  else (some .ErrNotFound, s)

/-- `postgresForumStorage.GetThreadBySlug`: `SELECT ... FROM threads WHERE slug = $1`. -/
def GetThreadBySlug (s : Store) (slug : String) : Except GoError models.Thread :=
  match s.threads.find? (fun t => decide (t.Slug = some slug)) with
  | some t => .ok t
  | none => .error .ErrNotFound

/-- `postgresForumStorage.CreateThread`, with `now` the value of `time.Now()` at
line 191 and `id` the identifier the store generates for the new row.  A
violation of a uniqueness constraint is the code 23505 that line 218 tests;
the column `votes` is not among the columns inserted. -/
def CreateThread (s : Store) (thread : models.Thread) (id : Int) (now : Time) :
    Except GoError models.Thread × Store :=
  match s.users.find? (fun u => decide (u.Nickname = thread.Author)) with
  | none => (.error .ErrNotFound, s)
  | some u =>
    match s.forums.find? (fun f => decide (f.Slug = thread.Forum)) with
    | none => (.error .ErrNotFound, s)
    | some _ =>
      let slugSQL : Option String :=
        match thread.Slug with
        | some slug => if slug ≠ "" then some slug else none
        | none => none
      let createdTime : Time := if ¬ IsZero thread.Created then thread.Created else now
      if threadKeysTaken s id slugSQL then (.error .ErrThreadConflict, s)
      else
        let created : models.Thread :=
          { ID := id, Title := thread.Title, Author := u.Nickname, Forum := thread.Forum,
            Message := thread.Message, Votes := counterDefault, Slug := slugSQL,
            Created := createdTime }
        (.ok created,
          { s with
            threads := s.threads ++ [created]
            forum_users := insertForumUser s.forum_users (created.Forum, created.Author) })

/-- `postgresThreadStorage.UpdateThread`: with nothing to set the row is read,
otherwise `UPDATE threads SET ... WHERE id = $n RETURNING ...`; the columns
`votes` and `id` are in neither `SET` list. -/
def UpdateThread (s : Store) (slugOrID : String) (updateData : models.ThreadUpdate) :
    Except GoError models.Thread × Store :=
  match GetThreadIDBySlugOrID s slugOrID with
  | .error err => (.error err, s)
  | .ok threadID =>
    if updateData.Title.isNone ∧ updateData.Message.isNone then
      match s.threads.find? (fun t => decide (t.ID = threadID)) with
      | none => (.error .ErrNotFound, s)
      | some thread => (.ok thread, s)
    else
      let set : models.Thread → models.Thread := fun t =>
        { t with
          Title := updateData.Title.getD t.Title
          Message := updateData.Message.getD t.Message }
      match s.threads.find? (fun t => decide (t.ID = threadID)) with
      | none => (.error .ErrNotFound, s)
      | some thread =>
        (.ok (set thread),
          { s with threads := s.threads.map (fun t => if t.ID = threadID then set t else t) })

/-- The `Scan` of `GetPostByID` and `UpdatePostMessage`: eight columns, `Path`
and `RootParentID` keep their zero values. -/
def scanPostDetails (r : PostRow) : models.Post :=
  { ID := r.id, Parent := r.parent, Author := r.author, Message := r.message,
    IsEdited := r.is_edited, Forum := r.forum, Thread := r.thread_id,
    Created := r.created, Path := none, RootParentID := 0 }

/-- `postgresPostStorage.GetPostByID`. -/
def GetPostByID (s : Store) (id : Int) : Except GoError models.Post :=
  match s.posts.find? (fun r => decide (r.id = id)) with
  | some r => .ok (scanPostDetails r)
  | none => .error .ErrNotFound

/-- `postgresPostStorage.UpdatePostMessage`:
`UPDATE posts SET message = $1, is_edited = TRUE WHERE id = $2 RETURNING ...`. -/
def UpdatePostMessage (s : Store) (id : Int) (newMessage : String) :
    Except GoError models.Post × Store :=
  match s.posts.find? (fun r => decide (r.id = id)) with
  | none => (.error .ErrNotFound, s)
  | some r =>
    (.ok (scanPostDetails { r with message := newMessage, is_edited := true }),
      { s with posts := s.posts.map (fun r =>
        if r.id = id then { r with message := newMessage, is_edited := true } else r) })

end storage

namespace service

/-- `forumServiceImpl.CreateForum`.  The Go function returns a forum and an
error at once: the pair of both, `none` being the nil error. -/
def CreateForum (s : storage.Store) (newForum : models.Forum) :
    (models.Forum × Option GoError) × storage.Store :=
  match storage.GetUserByNickname s newForum.User with
  | .error err =>
    if errorsIs err .ErrNotFound then ((models.emptyForum, some .ErrOwnerNotFound), s)
    else ((models.emptyForum, some (.Errorf "failed to check user existence" err)), s)
  | .ok userFromDB =>
    match storage.GetForumBySlug s newForum.Slug with
    | .ok existingForum =>
      (({ existingForum with User := userFromDB.Nickname }, some .ErrForumConflict), s)
    | .error err =>
      if ¬ errorsIs err .ErrNotFound then
        ((models.emptyForum, some (.Errorf "failed to check forum existence" err)), s)
      else
        let forumToCreate : models.Forum :=
          { Slug := newForum.Slug, Title := newForum.Title, User := userFromDB.Nickname,
            Posts := 0, Threads := 0 }
        match storage.CreateForum s forumToCreate with
        | (.error err, s') =>
          if errorsIs err .ErrForumConflict then
            match storage.GetForumBySlug s' newForum.Slug with
            | .ok recheckForum =>
              (({ recheckForum with User := userFromDB.Nickname }, some .ErrForumConflict), s')
            | .error _ =>
              ((models.emptyForum, some (.Errorf
                "failed to retrieve conflicting forum after creation attempt" err)), s')
          else ((models.emptyForum, some (.Errorf "failed to save new forum" err)), s')
        | (.ok createdForum, s') =>
          (({ createdForum with User := userFromDB.Nickname }, none), s')

/-- `forumServiceImpl.CreateThread`: `id` is the identifier the store generates,
`now` the value of `time.Now()` at line 113 and `now2` the one taken by the
storage.  A failure of `IncrementForumThreadsCount` is only printed. -/
def CreateThread (s : storage.Store) (forumSlug : String) (newThread : models.Thread)
    (id : Int) (now now2 : Time) : (models.Thread × Option GoError) × storage.Store :=
  match storage.GetForumBySlug s forumSlug with
  | .error err =>
    if errorsIs err .ErrNotFound then ((models.emptyThread, some .ErrNotFound), s)
    else ((models.emptyThread, some (.Errorf "failed to check forum existence" err)), s)
  | .ok forumFromDB =>
    match storage.GetUserByNickname s newThread.Author with
    | .error err =>
      if errorsIs err .ErrNotFound then ((models.emptyThread, some .ErrOwnerNotFound), s)
      else ((models.emptyThread, some (.Errorf "failed to check author existence" err)), s)
    | .ok userFromDB =>
      let checked : Option (models.Thread × Option GoError) :=
        match newThread.Slug with
        | none => none
        | some slug =>
          if slug ≠ "" then
            match storage.GetThreadBySlug s slug with
            | .ok existingThread => some (existingThread, some .ErrThreadConflict)
            | .error err =>
              if ¬ errorsIs err .ErrNotFound then
                some (models.emptyThread,
                  some (.Errorf "failed to check thread existence by slug" err))
              else none
          else none
      match checked with
      | some answer => (answer, s)
      | none =>
        let creationTime : Time := if IsZero newThread.Created then now else newThread.Created
        let threadToCreate : models.Thread :=
          { ID := 0, Title := newThread.Title, Author := userFromDB.Nickname,
            Forum := forumFromDB.Slug, Message := newThread.Message, Slug := newThread.Slug,
            Created := creationTime, Votes := 0 }
        match storage.CreateThread s threadToCreate id now2 with
        | (.error err, s') =>
          if errorsIs err .ErrThreadConflict then
            let recheck : Option models.Thread :=
              match threadToCreate.Slug with
              | none => none
              | some slug =>
                if slug ≠ "" then
                  match storage.GetThreadBySlug s' slug with
                  | .ok recheckThread => some recheckThread
                  | .error _ => none
                else none
            match recheck with
            | some recheckThread => ((recheckThread, some .ErrThreadConflict), s')
            | none =>
              ((models.emptyThread, some (.Errorf
                "failed to retrieve conflicting thread after creation attempt" err)), s')
          else ((models.emptyThread, some (.Errorf "failed to save new thread" err)), s')
        | (.ok createdThread, s') =>
          ((createdThread, none), (storage.IncrementForumThreadsCount s' forumFromDB.Slug).2)

/-- `threadServiceImpl.UpdateThread`. -/
def UpdateThread (s : storage.Store) (slugOrID : String) (updateData : models.ThreadUpdate) :
    Except GoError models.Thread × storage.Store :=
  match storage.UpdateThread s slugOrID updateData with
  | (.error err, s') =>
    if errorsIs err .ErrNotFound then (.error .ErrNotFound, s')
    else (.error (.Errorf "failed to update thread" err), s')
  | (.ok updatedThread, s') => (.ok updatedThread, s')

/-- `postServiceImpl.UpdatePostDetails`. -/
def UpdatePostDetails (s : storage.Store) (id : Int) (newMessage : String) :
    Except GoError models.Post × storage.Store :=
  match storage.GetPostByID s id with
  | .error err =>
    if errorsIs err .ErrNotFound then (.error .ErrPostNotFound, s)
    else (.error (.Errorf "failed to get existing post for update" err), s)
  | .ok existingPost =>
    if newMessage = "" then (.ok existingPost, s)
    else if existingPost.Message = newMessage then (.ok existingPost, s)
    else
      match storage.UpdatePostMessage s id newMessage with
      | (.error err, s') =>
        if errorsIs err .ErrNotFound then (.error .ErrPostNotFound, s')
        else (.error (.Errorf "failed to update post message in storage" err), s')
      | (.ok updatedPost, s') => (.ok updatedPost, s')

end service

/-! ## The vote ledger: notions used by the statements -/

namespace storage

/-- The sum of the voices of the votes stored for the thread. -/
def tally (s : Store) (threadID : Int) : Int :=
  ((s.votes.filter (fun v => decide (v.thread_id = threadID))).map (fun v => v.voice)).sum

/-- At most one vote is stored for a pair (thread, voter). -/
def VotesKeyed (s : Store) : Prop :=
  (s.votes.map (fun v => (v.thread_id, v.user_nickname))).Nodup

instance (s : Store) : Decidable (VotesKeyed s) := by
  unfold VotesKeyed
  infer_instance

/-- The state of the vote ledger: one vote for a pair (thread, voter), every
vote is for a stored thread, and the tally of every thread is the sum of the
voices of its votes. -/
def VotesConsistent (s : Store) : Prop :=
  VotesKeyed s ∧ (∀ v ∈ s.votes, ∃ t ∈ s.threads, t.ID = v.thread_id) ∧
    (∀ t ∈ s.threads, t.Votes = tally s t.ID)

instance (s : Store) : Decidable (VotesConsistent s) := by
  unfold VotesConsistent
  infer_instance

end storage

namespace service

/-- The stores reached from `s0` by calls of the service, one after the other:
forum and thread creation, thread update, vote, post creation and post edit. -/
inductive Reachable (s0 : storage.Store) : storage.Store → Prop where
  | start : Reachable s0 s0
  | createForum (s : storage.Store) (newForum : models.Forum) :
    Reachable s0 s → Reachable s0 (CreateForum s newForum).2
  | createThread (s : storage.Store) (forumSlug : String) (newThread : models.Thread)
      (id : Int) (now now2 : Time) :
    Reachable s0 s → Reachable s0 (CreateThread s forumSlug newThread id now now2).2
  | updateThread (s : storage.Store) (slugOrID : String) (updateData : models.ThreadUpdate) :
    Reachable s0 s → Reachable s0 (UpdateThread s slugOrID updateData).2
  | voteThread (s : storage.Store) (slugOrID : String) (vote : models.Vote) :
    Reachable s0 s → Reachable s0 (VoteThread s slugOrID vote).2
  | createPosts (s : storage.Store) (slugOrID : String) (newPosts : List models.Post)
      (creationTime created : Time) :
    Reachable s0 s → Reachable s0 (CreatePosts s slugOrID newPosts creationTime created).2
  | updatePostDetails (s : storage.Store) (id : Int) (newMessage : String) :
    Reachable s0 s → Reachable s0 (UpdatePostDetails s id newMessage).2

end service

namespace example3

/-- The users and forums of `example1.store`, and nothing else. -/
def base : storage.Store :=
  { users := example1.store.users
    forums := [
      { Title := "Forum", User := "ann", Slug := "f", Posts := 0, Threads := 0 },
      { Title := "Other", User := "ann", Slug := "g", Posts := 0, Threads := 0 }]
    threads := []
    posts := []
    forum_users := []
    votes := []
    postSeq := 0 }

/-- A request body for a thread with slug `th`. -/
def newThread : models.Thread :=
  { ID := 0, Title := "T", Author := "ann", Forum := "", Message := "m", Votes := 0,
    Slug := some "th", Created := 0 }

/-- The store after the thread is created with identifier 1. -/
def withThread : storage.Store :=
  (service.CreateThread base "f" newThread 1 5 6).2

/-- The vote `+1` of `bob`. -/
def bobUp : models.Vote :=
  { Nickname := "bob", Voice := 1 }

/-- The store after `ann` and `bob` voted `+1`. -/
def voted : storage.Store :=
  (service.VoteThread (service.VoteThread withThread "th" example1.voteUp).2 "1" bobUp).2

/-- The store after `ann` then changed the vote to `-1`. -/
def revoted : storage.Store :=
  (service.VoteThread voted "th" example1.voteDown).2

end example3

namespace example4

/-- A post for thread 1, as the service hands it to the storage. -/
def post (parent : Int) : models.Post :=
  { ID := 0, Parent := parent, Author := "ann", Message := "x", IsEdited := false,
    Forum := "", Thread := 1, Created := 10, Path := none, RootParentID := 0 }

/-- The thread of `example1.store`. -/
def thread : models.Thread :=
  { ID := 1, Title := "T", Author := "ann", Forum := "f", Message := "m",
    Votes := 0, Slug := some "th", Created := 0 }

/-- The tail of a batch that will receive the identifiers 3 to 7: after the
root 3, a reply to 3, a reply to that reply, a reply to the stored post 1, and
another root. -/
def replies : List models.Post :=
  [post 3, post 4, post 1, post 0]

end example4


/-! ## Sorting -/

theorem orderedInsert_perm {α : Type} (less : α → α → Bool) (a : α) (l : List α) :
    (orderedInsert less a l).Perm (a :: l) := by
  induction l with
  | nil => simp [orderedInsert]
  | cons b bs ih =>
    unfold orderedInsert
    split
    · exact (List.Perm.cons b ih).trans (List.Perm.swap a b bs)
    · exact List.Perm.refl _

theorem sortSlice_perm {α : Type} (less : α → α → Bool) (l : List α) :
    (sortSlice less l).Perm l := by
  induction l with
  | nil => simp [sortSlice]
  | cons a as ih =>
    unfold sortSlice
    exact (orderedInsert_perm less a _).trans (List.Perm.cons a ih)

theorem mem_sortSlice {α : Type} (less : α → α → Bool) (l : List α) (a : α) :
    a ∈ sortSlice less l ↔ a ∈ l :=
  (sortSlice_perm less l).mem_iff

namespace storage

/-! ## The rows of one `INSERT` -/

theorem insertedRows_length (seq : Int) (f : String) (c : Time) (ps : List models.Post) :
    (insertedRows seq f c ps).length = ps.length := by
  induction ps generalizing seq with
  | nil => rfl
  | cons p ps ih => simp [insertedRows, ih]

theorem insertedRows_id_gt (seq : Int) (f : String) (c : Time) (ps : List models.Post) :
    ∀ r ∈ insertedRows seq f c ps, seq < r.id ∧ r.id ≤ seq + ps.length := by
  induction ps generalizing seq with
  | nil => simp [insertedRows]
  | cons p ps ih =>
    intro r hr
    simp only [insertedRows, nextval, List.mem_cons] at hr
    rcases hr with rfl | hr
    · simp only [List.length_cons, Nat.cast_add, Nat.cast_one]
      omega
    · have := ih (seq + 1) r hr
      simp only [List.length_cons, Nat.cast_add, Nat.cast_one]
      omega

theorem insertedRows_nodup (seq : Int) (f : String) (c : Time) (ps : List models.Post) :
    ((insertedRows seq f c ps).map (fun r => r.id)).Nodup := by
  induction ps generalizing seq with
  | nil => simp [insertedRows]
  | cons p ps ih =>
    simp only [insertedRows, nextval, List.map_cons, List.nodup_cons]
    refine ⟨?_, ih (seq + 1)⟩
    intro hmem
    rcases List.mem_map.mp hmem with ⟨r, hr, hid⟩
    have := insertedRows_id_gt (seq + 1) f c ps r hr
    omega

end storage


namespace storage

/-! ## Path assignment -/

theorem resolvePath_direct (tx : List PostRow) (m : List models.Post) (cur : models.Post)
    (h : cur.Parent = 0 ∨ ((∀ q ∈ m, q.ID ≠ cur.Parent) ∧
      (tx.find? (fun r => decide (r.id = cur.Parent) && decide (r.thread_id = cur.Thread))).isSome)) :
    resolvePath tx m cur = .ok (directPath tx cur) := by
  unfold resolvePath directPath
  by_cases h0 : cur.Parent = 0
  · simp [h0]
  · rcases h with h | ⟨hm, htx⟩
    · exact absurd h h0
    · have hnone : m.find? (fun q => decide (q.ID = cur.Parent)) = none := by
        rw [List.find?_eq_none]
        intro q hq
        simpa using hm q hq
      obtain ⟨r, hr⟩ := Option.isSome_iff_exists.mp htx
      simp [h0, hnone, hr]

theorem withDirect_idem (tx : List PostRow) (q : models.Post) :
    withDirect tx (withDirect tx q) = withDirect tx q := by
  simp [withDirect, directPath]

theorem mem_setPath {m : List models.Post} {id : Int} {p : List Int} {k : Int} {q : models.Post}
    (hq : q ∈ setPath m id p k) :
    ∃ q0 ∈ m, q.ID = q0.ID ∧ q.Parent = q0.Parent ∧ q.Thread = q0.Thread := by
  unfold setPath at hq
  rcases List.mem_map.mp hq with ⟨q0, hq0, rfl⟩
  refine ⟨q0, hq0, ?_⟩
  split <;> simp

theorem setPath_step (tx : List PostRow) (q cur : models.Post) (hid : q.ID = cur.ID)
    (hp : q.Parent = cur.Parent) (ht : q.Thread = cur.Thread) :
    { q with Path := some (directPath tx cur).1, RootParentID := (directPath tx cur).2 }
      = withDirect tx q := by
  have hd : directPath tx cur = directPath tx q := by
    simp [directPath, hid, hp, ht]
  simp [withDirect, hd]

theorem assignPaths_direct (tx : List PostRow) (order : List models.Post) :
    ∀ (m : List models.Post) (batch : List (List Int × Int × Int)),
    (∀ cur ∈ order, cur.Parent = 0 ∨ ((∀ q ∈ m, q.ID ≠ cur.Parent) ∧
      (tx.find? (fun r => decide (r.id = cur.Parent) && decide (r.thread_id = cur.Thread))).isSome)) →
    (∀ cur ∈ order, ∀ q ∈ m, q.ID = cur.ID → q.Parent = cur.Parent ∧ q.Thread = cur.Thread) →
    assignPaths tx order m batch =
      .ok (m.map (fun q => if q.ID ∈ order.map (fun c => c.ID) then withDirect tx q else q),
        batch ++ order.map (fun c => ((directPath tx c).1, (directPath tx c).2, c.ID))) := by
  induction order with
  | nil =>
    intro m batch _ _
    simp [assignPaths]
  | cons cur rest ih =>
    intro m batch hres hcoh
    have h1 : ∀ c ∈ rest, c.Parent = 0 ∨
        ((∀ q ∈ setPath m cur.ID (directPath tx cur).1 (directPath tx cur).2, q.ID ≠ c.Parent) ∧
        (tx.find? (fun r => decide (r.id = c.Parent) && decide (r.thread_id = c.Thread))).isSome) := by
      intro c hc
      rcases hres c (List.mem_cons_of_mem _ hc) with h | ⟨hm, htx⟩
      · exact Or.inl h
      · refine Or.inr ⟨?_, htx⟩
        intro q hq
        obtain ⟨q0, hq0, hid, _, _⟩ := mem_setPath hq
        rw [hid]
        exact hm q0 hq0
    have h2 : ∀ c ∈ rest, ∀ q ∈ setPath m cur.ID (directPath tx cur).1 (directPath tx cur).2,
        q.ID = c.ID → q.Parent = c.Parent ∧ q.Thread = c.Thread := by
      intro c hc q hq hid
      obtain ⟨q0, hq0, hid0, hp0, ht0⟩ := mem_setPath hq
      rw [hp0, ht0]
      exact hcoh c (List.mem_cons_of_mem _ hc) q0 hq0 (hid0 ▸ hid)
    unfold assignPaths
    rw [resolvePath_direct tx m cur (hres cur (List.mem_cons_self _ _))]
    simp only
    rw [ih _ _ h1 h2]
    have hmap : (setPath m cur.ID (directPath tx cur).1 (directPath tx cur).2).map
        (fun q => if q.ID ∈ rest.map (fun c => c.ID) then withDirect tx q else q)
        = m.map (fun q => if q.ID ∈ (cur :: rest).map (fun c => c.ID) then withDirect tx q else q) := by
      simp only [setPath, List.map_map]
      apply List.map_congr_left
      intro q hq
      simp only [Function.comp_apply, List.map_cons, List.mem_cons]
      by_cases hid : q.ID = cur.ID
      · obtain ⟨hp, ht⟩ := hcoh cur (List.mem_cons_self _ _) q hq hid
        rw [if_pos hid, setPath_step tx q cur hid hp ht, if_pos (Or.inl hid)]
        split
        · exact withDirect_idem tx q
        · rfl
      · rw [if_neg hid]
        simp [hid]
    rw [hmap]
    simp

theorem setPath_core (m : List models.Post) (id : Int) (p : List Int) (k : Int) :
    (setPath m id p k).map corePost = m.map corePost := by
  simp only [setPath, List.map_map]
  apply List.map_congr_left
  intro q _
  simp only [Function.comp_apply]
  split <;> rfl

theorem assignPaths_core (tx : List PostRow) (order : List models.Post) :
    ∀ (m : List models.Post) (batch : List (List Int × Int × Int))
      (res : List models.Post) (us : List (List Int × Int × Int)),
    assignPaths tx order m batch = .ok (res, us) → res.map corePost = m.map corePost := by
  induction order with
  | nil =>
    intro m batch res us h
    simp only [assignPaths, Except.ok.injEq, Prod.mk.injEq] at h
    rw [← h.1]
  | cons cur rest ih =>
    intro m batch res us h
    unfold assignPaths at h
    split at h
    · exact absurd h (by simp)
    · rename_i fp fr _
      rw [ih _ _ res us h, setPath_core]

end storage

/-! ## The checks of the service -/

namespace service

theorem checkParents_eq (s : storage.Store) (tid : Int) (ps : List models.Post) :
    checkParents s tid ps =
      if ∀ p ∈ ps, p.Parent ≠ 0 → storage.CheckParentPostExistsInThread s p.Parent tid = true
      then .ok () else .error .ErrParentNotFound := by
  induction ps with
  | nil => simp [checkParents]
  | cons p ps ih =>
    unfold checkParents
    by_cases h0 : p.Parent = 0
    · simp [h0, ih]
    · by_cases hc : storage.CheckParentPostExistsInThread s p.Parent tid = true
      · simp [h0, hc, ih]
      · simp [h0, hc]

theorem GetUserByNickname_ok_iff (s : storage.Store) (a : String) :
    (∃ u, storage.GetUserByNickname s a = .ok u) ↔ storage.UserExists s a := by
  unfold storage.GetUserByNickname storage.UserExists
  constructor
  · rintro ⟨u, hu⟩
    split at hu
    · rename_i u0 hfind
      exact ⟨u0, List.mem_of_find?_eq_some hfind, by simpa using List.find?_some hfind⟩
    · exact absurd hu (by simp)
  · rintro ⟨u, hu, hn⟩
    cases hfind : s.users.find? (fun u => decide (u.Nickname = a)) with
    | none =>
      rw [List.find?_eq_none] at hfind
      exact absurd (by simpa using hn) (hfind u hu)
    | some u0 => exact ⟨u0, rfl⟩

theorem GetUserByNickname_error (s : storage.Store) (a : String) (e : GoError)
    (h : storage.GetUserByNickname s a = .error e) : e = .ErrNotFound := by
  unfold storage.GetUserByNickname at h
  split at h
  · exact absurd h (by simp)
  · simpa using h.symm

theorem checkAuthors_eq (s : storage.Store) (as : List String) :
    checkAuthors s as =
      if ∀ a ∈ as, storage.UserExists s a then .ok () else .error .ErrOwnerNotFound := by
  induction as with
  | nil => simp [checkAuthors]
  | cons a as ih =>
    unfold checkAuthors
    cases hg : storage.GetUserByNickname s a with
    | error e =>
      have he := GetUserByNickname_error s a e hg
      subst he
      have hno : ¬ storage.UserExists s a := by
        intro hex
        obtain ⟨u, hu⟩ := (GetUserByNickname_ok_iff s a).mpr hex
        rw [hg] at hu
        exact absurd hu (by simp)
      simp [errorsIs, hno]
    | ok u =>
      have hex : storage.UserExists s a := (GetUserByNickname_ok_iff s a).mp ⟨u, hg⟩
      simp [ih, hex]

theorem mem_uniqueAuthors (ps : List models.Post) :
    ∀ (seen : List String) (a : String),
      a ∈ uniqueAuthors ps seen ↔ a ∈ seen ∨ ∃ p ∈ ps, p.Author = a := by
  induction ps with
  | nil => intro seen a; simp [uniqueAuthors]
  | cons p ps ih =>
    intro seen a
    unfold uniqueAuthors
    split
    · rename_i hmem
      rw [ih]
      constructor
      · rintro (h | ⟨q, hq, rfl⟩)
        · exact Or.inl h
        · exact Or.inr ⟨q, List.mem_cons_of_mem _ hq, rfl⟩
      · rintro (h | ⟨q, hq, rfl⟩)
        · exact Or.inl h
        · rcases List.mem_cons.mp hq with rfl | hq
          · exact Or.inl hmem
          · exact Or.inr ⟨q, hq, rfl⟩
    · rw [ih]
      simp only [List.mem_append, List.mem_singleton, List.mem_cons, List.not_mem_nil, or_false]
      constructor
      · rintro ((h | rfl) | ⟨q, hq, rfl⟩)
        · exact Or.inl h
        · exact Or.inr ⟨p, Or.inl rfl, rfl⟩
        · exact Or.inr ⟨q, Or.inr hq, rfl⟩
      · rintro (h | ⟨q, rfl | hq, rfl⟩)
        · exact Or.inl (Or.inl h)
        · exact Or.inl (Or.inr rfl)
        · exact Or.inr ⟨q, hq, rfl⟩

theorem checkAuthors_unique_eq (s : storage.Store) (ps : List models.Post) :
    checkAuthors s (uniqueAuthors ps []) =
      if ∀ p ∈ ps, storage.UserExists s p.Author then .ok () else .error .ErrOwnerNotFound := by
  rw [checkAuthors_eq]
  have : (∀ a ∈ uniqueAuthors ps [], storage.UserExists s a) ↔
      (∀ p ∈ ps, storage.UserExists s p.Author) := by
    constructor
    · intro h p hp
      exact h p.Author ((mem_uniqueAuthors ps [] p.Author).mpr (Or.inr ⟨p, hp, rfl⟩))
    · intro h a ha
      rcases (mem_uniqueAuthors ps [] a).mp ha with h0 | ⟨p, hp, rfl⟩
      · exact absurd h0 (List.not_mem_nil _)
      · exact h p hp
  simp only [this]

/-- A resolved thread identifier is the identifier of a stored thread. -/
theorem GetThreadIDBySlugOrID_ok (s : storage.Store) (slugOrID : String) (tid : Int)
    (h : storage.GetThreadIDBySlugOrID s slugOrID = .ok tid) :
    ∃ th, s.threads.find? (fun t => decide (t.ID = tid)) = some th := by
  unfold storage.GetThreadIDBySlugOrID at h
  simp only at h
  split at h
  · exact absurd h (by simp)
  · split at h
    · rename_i t hfind
      simp only [Except.ok.injEq] at h
      have hmem := List.mem_of_find?_eq_some hfind
      cases hf : s.threads.find? (fun t => decide (t.ID = tid)) with
      | none =>
        rw [List.find?_eq_none] at hf
        exact absurd (by simpa using h) (hf t hmem)
      | some th => exact ⟨th, rfl⟩
    · exact absurd h (by simp)

end service

namespace storage

/-! ## The update batch -/

theorem applyUpdates_id (us : List (List Int × Int × Int)) :
    ∀ r : PostRow, (applyUpdates us r).id = r.id := by
  induction us with
  | nil => intro r; rfl
  | cons u us ih =>
    intro r
    simp only [applyUpdates, List.foldl_cons] at ih ⊢
    rw [ih]
    split <;> rfl

theorem applyUpdates_of_not_mem (us : List (List Int × Int × Int)) :
    ∀ r : PostRow, (∀ u ∈ us, u.2.2 ≠ r.id) → applyUpdates us r = r := by
  induction us with
  | nil => intro r _; rfl
  | cons u us ih =>
    intro r h
    have hu : ¬ r.id = u.2.2 := fun e => h u (List.mem_cons_self _ _) e.symm
    simp only [applyUpdates, List.foldl_cons, if_neg hu] at ih ⊢
    exact ih r (fun v hv => h v (List.mem_cons_of_mem _ hv))

theorem foldl_execUpdate (us : List (List Int × Int × Int)) :
    ∀ rows : List PostRow, us.foldl execUpdate rows = rows.map (applyUpdates us) := by
  induction us with
  | nil =>
    intro rows
    have hid : applyUpdates [] = id := funext (fun _ => rfl)
    simp [hid]
  | cons u us ih =>
    intro rows
    rw [List.foldl_cons, ih]
    simp only [execUpdate, List.map_map]
    apply List.map_congr_left
    intro r _
    simp [applyUpdates]

/-! ## Looking up a committed parent -/

theorem find_committed (s : Store) (par tid : Int)
    (hc : CheckParentPostExistsInThread s par tid = true) :
    ∃ r, s.posts.find? (fun r => decide (r.id = par) && decide (r.thread_id = tid)) = some r := by
  unfold CheckParentPostExistsInThread at hc
  rw [List.any_eq_true] at hc
  exact Option.isSome_iff_exists.mp (List.find?_isSome.mpr hc)

theorem directPath_append (committed rows : List PostRow) (q : models.Post)
    (h : q.Parent = 0 ∨ ∃ r, committed.find?
      (fun r => decide (r.id = q.Parent) && decide (r.thread_id = q.Thread)) = some r) :
    directPath (committed ++ rows) q = directPath committed q := by
  unfold directPath
  rcases h with h | ⟨r, hr⟩
  · simp [h]
  · simp [List.find?_append, hr]

/-! ## The rows of a batch and the posts of the request -/

theorem insertedRows_fields (seq : Int) (f : String) (c : Time) (ps : List models.Post) :
    (insertedRows seq f c ps).map (fun r => (r.parent, r.author, r.message, r.thread_id))
      = ps.map (fun p => (p.Parent, p.Author, p.Message, p.Thread)) := by
  induction ps generalizing seq with
  | nil => rfl
  | cons p ps ih => simp [insertedRows, ih]

theorem insertedRows_mem (seq : Int) (f : String) (c : Time) (ps : List models.Post) :
    ∀ r ∈ insertedRows seq f c ps, ∃ p ∈ ps, r.parent = p.Parent ∧ r.thread_id = p.Thread := by
  induction ps generalizing seq with
  | nil => simp [insertedRows]
  | cons p ps ih =>
    intro r hr
    simp only [insertedRows, nextval, List.mem_cons] at hr
    rcases hr with rfl | hr
    · exact ⟨p, List.mem_cons_self _ _, rfl, rfl⟩
    · obtain ⟨p0, hp0, h1, h2⟩ := ih (seq + 1) r hr
      exact ⟨p0, List.mem_cons_of_mem _ hp0, h1, h2⟩

end storage

namespace storage

/-! ## The storage call made by the service -/

theorem scanCreated_ids (rows : List PostRow) :
    (rows.map scanCreated).map (fun c => c.ID) = rows.map (fun r => r.id) := by
  simp [List.map_map, Function.comp_def, scanCreated]

/-- When every non-zero parent of the batch is a committed post of its thread,
`CreatePosts` succeeds: each post receives the path of its committed parent
extended by its own identifier, and the committed rows are left as they were. -/
theorem CreatePosts_checked (s : Store) (posts : List models.Post) (created : Time)
    (tid : Int) (th : models.Thread)
    (hk : ∀ r ∈ s.posts, r.id ≤ s.postSeq)
    (hth : s.threads.find? (fun t => decide (t.ID = tid)) = some th)
    (hne : posts ≠ [])
    (htid : ∀ p ∈ posts, p.Thread = tid)
    (hpar : ∀ p ∈ posts, p.Parent ≠ 0 → CheckParentPostExistsInThread s p.Parent tid = true) :
    ∃ Y : List PostRow,
      Y.map (fun r => r.id)
        = (insertedRows s.postSeq th.Forum created posts).map (fun r => r.id) ∧
      CreatePosts s posts created =
        (.ok (((insertedRows s.postSeq th.Forum created posts).map scanCreated).map
            (withDirect s.posts)),
          { s with
            posts := s.posts ++ Y
            forums := s.forums.map (fun f =>
              if f.Slug = th.Forum then { f with Posts := f.Posts + posts.length } else f)
            forum_users := (queueForumUsers th.Forum
              ((insertedRows s.postSeq th.Forum created posts).map scanCreated) []).foldl
              insertForumUser s.forum_users
            postSeq := s.postSeq + posts.length }) := by
  obtain ⟨p0, ps, rfl⟩ := List.exists_cons_of_ne_nil hne
  have hp0 : p0.Thread = tid := htid p0 (List.mem_cons_self _ _)
  generalize hrows : insertedRows s.postSeq th.Forum created (p0 :: ps) = rows
  have hgt : ∀ r ∈ rows, s.postSeq < r.id := by
    intro r hr
    rw [← hrows] at hr
    exact (insertedRows_id_gt _ _ _ _ r hr).1
  have hnd : ((rows.map scanCreated).map (fun c => c.ID)).Nodup := by
    rw [scanCreated_ids, ← hrows]
    exact insertedRows_nodup _ _ _ _
  -- every created post is a root or has a committed parent in its thread
  have hK : ∀ q ∈ rows.map scanCreated, q.Parent = 0 ∨ ∃ r0, s.posts.find?
      (fun r => decide (r.id = q.Parent) && decide (r.thread_id = q.Thread)) = some r0 := by
    intro q hq
    obtain ⟨r, hr, rfl⟩ := List.mem_map.mp hq
    rw [← hrows] at hr
    obtain ⟨p, hp, h1, h2⟩ := insertedRows_mem _ _ _ _ r hr
    by_cases h0 : r.parent = 0
    · exact Or.inl h0
    · right
      have hc := hpar p hp (h1 ▸ h0)
      have ht : r.thread_id = tid := h2.trans (htid p hp)
      simpa [scanCreated, h1, ht] using find_committed s p.Parent tid hc
  have hres : ∀ cur ∈ sortSlice processingLess (rows.map scanCreated),
      cur.Parent = 0 ∨ ((∀ q ∈ rows.map scanCreated, q.ID ≠ cur.Parent) ∧
        ((s.posts ++ rows).find? (fun r => decide (r.id = cur.Parent)
          && decide (r.thread_id = cur.Thread))).isSome) := by
    intro cur hcur
    rcases hK cur ((mem_sortSlice _ _ _).mp hcur) with h | ⟨r0, hr0⟩
    · exact Or.inl h
    · refine Or.inr ⟨?_, by simp [List.find?_append, hr0]⟩
      intro q hq hqid
      obtain ⟨r, hr, rfl⟩ := List.mem_map.mp hq
      have h1 := hgt r hr
      have h2 := hk r0 (List.mem_of_find?_eq_some hr0)
      have h3 : r0.id = cur.Parent := by
        have := List.find?_some hr0
        simp only [Bool.and_eq_true, decide_eq_true_eq] at this
        exact this.1
      simp only [scanCreated] at hqid
      omega
  have hcoh : ∀ cur ∈ sortSlice processingLess (rows.map scanCreated),
      ∀ q ∈ rows.map scanCreated, q.ID = cur.ID → q.Parent = cur.Parent ∧ q.Thread = cur.Thread := by
    intro cur hcur q hq hid
    have := List.inj_on_of_nodup_map hnd hq ((mem_sortSlice _ _ _).mp hcur) hid
    subst this
    exact ⟨rfl, rfl⟩
  have hassign := assignPaths_direct (s.posts ++ rows)
    (sortSlice processingLess (rows.map scanCreated)) (rows.map scanCreated) [] hres hcoh
  have hmap : (rows.map scanCreated).map (fun q =>
      if q.ID ∈ (sortSlice processingLess (rows.map scanCreated)).map (fun c => c.ID)
      then withDirect (s.posts ++ rows) q else q)
      = (rows.map scanCreated).map (withDirect s.posts) := by
    apply List.map_congr_left
    intro q hq
    have hin : q.ID ∈ (sortSlice processingLess (rows.map scanCreated)).map (fun c => c.ID) :=
      List.mem_map.mpr ⟨q, (mem_sortSlice _ _ _).mpr hq, rfl⟩
    rw [if_pos hin]
    simp only [withDirect, directPath_append s.posts rows q (hK q hq)]
  rw [hmap] at hassign
  generalize hus : ([] ++ (sortSlice processingLess (rows.map scanCreated)).map
    (fun c => ((directPath (s.posts ++ rows) c).1, (directPath (s.posts ++ rows) c).2, c.ID))) = us
    at hassign
  have hus_id : ∀ u ∈ us, ∀ r ∈ s.posts, u.2.2 ≠ r.id := by
    intro u hu r hr
    rw [← hus] at hu
    simp only [List.nil_append, List.mem_map] at hu
    obtain ⟨c, hc, rfl⟩ := hu
    obtain ⟨r1, hr1, rfl⟩ := List.mem_map.mp ((mem_sortSlice _ _ _).mp hc)
    have h1 := hgt r1 hr1
    have h2 := hk r hr
    simp only [scanCreated]
    omega
  refine ⟨rows.map (applyUpdates us), ?_, ?_⟩
  · simp [List.map_map, Function.comp_def, applyUpdates_id]
  · have hold : s.posts.map (applyUpdates us) = s.posts := by
      conv_rhs => rw [← List.map_id s.posts]
      apply List.map_congr_left
      intro r hr
      exact applyUpdates_of_not_mem us r (fun u hu => hus_id u hu r hr)
    simp only [CreatePosts, hp0, hth, hrows, hassign, foldl_execUpdate, List.map_append, hold]

end storage

namespace storage

/-- What a successful `CreatePosts` on a non-empty batch has done, whatever the
parents are: the posts it returns are the request in its order, and the forum
counter and membership are those of the thread of the first post. -/
theorem CreatePosts_storage_inv (s : Store) (p0 : models.Post) (ps : List models.Post)
    (created : Time) (rs : List models.Post) (s' : Store)
    (h : CreatePosts s (p0 :: ps) created = (.ok rs, s')) :
    ∃ th, s.threads.find? (fun t => decide (t.ID = p0.Thread)) = some th ∧
      rs.map corePost
        = ((insertedRows s.postSeq th.Forum created (p0 :: ps)).map scanCreated).map corePost ∧
      s'.forums = s.forums.map (fun f =>
        if f.Slug = th.Forum then { f with Posts := f.Posts + (p0 :: ps).length } else f) ∧
      s'.forum_users = (queueForumUsers th.Forum
        ((insertedRows s.postSeq th.Forum created (p0 :: ps)).map scanCreated) []).foldl
        insertForumUser s.forum_users ∧
      s'.users = s.users ∧ s'.threads = s.threads ∧ s'.votes = s.votes := by
  unfold CreatePosts at h
  simp only at h
  split at h
  · exact absurd (congrArg Prod.fst h) (by simp)
  · rename_i th hth
    refine ⟨th, by assumption, ?_⟩
    split at h
    · exact absurd (congrArg Prod.fst h) (by simp)
    · rename_i result updateBatch hassign
      simp only [Prod.mk.injEq, Except.ok.injEq] at h
      obtain ⟨h1, h2⟩ := h
      subst h1
      subst h2
      exact ⟨assignPaths_core _ _ _ _ _ _ hassign, rfl, rfl, rfl, rfl, rfl⟩

end storage

namespace service

/-- The outcome of `CreatePosts` on a resolved thread, with the two loops of
checks read as conditions on the batch. -/
theorem CreatePosts_resolved (s : storage.Store) (slugOrID : String) (tid : Int)
    (newPosts : List models.Post) (creationTime created : Time)
    (hth : storage.GetThreadIDBySlugOrID s slugOrID = .ok tid) :
    CreatePosts s slugOrID newPosts creationTime created =
      if newPosts.length = 0 then (.ok [], s)
      else if ¬ ∀ p ∈ newPosts, storage.UserExists s p.Author then (.error .ErrOwnerNotFound, s)
      else if ¬ ∀ p ∈ newPosts, p.Parent ≠ 0 →
          storage.CheckParentPostExistsInThread s p.Parent tid = true then
        (.error .ErrParentNotFound, s)
      else
        match storage.CreatePosts s (postsToCreate tid creationTime newPosts) created with
        | (.error err, s') => (.error (.Errorf "failed to create posts in storage" err), s')
        | (.ok createdPosts, s') => (.ok createdPosts, s') := by
  unfold CreatePosts
  simp only [hth, checkAuthors_unique_eq, checkParents_eq]
  by_cases h0 : newPosts.length = 0
  · simp [h0]
  · rw [if_neg h0, if_neg h0]
    by_cases h1 : ∀ p ∈ newPosts, storage.UserExists s p.Author
    · rw [if_pos h1, if_neg (not_not.mpr h1)]
      by_cases h2 : ∀ p ∈ newPosts, p.Parent ≠ 0 →
          storage.CheckParentPostExistsInThread s p.Parent tid = true
      · rw [if_pos h2, if_neg (not_not.mpr h2)]
      · rw [if_neg h2, if_pos h2]
    · rw [if_neg h1, if_pos h1]

theorem CreatePosts_ok_resolves (s : storage.Store) (slugOrID : String)
    (newPosts : List models.Post) (creationTime created : Time)
    (rs : List models.Post) (s' : storage.Store)
    (h : CreatePosts s slugOrID newPosts creationTime created = (.ok rs, s')) :
    ∃ tid, storage.GetThreadIDBySlugOrID s slugOrID = .ok tid := by
  cases hth : storage.GetThreadIDBySlugOrID s slugOrID with
  | ok tid => exact ⟨tid, rfl⟩
  | error e =>
    unfold CreatePosts at h
    simp only [hth] at h
    split at h <;> exact absurd (congrArg Prod.fst h) (by simp)

/-- A successful `CreatePosts` on a non-empty batch passed both checks and
returns what the storage returned. -/
theorem CreatePosts_ok_inv (s : storage.Store) (slugOrID : String) (tid : Int)
    (newPosts : List models.Post) (creationTime created : Time)
    (rs : List models.Post) (s' : storage.Store)
    (hth : storage.GetThreadIDBySlugOrID s slugOrID = .ok tid)
    (hne : newPosts ≠ [])
    (h : CreatePosts s slugOrID newPosts creationTime created = (.ok rs, s')) :
    (∀ p ∈ newPosts, storage.UserExists s p.Author) ∧
    (∀ p ∈ newPosts, p.Parent ≠ 0 →
      storage.CheckParentPostExistsInThread s p.Parent tid = true) ∧
    storage.CreatePosts s (postsToCreate tid creationTime newPosts) created = (.ok rs, s') := by
  rw [CreatePosts_resolved s slugOrID tid newPosts creationTime created hth] at h
  have h0 : ¬ newPosts.length = 0 := by
    intro h0
    exact hne (List.length_eq_zero.mp h0)
  rw [if_neg h0] at h
  by_cases h1 : ∀ p ∈ newPosts, storage.UserExists s p.Author
  · rw [if_neg (not_not.mpr h1)] at h
    by_cases h2 : ∀ p ∈ newPosts, p.Parent ≠ 0 →
        storage.CheckParentPostExistsInThread s p.Parent tid = true
    · rw [if_neg (not_not.mpr h2)] at h
      refine ⟨h1, h2, ?_⟩
      split at h
      · exact absurd (congrArg Prod.fst h) (by simp)
      · rename_i cp s1 heq
        rw [heq, ← h]
    · rw [if_pos h2] at h
      exact absurd (congrArg Prod.fst h) (by simp)
  · rw [if_pos h1] at h
    exact absurd (congrArg Prod.fst h) (by simp)

end service

namespace storage

theorem find_id_of_find (l : List PostRow) (k t : Int) (r0 : PostRow)
    (hnd : (l.map (fun r => r.id)).Nodup)
    (h : l.find? (fun r => decide (r.id = k) && decide (r.thread_id = t)) = some r0) :
    l.find? (fun r => decide (r.id = k)) = some r0 := by
  have hmem := List.mem_of_find?_eq_some h
  have hk : r0.id = k := by
    have := List.find?_some h
    simp only [Bool.and_eq_true, decide_eq_true_eq] at this
    exact this.1
  cases h1 : l.find? (fun r => decide (r.id = k)) with
  | none =>
    rw [List.find?_eq_none] at h1
    exact absurd (by simpa using hk) (h1 r0 hmem)
  | some r1 =>
    have hmem1 := List.mem_of_find?_eq_some h1
    have hk1 : r1.id = k := by simpa using List.find?_some h1
    rw [List.inj_on_of_nodup_map hnd hmem1 hmem (hk1.trans hk.symm)]

end storage

namespace service

theorem mem_postsToCreate (tid : Int) (ct : Time) (newPosts : List models.Post)
    (p : models.Post) (hp : p ∈ postsToCreate tid ct newPosts) :
    p.Thread = tid ∧ ∃ p0 ∈ newPosts, p.Parent = p0.Parent ∧ p.Author = p0.Author := by
  unfold postsToCreate at hp
  obtain ⟨p0, hp0, rfl⟩ := List.mem_map.mp hp
  exact ⟨rfl, p0, hp0, rfl, rfl⟩

/-- A successful `CreatePosts` on a non-empty batch, in a store whose post
identifiers were issued by the sequence: the result and the new table `posts`. -/
theorem CreatePosts_ok_explicit (s : storage.Store) (slugOrID : String) (tid : Int)
    (newPosts : List models.Post) (creationTime created : Time)
    (rs : List models.Post) (s' : storage.Store)
    (hk : ∀ r ∈ s.posts, r.id ≤ s.postSeq)
    (hth : storage.GetThreadIDBySlugOrID s slugOrID = .ok tid)
    (hne : newPosts ≠ [])
    (h : CreatePosts s slugOrID newPosts creationTime created = (.ok rs, s')) :
    ∃ (th : models.Thread) (Y : List storage.PostRow),
      s.threads.find? (fun t => decide (t.ID = tid)) = some th ∧
      rs = ((storage.insertedRows s.postSeq th.Forum created
        (postsToCreate tid creationTime newPosts)).map storage.scanCreated).map
          (storage.withDirect s.posts) ∧
      s'.posts = s.posts ++ Y ∧
      Y.map (fun r => r.id) = (storage.insertedRows s.postSeq th.Forum created
        (postsToCreate tid creationTime newPosts)).map (fun r => r.id) ∧
      s'.postSeq = s.postSeq + newPosts.length := by
  obtain ⟨_, hpar, hst⟩ :=
    CreatePosts_ok_inv s slugOrID tid newPosts creationTime created rs s' hth hne h
  obtain ⟨th, hfind⟩ := GetThreadIDBySlugOrID_ok s slugOrID tid hth
  have hne' : postsToCreate tid creationTime newPosts ≠ [] := by
    unfold postsToCreate
    simpa using hne
  obtain ⟨Y, hY, heq⟩ := storage.CreatePosts_checked s (postsToCreate tid creationTime newPosts)
    created tid th hk hfind hne'
    (fun p hp => (mem_postsToCreate tid creationTime newPosts p hp).1)
    (fun p hp h0 => by
      obtain ⟨_, p0, hp0, hpp, _⟩ := mem_postsToCreate tid creationTime newPosts p hp
      rw [hpp] at h0 ⊢
      exact hpar p0 hp0 h0)
  rw [heq] at hst
  simp only [Prod.mk.injEq, Except.ok.injEq] at hst
  obtain ⟨h1, h2⟩ := hst
  refine ⟨th, Y, hfind, h1.symm, ?_, hY, ?_⟩
  · rw [← h2]
  · rw [← h2]
    simp [postsToCreate]

/-- Path and root of every post returned by a successful `CreatePosts`. -/
theorem CreatePosts_paths (s : storage.Store) (slugOrID : String)
    (newPosts : List models.Post) (creationTime created : Time)
    (rs : List models.Post) (s' : storage.Store)
    (hk : storage.PostsKeyed s)
    (h : CreatePosts s slugOrID newPosts creationTime created = (.ok rs, s')) :
    ∀ p ∈ rs,
      (p.Parent = 0 → p.Path = some [p.ID] ∧ p.RootParentID = p.ID) ∧
      (p.Parent ≠ 0 → ∃ q, storage.postByID s' p.Parent = some q ∧
        p.Path = some (q.path ++ [p.ID]) ∧ p.RootParentID = q.root_parent_id) := by
  obtain ⟨tid, hth⟩ := CreatePosts_ok_resolves s slugOrID newPosts creationTime created rs s' h
  by_cases hne : newPosts = []
  · subst hne
    rw [CreatePosts_resolved s slugOrID tid [] creationTime created hth] at h
    simp only [List.length_nil, if_true, Prod.mk.injEq, Except.ok.injEq] at h
    intro p hp
    rw [← h.1] at hp
    exact absurd hp (List.not_mem_nil _)
  · obtain ⟨_, hpar, _⟩ :=
      CreatePosts_ok_inv s slugOrID tid newPosts creationTime created rs s' hth hne h
    obtain ⟨th, Y, _, hrs, hposts, _, _⟩ :=
      CreatePosts_ok_explicit s slugOrID tid newPosts creationTime created rs s' hk.1 hth hne h
    intro p hp
    rw [hrs] at hp
    obtain ⟨c, hc, rfl⟩ := List.mem_map.mp hp
    obtain ⟨r, hr, rfl⟩ := List.mem_map.mp hc
    obtain ⟨p1, hp1, hpar1, hthr1⟩ := storage.insertedRows_mem _ _ _ _ r hr
    obtain ⟨htid1, p0, hp0, hpp, _⟩ := mem_postsToCreate tid creationTime newPosts p1 hp1
    constructor
    · intro h0
      have h0' : r.parent = 0 := h0
      simp [storage.withDirect, storage.directPath, storage.scanCreated, h0']
    · intro h0
      have h0' : r.parent ≠ 0 := h0
      have hc0 : storage.CheckParentPostExistsInThread s r.parent tid = true := by
        rw [hpar1, hpp]
        exact hpar p0 hp0 (by rw [← hpp, ← hpar1]; exact h0')
      obtain ⟨r0, hr0⟩ := storage.find_committed s r.parent tid hc0
      have hrt : r.thread_id = tid := hthr1.trans htid1
      refine ⟨r0, ?_, ?_, ?_⟩
      · have := storage.find_id_of_find s.posts r.parent tid r0 hk.2 hr0
        simp only [storage.postByID, hposts, List.find?_append]
        show (List.find? (fun r1 => decide (r1.id = r.parent)) s.posts).or _ = some r0
        rw [this]
        rfl
      · simp [storage.withDirect, storage.directPath, storage.scanCreated, h0', hrt, hr0]
      · simp [storage.withDirect, storage.directPath, storage.scanCreated, h0', hrt, hr0]

end service

namespace storage

/-! ## Forum membership -/

theorem mem_queueForumUsers (forum : String) (ps : List models.Post) :
    ∀ (seen : List String) (pair : String × String),
      pair ∈ queueForumUsers forum ps seen ↔
        pair.1 = forum ∧ pair.2 ∉ seen ∧ ∃ p ∈ ps, p.Author = pair.2 := by
  induction ps with
  | nil => intro seen pair; simp [queueForumUsers]
  | cons p ps ih =>
    intro seen pair
    unfold queueForumUsers
    by_cases hseen : p.Author ∈ seen
    · rw [if_pos hseen, ih]
      constructor
      · rintro ⟨h1, h2, q, hq, hqa⟩
        exact ⟨h1, h2, q, List.mem_cons_of_mem _ hq, hqa⟩
      · rintro ⟨h1, h2, q, hq, hqa⟩
        refine ⟨h1, h2, ?_⟩
        rcases List.mem_cons.mp hq with rfl | hq
        · exact absurd (hqa ▸ hseen) h2
        · exact ⟨q, hq, hqa⟩
    · rw [if_neg hseen, List.mem_cons, ih]
      constructor
      · rintro (rfl | ⟨h1, h2, q, hq, hqa⟩)
        · exact ⟨rfl, hseen, p, List.mem_cons_self _ _, rfl⟩
        · exact ⟨h1, fun hin => h2 (List.mem_cons_of_mem _ hin), q,
            List.mem_cons_of_mem _ hq, hqa⟩
      · rintro ⟨h1, h2, q, hq, hqa⟩
        by_cases hp : pair.2 = p.Author
        · left
          exact Prod.ext h1 hp
        · right
          refine ⟨h1, ?_, ?_⟩
          · intro hin
            rcases List.mem_cons.mp hin with h | h
            · exact hp h
            · exact h2 h
          · rcases List.mem_cons.mp hq with rfl | hq
            · exact absurd hqa.symm hp
            · exact ⟨q, hq, hqa⟩

theorem mem_foldl_insertForumUser (queue : List (String × String)) :
    ∀ (base : List (String × String)) (pair : String × String),
      pair ∈ queue.foldl insertForumUser base ↔ pair ∈ base ∨ pair ∈ queue := by
  induction queue with
  | nil => intro base pair; simp
  | cons x xs ih =>
    intro base pair
    rw [List.foldl_cons, ih]
    unfold insertForumUser
    by_cases hx : x ∈ base
    · rw [if_pos hx]
      constructor
      · rintro (h | h)
        · exact Or.inl h
        · exact Or.inr (List.mem_cons_of_mem _ h)
      · rintro (h | h)
        · exact Or.inl h
        · rcases List.mem_cons.mp h with rfl | h
          · exact Or.inl hx
          · exact Or.inr h
    · rw [if_neg hx]
      simp only [List.mem_append, List.mem_singleton, List.mem_cons]
      tauto

theorem nodup_foldl_insertForumUser (queue : List (String × String)) :
    ∀ base : List (String × String), base.Nodup →
      (queue.foldl insertForumUser base).Nodup := by
  induction queue with
  | nil => intro base h; exact h
  | cons x xs ih =>
    intro base h
    rw [List.foldl_cons]
    apply ih
    unfold insertForumUser
    by_cases hx : x ∈ base
    · rw [if_pos hx]
      exact h
    · rw [if_neg hx]
      exact List.Nodup.append h (List.nodup_singleton x) (by simpa using hx)

theorem scanCreated_authors (seq : Int) (f : String) (c : Time) (ps : List models.Post) :
    ((insertedRows seq f c ps).map scanCreated).map (fun q => q.Author)
      = ps.map (fun p => p.Author) := by
  induction ps generalizing seq with
  | nil => rfl
  | cons p ps ih =>
    simp only [insertedRows, nextval, List.map_cons, scanCreated, List.cons.injEq, true_and]
    exact ih (seq + 1)

theorem scanCreated_fields (seq : Int) (f : String) (c : Time) (ps : List models.Post) :
    (((insertedRows seq f c ps).map scanCreated).map corePost).map
        (fun q => (q.Parent, q.Author, q.Message, q.Thread))
      = ps.map (fun p => (p.Parent, p.Author, p.Message, p.Thread)) := by
  induction ps generalizing seq with
  | nil => rfl
  | cons p ps ih =>
    simp only [insertedRows, nextval, List.map_cons, scanCreated, corePost, List.cons.injEq, true_and]
    exact ih (seq + 1)

end storage

namespace service

/-- The effects of a successful `CreatePosts` on a non-empty batch that do not
depend on the parents: result in request order, forum counter, membership. -/
theorem CreatePosts_ok_effects (s : storage.Store) (slugOrID : String) (tid : Int)
    (newPosts : List models.Post) (creationTime created : Time)
    (rs : List models.Post) (s' : storage.Store)
    (hth : storage.GetThreadIDBySlugOrID s slugOrID = .ok tid)
    (hne : newPosts ≠ [])
    (h : CreatePosts s slugOrID newPosts creationTime created = (.ok rs, s')) :
    ∃ th, s.threads.find? (fun t => decide (t.ID = tid)) = some th ∧
      rs.map (fun q => (q.Parent, q.Author, q.Message, q.Thread))
        = newPosts.map (fun p => (p.Parent, p.Author, p.Message, tid)) ∧
      s'.forums = s.forums.map (fun f =>
        if f.Slug = th.Forum then { f with Posts := f.Posts + newPosts.length } else f) ∧
      (∀ pair : String × String, pair ∈ s'.forum_users ↔
        pair ∈ s.forum_users ∨ (pair.1 = th.Forum ∧ ∃ p ∈ newPosts, p.Author = pair.2)) ∧
      (s.forum_users.Nodup → s'.forum_users.Nodup) := by
  obtain ⟨_, _, hst⟩ :=
    CreatePosts_ok_inv s slugOrID tid newPosts creationTime created rs s' hth hne h
  obtain ⟨a, as, rfl⟩ := List.exists_cons_of_ne_nil hne
  have hcons : postsToCreate tid creationTime (a :: as)
      = { ID := 0, Parent := a.Parent, Author := a.Author, Message := a.Message,
          IsEdited := false, Forum := "", Thread := tid, Created := creationTime,
          Path := none, RootParentID := 0 } :: postsToCreate tid creationTime as := rfl
  rw [hcons] at hst
  obtain ⟨th, hfind, hcore, hforums, husers, _, _, _⟩ :=
    storage.CreatePosts_storage_inv s _ _ created rs s' hst
  rw [← hcons] at hcore husers hforums
  refine ⟨th, hfind, ?_, ?_, ?_, ?_⟩
  · have h1 : rs.map (fun q => (q.Parent, q.Author, q.Message, q.Thread))
        = (rs.map storage.corePost).map (fun q => (q.Parent, q.Author, q.Message, q.Thread)) := by
      simp [List.map_map, Function.comp_def, storage.corePost]
    rw [h1, hcore, storage.scanCreated_fields]
    simp [postsToCreate, List.map_map, Function.comp_def]
  · rw [hforums]
    simp [postsToCreate]
  · intro pair
    rw [husers, storage.mem_foldl_insertForumUser, storage.mem_queueForumUsers]
    have hauth : (∃ p ∈ (storage.insertedRows s.postSeq th.Forum created
        (postsToCreate tid creationTime (a :: as))).map storage.scanCreated, p.Author = pair.2)
        ↔ ∃ p ∈ a :: as, p.Author = pair.2 := by
      have e1 := storage.scanCreated_authors s.postSeq th.Forum created
        (postsToCreate tid creationTime (a :: as))
      have e2 : (postsToCreate tid creationTime (a :: as)).map (fun p => p.Author)
          = (a :: as).map (fun p => p.Author) := by
        simp [postsToCreate, List.map_map, Function.comp_def]
      rw [e2] at e1
      constructor
      · rintro ⟨p, hp, hpa⟩
        have : pair.2 ∈ (a :: as).map (fun p => p.Author) := by
          rw [← e1]
          exact List.mem_map.mpr ⟨p, hp, hpa⟩
        obtain ⟨q, hq, hqa⟩ := List.mem_map.mp this
        exact ⟨q, hq, hqa⟩
      · rintro ⟨p, hp, hpa⟩
        have : pair.2 ∈ ((storage.insertedRows s.postSeq th.Forum created
            (postsToCreate tid creationTime (a :: as))).map storage.scanCreated).map
            (fun q => q.Author) := by
          rw [e1]
          exact List.mem_map.mpr ⟨p, hp, hpa⟩
        obtain ⟨q, hq, hqa⟩ := List.mem_map.mp this
        exact ⟨q, hq, hqa⟩
    rw [hauth]
    simp
  · intro hnd
    rw [husers]
    exact storage.nodup_foldl_insertForumUser _ _ hnd

end service

theorem storage.PostsKeyed_emptyStore : storage.PostsKeyed storage.emptyStore := by
  decide

namespace service

/-- `PostsKeyed` is an invariant of `CreatePosts`, whatever its outcome. -/
theorem CreatePosts_keyed (s : storage.Store) (slugOrID : String)
    (newPosts : List models.Post) (creationTime created : Time)
    (res : Except GoError (List models.Post)) (s' : storage.Store)
    (hk : storage.PostsKeyed s)
    (h : CreatePosts s slugOrID newPosts creationTime created = (res, s')) :
    storage.PostsKeyed s' := by
  cases hth : storage.GetThreadIDBySlugOrID s slugOrID with
  | error e =>
    unfold CreatePosts at h
    simp only [hth] at h
    split at h <;> (rw [← (Prod.mk.inj h).2]; exact hk)
  | ok tid =>
    rw [CreatePosts_resolved s slugOrID tid newPosts creationTime created hth] at h
    by_cases h0 : newPosts.length = 0
    · rw [if_pos h0] at h
      rw [← (Prod.mk.inj h).2]
      exact hk
    · rw [if_neg h0] at h
      by_cases h1 : ∀ p ∈ newPosts, storage.UserExists s p.Author
      · rw [if_neg (not_not.mpr h1)] at h
        by_cases h2 : ∀ p ∈ newPosts, p.Parent ≠ 0 →
            storage.CheckParentPostExistsInThread s p.Parent tid = true
        · rw [if_neg (not_not.mpr h2)] at h
          obtain ⟨th, hfind⟩ := GetThreadIDBySlugOrID_ok s slugOrID tid hth
          have hne' : postsToCreate tid creationTime newPosts ≠ [] := by
            unfold postsToCreate
            simpa using fun hnil => h0 (by rw [hnil]; rfl)
          obtain ⟨Y, hY, heq⟩ := storage.CreatePosts_checked s
            (postsToCreate tid creationTime newPosts) created tid th hk.1 hfind hne'
            (fun p hp => (mem_postsToCreate tid creationTime newPosts p hp).1)
            (fun p hp hp0 => by
              obtain ⟨_, p0, hp0', hpp, _⟩ := mem_postsToCreate tid creationTime newPosts p hp
              rw [hpp] at hp0 ⊢
              exact h2 p0 hp0' hp0)
          rw [heq] at h
          simp only [Prod.mk.injEq] at h
          rw [← h.2]
          have hYmem : ∀ r ∈ Y, s.postSeq < r.id ∧
              r.id ≤ s.postSeq + (postsToCreate tid creationTime newPosts).length := by
            intro r hr
            have : r.id ∈ Y.map (fun r => r.id) := List.mem_map.mpr ⟨r, hr, rfl⟩
            rw [hY] at this
            obtain ⟨r1, hr1, hid⟩ := List.mem_map.mp this
            rw [← hid]
            exact storage.insertedRows_id_gt _ _ _ _ r1 hr1
          constructor
          · intro r hr
            simp only [List.mem_append] at hr
            rcases hr with hr | hr
            · have := hk.1 r hr
              show r.id ≤ s.postSeq + _
              omega
            · exact (hYmem r hr).2
          · show ((s.posts ++ Y).map (fun r => r.id)).Nodup
            rw [List.map_append, hY]
            refine List.Nodup.append hk.2 (storage.insertedRows_nodup _ _ _ _) ?_
            intro x hx1 hx2
            obtain ⟨r1, hr1, rfl⟩ := List.mem_map.mp hx1
            rw [← hY] at hx2
            obtain ⟨r2, hr2, hid⟩ := List.mem_map.mp hx2
            have := hk.1 r1 hr1
            have := (hYmem r2 hr2).1
            omega
        · rw [if_pos h2] at h
          rw [← (Prod.mk.inj h).2]
          exact hk
      · rw [if_pos h1] at h
        rw [← (Prod.mk.inj h).2]
        exact hk

end service

/-! ## Properties stated by the specification -/

/-- C1: every post returned by a successful batch insertion through the service
has path `[id]` when its parent is 0, and otherwise the path stored for its
parent followed by its own identifier. -/
theorem C1_path_extends_parent_path (s : storage.Store) (slugOrID : String)
    (newPosts : List models.Post) (creationTime created : Time)
    (rs : List models.Post) (s' : storage.Store)
    (hk : storage.PostsKeyed s)
    (h : service.CreatePosts s slugOrID newPosts creationTime created = (.ok rs, s')) :
    ∀ p ∈ rs,
      (p.Parent = 0 → p.Path = some [p.ID]) ∧
      (p.Parent ≠ 0 → ∃ q, storage.postByID s' p.Parent = some q ∧
        p.Path = some (q.path ++ [p.ID])) := by
  intro p hp
  obtain ⟨h0, h1⟩ :=
    service.CreatePosts_paths s slugOrID newPosts creationTime created rs s' hk h p hp
  refine ⟨fun hp0 => (h0 hp0).1, fun hp0 => ?_⟩
  obtain ⟨q, hq, hpath, _⟩ := h1 hp0
  exact ⟨q, hq, hpath⟩

theorem C1_witness :
    storage.PostsKeyed example1.store ∧
    service.CreatePosts example1.store "th" example1.batch 10 11
      = (.ok example1.created, example1.storeAfter) ∧
    ∀ p ∈ example1.created,
      (p.Parent = 0 → p.Path = some [p.ID]) ∧
      (p.Parent ≠ 0 → ∃ q, storage.postByID example1.storeAfter p.Parent = some q ∧
        p.Path = some (q.path ++ [p.ID])) :=
  ⟨by decide, by rfl,
    C1_path_extends_parent_path example1.store "th" example1.batch 10 11
      example1.created example1.storeAfter (by decide) (by rfl)⟩

/-- C2: every post returned by a successful batch insertion through the service
has `root_parent_id` equal to its own identifier when its parent is 0, and
otherwise equal to the `root_parent_id` stored for its parent. -/
theorem C2_root_is_parent_root (s : storage.Store) (slugOrID : String)
    (newPosts : List models.Post) (creationTime created : Time)
    (rs : List models.Post) (s' : storage.Store)
    (hk : storage.PostsKeyed s)
    (h : service.CreatePosts s slugOrID newPosts creationTime created = (.ok rs, s')) :
    ∀ p ∈ rs,
      (p.Parent = 0 → p.RootParentID = p.ID) ∧
      (p.Parent ≠ 0 → ∃ q, storage.postByID s' p.Parent = some q ∧
        p.RootParentID = q.root_parent_id) := by
  intro p hp
  obtain ⟨h0, h1⟩ :=
    service.CreatePosts_paths s slugOrID newPosts creationTime created rs s' hk h p hp
  refine ⟨fun hp0 => (h0 hp0).2, fun hp0 => ?_⟩
  obtain ⟨q, hq, _, hroot⟩ := h1 hp0
  exact ⟨q, hq, hroot⟩

theorem C2_witness :
    storage.PostsKeyed example1.store ∧
    service.CreatePosts example1.store "1" example1.batch 10 11
      = (.ok example1.created, example1.storeAfter) ∧
    ∀ p ∈ example1.created,
      (p.Parent = 0 → p.RootParentID = p.ID) ∧
      (p.Parent ≠ 0 → ∃ q, storage.postByID example1.storeAfter p.Parent = some q ∧
        p.RootParentID = q.root_parent_id) :=
  ⟨by decide, by rfl,
    C2_root_is_parent_root example1.store "1" example1.batch 10 11
      example1.created example1.storeAfter (by decide) (by rfl)⟩

/-- C3: for a non-empty batch accepted by `CreatePosts`, the result has the
length of the input and its i-th post carries the parent, author and message
of the i-th input, with the resolved thread as its thread. -/
theorem C3_result_in_input_order (s : storage.Store) (slugOrID : String)
    (newPosts : List models.Post) (creationTime created : Time)
    (rs : List models.Post) (s' : storage.Store)
    (hne : newPosts ≠ [])
    (h : service.CreatePosts s slugOrID newPosts creationTime created = (.ok rs, s')) :
    ∃ tid, storage.GetThreadIDBySlugOrID s slugOrID = .ok tid ∧
      rs.length = newPosts.length ∧
      ∀ (i : Nat) (p : models.Post), newPosts[i]? = some p →
        ∃ r, rs[i]? = some r ∧ r.Parent = p.Parent ∧ r.Author = p.Author ∧
          r.Message = p.Message ∧ r.Thread = tid := by
  obtain ⟨tid, hth⟩ :=
    service.CreatePosts_ok_resolves s slugOrID newPosts creationTime created rs s' h
  obtain ⟨th, _, hfields, _⟩ :=
    service.CreatePosts_ok_effects s slugOrID tid newPosts creationTime created rs s' hth hne h
  refine ⟨tid, hth, ?_, ?_⟩
  · have := congrArg List.length hfields
    simpa using this
  · intro i p hp
    have hi := congrArg (fun l => l[i]?) hfields
    simp only [List.getElem?_map, hp, Option.map_some'] at hi
    cases hr : rs[i]? with
    | none => simp [hr] at hi
    | some r =>
      simp only [hr, Option.map_some', Option.some.injEq, Prod.mk.injEq] at hi
      exact ⟨r, rfl, hi.1, hi.2.1, hi.2.2.1, hi.2.2.2⟩

theorem C3_witness :
    example1.batch ≠ [] ∧
    ∃ tid, storage.GetThreadIDBySlugOrID example1.store "th" = .ok tid ∧
      example1.created.length = example1.batch.length ∧
      ∀ (i : Nat) (p : models.Post), example1.batch[i]? = some p →
        ∃ r, example1.created[i]? = some r ∧ r.Parent = p.Parent ∧ r.Author = p.Author ∧
          r.Message = p.Message ∧ r.Thread = tid :=
  ⟨by decide,
    C3_result_in_input_order example1.store "th" example1.batch 10 11
      example1.created example1.storeAfter (by decide) (by rfl)⟩

/-- C4: on an existing thread and with existing authors, a batch holding a
non-zero parent that is neither a committed post of the thread nor one of the
identifiers of the batch fails with `ErrParentNotFound`, and the store is
unchanged. -/
theorem C4_invalid_parent_rejects_batch (s : storage.Store) (slugOrID : String) (tid : Int)
    (newPosts : List models.Post) (creationTime created : Time)
    (hth : storage.GetThreadIDBySlugOrID s slugOrID = .ok tid)
    (hauth : ∀ p ∈ newPosts, storage.UserExists s p.Author)
    (hbad : ∃ p ∈ newPosts, p.Parent ≠ 0 ∧
      storage.CheckParentPostExistsInThread s p.Parent tid = false ∧
      p.Parent ∉ storage.batchIDs s newPosts.length) :
    service.CreatePosts s slugOrID newPosts creationTime created
      = (.error .ErrParentNotFound, s) := by
  obtain ⟨p, hp, hp0, hcheck, _⟩ := hbad
  rw [service.CreatePosts_resolved s slugOrID tid newPosts creationTime created hth]
  have h0 : ¬ newPosts.length = 0 := by
    intro h0
    rw [List.length_eq_zero.mp h0] at hp
    exact absurd hp (List.not_mem_nil _)
  have h2 : ¬ ∀ q ∈ newPosts, q.Parent ≠ 0 →
      storage.CheckParentPostExistsInThread s q.Parent tid = true := by
    intro hall
    have := hall p hp hp0
    rw [hcheck] at this
    exact absurd this (by simp)
  rw [if_neg h0, if_neg (not_not.mpr hauth), if_pos h2]

theorem C4_witness :
    storage.GetThreadIDBySlugOrID example1.store "th" = .ok 1 ∧
    (∀ p ∈ example1.orphan, storage.UserExists example1.store p.Author) ∧
    (∃ p ∈ example1.orphan, p.Parent ≠ 0 ∧
      storage.CheckParentPostExistsInThread example1.store p.Parent 1 = false ∧
      p.Parent ∉ storage.batchIDs example1.store example1.orphan.length) ∧
    service.CreatePosts example1.store "th" example1.orphan 10 11
      = (.error .ErrParentNotFound, example1.store) :=
  ⟨by rfl, by decide, by decide,
    C4_invalid_parent_rejects_batch example1.store "th" 1 example1.orphan 10 11
      (by rfl) (by decide) (by decide)⟩

/-- C5 fails on the code: on the thread `th` of `example1.store`, whose author
`ann` exists, the batch of a root post and of a reply to the identifier 3 that
the root is about to receive is refused by the service with
`ErrParentNotFound`, the store unchanged, so the service returns no posts for
it; the storage `CreatePosts`, given the same batch directly, accepts it and
gives the reply the path `[3, 4]` of length 2. -/
theorem C5_service_refuses_in_batch_parent :
    storage.PostsKeyed example1.store ∧
    storage.GetThreadIDBySlugOrID example1.store "th" = .ok 1 ∧
    (∀ p ∈ example1.chained, storage.UserExists example1.store p.Author) ∧
    storage.batchIDs example1.store example1.chained.length = [3, 4] ∧
    example1.chained.map (fun p => p.Parent) = [0, 3] ∧
    service.CreatePosts example1.store "th" example1.chained 10 11
      = (.error .ErrParentNotFound, example1.store) ∧
    (¬ ∃ rs s', service.CreatePosts example1.store "th" example1.chained 10 11 = (.ok rs, s')) ∧
    (storage.CreatePosts example1.store (service.postsToCreate 1 10 example1.chained) 11).1.map
        (fun rs => rs.map (fun r => (r.ID, r.Parent, r.Path)))
      = .ok [(3, 0, some [3]), (4, 3, some [3, 4])] := by
  refine ⟨by decide, by rfl, by decide, by rfl, by rfl, by rfl, ?_, by rfl⟩
  rintro ⟨rs, s', h⟩
  have h1 : service.CreatePosts example1.store "th" example1.chained 10 11
      = (.error .ErrParentNotFound, example1.store) := by rfl
  rw [h1] at h
  exact absurd (congrArg Prod.fst h) (by simp)

/-- C7: on an existing thread, `CreatePosts` with the empty batch succeeds with
the empty result and the store is unchanged. -/
theorem C7_empty_batch (s : storage.Store) (slugOrID : String) (tid : Int)
    (creationTime created : Time)
    (hth : storage.GetThreadIDBySlugOrID s slugOrID = .ok tid) :
    service.CreatePosts s slugOrID [] creationTime created = (.ok [], s) := by
  rw [service.CreatePosts_resolved s slugOrID tid [] creationTime created hth]
  simp

theorem C7_witness :
    storage.GetThreadIDBySlugOrID example1.store "1" = .ok 1 ∧
    service.CreatePosts example1.store "1" [] 10 11 = (.ok [], example1.store) :=
  ⟨by rfl, C7_empty_batch example1.store "1" 1 10 11 (by rfl)⟩

/-- C9: a successful `CreatePosts` on a batch of N >= 1 posts adds exactly N to
the post counter of the forum of the target thread and leaves every other
forum row as it was. -/
theorem C9_forum_counter (s : storage.Store) (slugOrID : String)
    (newPosts : List models.Post) (creationTime created : Time)
    (rs : List models.Post) (s' : storage.Store)
    (hne : newPosts ≠ [])
    (h : service.CreatePosts s slugOrID newPosts creationTime created = (.ok rs, s')) :
    ∃ tid th, storage.GetThreadIDBySlugOrID s slugOrID = .ok tid ∧
      s.threads.find? (fun t => decide (t.ID = tid)) = some th ∧
      s'.forums = s.forums.map (fun f =>
        if f.Slug = th.Forum then { f with Posts := f.Posts + newPosts.length } else f) := by
  obtain ⟨tid, hth⟩ :=
    service.CreatePosts_ok_resolves s slugOrID newPosts creationTime created rs s' h
  obtain ⟨th, hfind, _, hforums, _⟩ :=
    service.CreatePosts_ok_effects s slugOrID tid newPosts creationTime created rs s' hth hne h
  exact ⟨tid, th, hth, hfind, hforums⟩

theorem C9_witness :
    example1.batch ≠ [] ∧
    example1.storeAfter.forums.map (fun f => (f.Slug, f.Posts)) = [("f", 5), ("g", 0)] ∧
    ∃ tid th, storage.GetThreadIDBySlugOrID example1.store "th" = .ok tid ∧
      example1.store.threads.find? (fun t => decide (t.ID = tid)) = some th ∧
      example1.storeAfter.forums = example1.store.forums.map (fun f =>
        if f.Slug = th.Forum then { f with Posts := f.Posts + example1.batch.length } else f) :=
  ⟨by decide, by rfl,
    C9_forum_counter example1.store "th" example1.batch 10 11
      example1.created example1.storeAfter (by decide) (by rfl)⟩

/-- C10: after a successful `CreatePosts` the membership relation is the one
before the call together with the pairs (forum of the thread, author) of the
batch, no other pair being added or removed; and when no pair was stored twice
before, none is afterwards. -/
theorem C10_forum_membership (s : storage.Store) (slugOrID : String)
    (newPosts : List models.Post) (creationTime created : Time)
    (rs : List models.Post) (s' : storage.Store)
    (h : service.CreatePosts s slugOrID newPosts creationTime created = (.ok rs, s')) :
    ∃ tid th, storage.GetThreadIDBySlugOrID s slugOrID = .ok tid ∧
      s.threads.find? (fun t => decide (t.ID = tid)) = some th ∧
      (∀ pair : String × String, pair ∈ s'.forum_users ↔
        pair ∈ s.forum_users ∨ (pair.1 = th.Forum ∧ ∃ p ∈ newPosts, p.Author = pair.2)) ∧
      (s.forum_users.Nodup → s'.forum_users.Nodup) := by
  obtain ⟨tid, hth⟩ :=
    service.CreatePosts_ok_resolves s slugOrID newPosts creationTime created rs s' h
  by_cases hne : newPosts = []
  · subst hne
    obtain ⟨th, hfind⟩ := service.GetThreadIDBySlugOrID_ok s slugOrID tid hth
    rw [service.CreatePosts_resolved s slugOrID tid [] creationTime created hth] at h
    simp only [List.length_nil, if_true, Prod.mk.injEq] at h
    obtain ⟨_, hs⟩ := h
    subst hs
    exact ⟨tid, th, hth, hfind, by simp, fun hnd => hnd⟩
  · obtain ⟨th, hfind, _, _, hmem, hnd⟩ :=
      service.CreatePosts_ok_effects s slugOrID tid newPosts creationTime created rs s' hth hne h
    exact ⟨tid, th, hth, hfind, hmem, hnd⟩

theorem C10_witness :
    example1.store.forum_users = [("f", "ann")] ∧
    example1.batch.map (fun p => p.Author) = ["bob", "ann", "bob"] ∧
    example1.storeAfter.forum_users = [("f", "ann"), ("f", "bob")] ∧
    ∃ tid th, storage.GetThreadIDBySlugOrID example1.store "th" = .ok tid ∧
      example1.store.threads.find? (fun t => decide (t.ID = tid)) = some th ∧
      (∀ pair : String × String, pair ∈ example1.storeAfter.forum_users ↔
        pair ∈ example1.store.forum_users ∨
          (pair.1 = th.Forum ∧ ∃ p ∈ example1.batch, p.Author = pair.2)) ∧
      (example1.store.forum_users.Nodup → example1.storeAfter.forum_users.Nodup) :=
  ⟨by rfl, by rfl, by rfl,
    C10_forum_membership example1.store "th" example1.batch 10 11
      example1.created example1.storeAfter (by rfl)⟩

/-! ## Listing: sort modes and cursors that resolve to nothing -/

namespace storage

theorem find_since_none (s : Store) (since tid : Int)
    (hno : ∀ r ∈ s.posts, ¬ (r.id = since ∧ r.thread_id = tid)) :
    s.posts.find? (fun r => decide (r.id = since) && decide (r.thread_id = tid)) = none := by
  rw [List.find?_eq_none]
  intro r hr
  simpa using hno r hr

end storage

/-- C11: on an existing thread, every sort value other than `flat`, `tree` and
`parent_tree` makes `GetThreadPosts` fail with the error "invalid sort type",
which is not `ErrNotFound`; the handler answers 400 and not 404; and the
outcome is the same whatever table `posts` holds: no listing is made. -/
theorem C11_invalid_sort_mode (s : storage.Store) (slugOrID : String) (tid : Int)
    (sort : String)
    (hth : storage.GetThreadIDBySlugOrID s slugOrID = .ok tid)
    (h1 : sort ≠ "flat") (h2 : sort ≠ "tree") (h3 : sort ≠ "parent_tree") :
    (∀ (limit since : Int) (desc : Bool),
      service.GetThreadPosts s slugOrID limit since sort desc
        = .error (.New "invalid sort type")) ∧
    GoError.New "invalid sort type" ≠ GoError.ErrNotFound ∧
    errorsIs (.New "invalid sort type") .ErrNotFound = false ∧
    (∀ limitQuery sinceQuery descQuery : Option String,
      (api.GetThreadPosts s slugOrID limitQuery sinceQuery (some sort) descQuery).status = 400) ∧
    (∀ (posts : List storage.PostRow) (limit since : Int) (desc : Bool),
      service.GetThreadPosts { s with posts := posts } slugOrID limit since sort desc
        = .error (.New "invalid sort type")) := by
  have hsvc : ∀ (limit since : Int) (desc : Bool),
      service.GetThreadPosts s slugOrID limit since sort desc
        = .error (.New "invalid sort type") := by
    intro limit since desc
    simp [service.GetThreadPosts, hth, h1, h2, h3]
  refine ⟨hsvc, by simp, by simp [errorsIs], ?_, ?_⟩
  · intro limitQuery sinceQuery descQuery
    unfold api.GetThreadPosts
    simp only [Option.getD_some]
    split
    · rfl
    · split
      · rfl
      · split
        · rfl
        · rw [hsvc]
          simp [GoError.Error, api.Response.status]
  · intro posts limit since desc
    have hth' : storage.GetThreadIDBySlugOrID { s with posts := posts } slugOrID = .ok tid := hth
    simp [service.GetThreadPosts, hth', h1, h2, h3]

theorem C11_witness :
    storage.GetThreadIDBySlugOrID example1.store "th" = .ok 1 ∧
    service.GetThreadPosts example1.store "th" 10 0 "newest" false
      = .error (.New "invalid sort type") ∧
    api.GetThreadPosts example1.store "th" (some "10") none (some "newest") none
      = .message 400 "Invalid sort type" ∧
    (api.GetThreadPosts example1.store "th" (some "10") none (some "newest") none).status
      = 400 :=
  ⟨by rfl,
    (C11_invalid_sort_mode example1.store "th" 1 "newest" (by rfl) (by decide) (by decide)
      (by decide)).1 10 0 false,
    by rfl,
    (C11_invalid_sort_mode example1.store "th" 1 "newest" (by rfl) (by decide) (by decide)
      (by decide)).2.2.2.1 (some "10") none none⟩

/-- C12, as stated, fails: the cursor -1 is not zero and is the identifier of no
post, yet the flat listing of the thread is not the empty page (it is the first
page), and with a negative limit it is not even a result. -/
theorem C12_counterexample :
    (-1 : Int) ≠ 0 ∧
    (∀ r ∈ example1.store.posts, ¬ (r.id = -1 ∧ r.thread_id = 1)) ∧
    storage.GetThreadIDBySlugOrID example1.store "th" = .ok 1 ∧
    (storage.GetFlatThreadPosts example1.store 1 0 (-1) false).map
      (fun page => page.map (fun p => p.ID)) = .ok [1, 2] ∧
    (service.GetThreadPosts example1.store "th" 0 (-1) "flat" false).map
      (fun page => page.map (fun p => p.ID)) = .ok [1, 2] ∧
    service.GetThreadPosts example1.store "th" 0 (-1) "flat" false ≠ .ok [] ∧
    service.GetThreadPosts example1.store "th" (-5) (-1) "flat" false
      = .error (.Panic "runtime error: makeslice: cap out of range") := by
  refine ⟨by decide, by decide, by rfl, by rfl, by rfl, ?_, by rfl⟩
  intro h
  have h2 : (service.GetThreadPosts example1.store "th" 0 (-1) "flat" false).map
      (fun page => page.map (fun p => p.ID)) = .ok [1, 2] := by rfl
  rw [h] at h2
  exact absurd h2 (by simp [Except.map])

/-- C12, amended: a cursor greater than 0 that is the identifier of no post of
the thread gives the empty page and no error, in every sort mode and for every
limit and direction. -/
theorem C12_unresolved_cursor_empty_page (s : storage.Store) (slugOrID : String) (tid : Int)
    (limit since : Int) (desc : Bool)
    (hth : storage.GetThreadIDBySlugOrID s slugOrID = .ok tid)
    (hpos : 0 < since)
    (hno : ∀ r ∈ s.posts, ¬ (r.id = since ∧ r.thread_id = tid)) :
    storage.GetFlatThreadPosts s tid limit since desc = .ok [] ∧
    storage.GetTreeThreadPosts s tid limit since desc = .ok [] ∧
    storage.GetParentTreeThreadPosts s tid limit since desc = .ok [] ∧
    service.GetThreadPosts s slugOrID limit since "flat" desc = .ok [] ∧
    service.GetThreadPosts s slugOrID limit since "tree" desc = .ok [] ∧
    service.GetThreadPosts s slugOrID limit since "parent_tree" desc = .ok [] := by
  have hfind := storage.find_since_none s since tid hno
  have hgt : since > 0 := hpos
  have hf : storage.GetFlatThreadPosts s tid limit since desc = .ok [] := by
    simp [storage.GetFlatThreadPosts, hgt, hfind]
  have ht : storage.GetTreeThreadPosts s tid limit since desc = .ok [] := by
    simp [storage.GetTreeThreadPosts, hgt, hfind]
  have hp : storage.GetParentTreeThreadPosts s tid limit since desc = .ok [] := by
    simp [storage.GetParentTreeThreadPosts, hgt, hfind]
  refine ⟨hf, ht, hp, ?_, ?_, ?_⟩
  · simp [service.GetThreadPosts, hth, hf]
  · simp [service.GetThreadPosts, hth, ht]
  · simp [service.GetThreadPosts, hth, hp]

theorem C12_witness :
    storage.GetThreadIDBySlugOrID example1.store "th" = .ok 1 ∧
    (0 : Int) < 7 ∧
    (∀ r ∈ example1.store.posts, ¬ (r.id = 7 ∧ r.thread_id = 1)) ∧
    storage.GetFlatThreadPosts example1.store 1 (-3) 7 true = .ok [] ∧
    storage.GetTreeThreadPosts example1.store 1 (-3) 7 true = .ok [] ∧
    storage.GetParentTreeThreadPosts example1.store 1 (-3) 7 true = .ok [] ∧
    service.GetThreadPosts example1.store "th" (-3) 7 "flat" true = .ok [] ∧
    service.GetThreadPosts example1.store "th" (-3) 7 "tree" true = .ok [] ∧
    service.GetThreadPosts example1.store "th" (-3) 7 "parent_tree" true = .ok [] :=
  ⟨by rfl, by decide, by decide,
    C12_unresolved_cursor_empty_page example1.store "th" 1 (-3) 7 true (by rfl) (by decide)
      (by decide)⟩

/-! ## Votes -/

namespace storage

theorem find_thread_map (threads : List models.Thread) (tid d : Int) :
    (threads.map (fun t => if t.ID = tid then { t with Votes := t.Votes + d } else t)).find?
        (fun t => decide (t.ID = tid))
      = (threads.find? (fun t => decide (t.ID = tid))).map
          (fun t => { t with Votes := t.Votes + d }) := by
  induction threads with
  | nil => rfl
  | cons t ts ih =>
    by_cases h : t.ID = tid
    · simp [List.find?, h]
    · rw [List.map_cons, if_neg h, List.find?_cons_of_neg _ (by simpa using h),
        List.find?_cons_of_neg _ (by simpa using h), ih]

/-- The outcome of `UpdateThreadVote` on a stored thread whose new tally fits
in 32 bits: the tally of every row of the thread moves by the new voice minus
the stored one. -/
theorem UpdateThreadVote_found (s : Store) (tid : Int) (nickname : String) (voice : Int)
    (th : models.Thread)
    (hfind : s.threads.find? (fun t => decide (t.ID = tid)) = some th)
    (hfit : fitsInt32 (th.Votes + (voice - storedVoice s tid nickname))) :
    (UpdateThreadVote s tid nickname voice).1
      = .ok { th with Votes := th.Votes + (voice - storedVoice s tid nickname) } ∧
    (UpdateThreadVote s tid nickname voice).2.threads
      = s.threads.map (fun t =>
          if t.ID = tid then { t with Votes := t.Votes + (voice - storedVoice s tid nickname) }
          else t) := by
  unfold UpdateThreadVote
  unfold storedVoice at hfit ⊢
  cases hv : s.votes.find? (fun v =>
      decide (v.thread_id = tid) && decide (v.user_nickname = nickname)) with
  | none =>
    simp only [hv, sub_zero] at hfit
    simp only [find_thread_map, hfind, Option.map_some', sub_zero, hfit, if_true]
    exact ⟨trivial, trivial⟩
  | some old =>
    simp only [hv] at hfit
    by_cases hne : old.voice = voice
    · have hid : s.threads.map (fun t =>
          if t.ID = tid then { t with Votes := t.Votes + (voice - old.voice) } else t)
          = s.threads := by
        conv_rhs => rw [← List.map_id s.threads]
        apply List.map_congr_left
        intro t _
        simp [hne]
      simp only [hne, sub_self, add_zero] at hfit
      simp only [hne, ne_eq, not_true_eq_false, if_false, hfind, sub_self, add_zero, hfit,
        if_true]
      simp only [hne, sub_self, add_zero] at hid
      exact ⟨trivial, hid.symm⟩
    · simp only [ne_eq, hne, not_false_eq_true, if_true, find_thread_map, hfind,
        Option.map_some', hfit]
      exact ⟨trivial, trivial⟩

/-- The outcome of `UpdateThreadVote` on a stored thread whose new tally does
not fit in 32 bits: the error of `Scan`, and the store as before. -/
theorem UpdateThreadVote_overflow (s : Store) (tid : Int) (nickname : String) (voice : Int)
    (th : models.Thread)
    (hfind : s.threads.find? (fun t => decide (t.ID = tid)) = some th)
    (hfit : ¬ fitsInt32 (th.Votes + (voice - storedVoice s tid nickname))) :
    UpdateThreadVote s tid nickname voice
      = (.error (.Errorf "failed to retrieve updated thread after vote"
          (.Driver "value out of range for int32")), s) := by
  unfold UpdateThreadVote
  unfold storedVoice at hfit
  cases hv : s.votes.find? (fun v =>
      decide (v.thread_id = tid) && decide (v.user_nickname = nickname)) with
  | none =>
    simp only [hv, sub_zero] at hfit
    simp only [find_thread_map, hfind, Option.map_some', hfit, if_false]
  | some old =>
    simp only [hv] at hfit
    by_cases hne : old.voice = voice
    · simp only [hne, sub_self, add_zero] at hfit
      simp only [hne, ne_eq, not_true_eq_false, if_false, hfind, hfit]
    · simp only [ne_eq, hne, not_false_eq_true, if_true, find_thread_map, hfind,
        Option.map_some', hfit, if_false]

end storage

namespace service

/-- `VoteThread` of a stored user on a stored thread whose new tally fits in 32
bits. -/
theorem VoteThread_found (s : storage.Store) (slugOrID : String) (tid : Int)
    (vote : models.Vote) (th : models.Thread)
    (hu : storage.UserExists s vote.Nickname)
    (hth : storage.GetThreadIDBySlugOrID s slugOrID = .ok tid)
    (hfind : s.threads.find? (fun t => decide (t.ID = tid)) = some th)
    (hfit : storage.fitsInt32
      (th.Votes + (vote.Voice - storage.storedVoice s tid vote.Nickname))) :
    VoteThread s slugOrID vote
      = (.ok { th with
            Votes := th.Votes + (vote.Voice - storage.storedVoice s tid vote.Nickname) },
          (storage.UpdateThreadVote s tid vote.Nickname vote.Voice).2) := by
  obtain ⟨u, hu'⟩ := (service.GetUserByNickname_ok_iff s vote.Nickname).mpr hu
  have h1 := (storage.UpdateThreadVote_found s tid vote.Nickname vote.Voice th hfind hfit).1
  unfold VoteThread
  simp only [hu', hth]
  generalize storage.UpdateThreadVote s tid vote.Nickname vote.Voice = res at h1
  obtain ⟨r, s'⟩ := res
  simp only at h1
  subst h1
  rfl

/-- `VoteThread` of a stored user on a stored thread whose new tally does not
fit in 32 bits: the wrapped error of `Scan`, and the store as before. -/
theorem VoteThread_overflow (s : storage.Store) (slugOrID : String) (tid : Int)
    (vote : models.Vote) (th : models.Thread)
    (hu : storage.UserExists s vote.Nickname)
    (hth : storage.GetThreadIDBySlugOrID s slugOrID = .ok tid)
    (hfind : s.threads.find? (fun t => decide (t.ID = tid)) = some th)
    (hfit : ¬ storage.fitsInt32
      (th.Votes + (vote.Voice - storage.storedVoice s tid vote.Nickname))) :
    VoteThread s slugOrID vote
      = (.error (.Errorf "failed to update thread vote"
          (.Errorf "failed to retrieve updated thread after vote"
            (.Driver "value out of range for int32"))), s) := by
  obtain ⟨u, hu'⟩ := (service.GetUserByNickname_ok_iff s vote.Nickname).mpr hu
  unfold VoteThread
  simp only [hu', hth,
    storage.UpdateThreadVote_overflow s tid vote.Nickname vote.Voice th hfind hfit]
  rfl

end service

/-- C20: for an existing voter and an existing thread with tally `t`, a vote
that succeeds returns the thread with the tally `t + (v - old)`, where `old` is
the voice stored for the pair (0 when there is none), and that is the tally
stored: a first vote adds the voice, the same voice again changes nothing,
another voice moves the tally by new minus old.  The vote succeeds when the
voice, the change and the new tally fit in 32 bits; when the new tally does not
fit the 32 bits of `Thread.Votes`, the vote fails and the store is unchanged. -/
theorem C20_vote_moves_tally_by_delta (s : storage.Store) (slugOrID : String) (tid : Int)
    (vote : models.Vote)
    (hu : storage.UserExists s vote.Nickname)
    (hth : storage.GetThreadIDBySlugOrID s slugOrID = .ok tid) :
    ∃ th, s.threads.find? (fun t => decide (t.ID = tid)) = some th ∧
      (∀ updated, (service.VoteThread s slugOrID vote).1 = .ok updated →
        updated = { th with
            Votes := th.Votes + (vote.Voice - storage.storedVoice s tid vote.Nickname) } ∧
        (service.VoteThread s slugOrID vote).2.threads
          = s.threads.map (fun t =>
              if t.ID = tid then
                { t with
                  Votes := t.Votes + (vote.Voice - storage.storedVoice s tid vote.Nickname) }
              else t)) ∧
      (storage.fitsInt32 vote.Voice →
        storage.fitsInt32 (vote.Voice - storage.storedVoice s tid vote.Nickname) →
        storage.fitsInt32
          (th.Votes + (vote.Voice - storage.storedVoice s tid vote.Nickname)) →
        (service.VoteThread s slugOrID vote).1
          = .ok { th with
              Votes := th.Votes + (vote.Voice - storage.storedVoice s tid vote.Nickname) }) ∧
      (¬ storage.fitsInt32
          (th.Votes + (vote.Voice - storage.storedVoice s tid vote.Nickname)) →
        (∃ e, (service.VoteThread s slugOrID vote).1 = .error e) ∧
        (service.VoteThread s slugOrID vote).2 = s) := by
  obtain ⟨th, hfind⟩ := service.GetThreadIDBySlugOrID_ok s slugOrID tid hth
  refine ⟨th, hfind, ?_, ?_, ?_⟩
  · intro updated hok
    by_cases hfit : storage.fitsInt32
        (th.Votes + (vote.Voice - storage.storedVoice s tid vote.Nickname))
    · have hv := service.VoteThread_found s slugOrID tid vote th hu hth hfind hfit
      rw [hv] at hok ⊢
      exact ⟨(Except.ok.inj hok).symm,
        (storage.UpdateThreadVote_found s tid vote.Nickname vote.Voice th hfind hfit).2⟩
    · rw [service.VoteThread_overflow s slugOrID tid vote th hu hth hfind hfit] at hok
      exact absurd hok (by simp)
  · intro _ _ hfit
    rw [service.VoteThread_found s slugOrID tid vote th hu hth hfind hfit]
  · intro hfit
    rw [service.VoteThread_overflow s slugOrID tid vote th hu hth hfind hfit]
    exact ⟨⟨_, rfl⟩, rfl⟩

theorem C20_witness :
    storage.UserExists example1.store "ann" ∧
    storage.GetThreadIDBySlugOrID example1.store "th" = .ok 1 ∧
    example1.store.threads.map (fun t => t.Votes) = [0] ∧
    (service.VoteThread example1.store "th" example1.voteUp).2.threads.map
      (fun t => t.Votes) = [1] ∧
    (service.VoteThread (service.VoteThread example1.store "th" example1.voteUp).2 "th"
      example1.voteDown).2.threads.map (fun t => t.Votes) = [-1] ∧
    (service.VoteThread (service.VoteThread example1.store "th" example1.voteUp).2 "th"
      example1.voteDown).1.map (fun t => t.Votes) = .ok (-1) ∧
    (service.VoteThread example1.store "th" { Nickname := "ann", Voice := 2147483648 }).1.toOption
      = none ∧
    (service.VoteThread example1.store "th" { Nickname := "ann", Voice := 2147483648 }).2
      = example1.store ∧
    ∃ th, example1.store.threads.find? (fun t => decide (t.ID = 1)) = some th ∧
      (∀ updated, (service.VoteThread example1.store "th" example1.voteUp).1 = .ok updated →
        updated = { th with
            Votes := th.Votes + (example1.voteUp.Voice
              - storage.storedVoice example1.store 1 example1.voteUp.Nickname) } ∧
        (service.VoteThread example1.store "th" example1.voteUp).2.threads
          = example1.store.threads.map (fun t =>
              if t.ID = 1 then
                { t with
                  Votes := t.Votes + (example1.voteUp.Voice
                    - storage.storedVoice example1.store 1 example1.voteUp.Nickname) }
              else t)) ∧
      (storage.fitsInt32 example1.voteUp.Voice →
        storage.fitsInt32 (example1.voteUp.Voice
          - storage.storedVoice example1.store 1 example1.voteUp.Nickname) →
        storage.fitsInt32
          (th.Votes + (example1.voteUp.Voice
            - storage.storedVoice example1.store 1 example1.voteUp.Nickname)) →
        (service.VoteThread example1.store "th" example1.voteUp).1
          = .ok { th with
              Votes := th.Votes + (example1.voteUp.Voice
                - storage.storedVoice example1.store 1 example1.voteUp.Nickname) }) ∧
      (¬ storage.fitsInt32
          (th.Votes + (example1.voteUp.Voice
            - storage.storedVoice example1.store 1 example1.voteUp.Nickname)) →
        (∃ e, (service.VoteThread example1.store "th" example1.voteUp).1 = .error e) ∧
        (service.VoteThread example1.store "th" example1.voteUp).2 = example1.store) :=
  ⟨by decide, by rfl, by rfl, by rfl, by rfl, by rfl, by rfl, by rfl,
    C20_vote_moves_tally_by_delta example1.store "th" 1 example1.voteUp (by decide) (by rfl)⟩

/-! ## Orders of the listing queries -/

theorem StrictTotal.asymm {κ : Type} {lt : κ → κ → Bool} (h : StrictTotal lt) (a b : κ)
    (hab : lt a b = true) : lt b a = false := by
  cases hba : lt b a with
  | false => rfl
  | true =>
    have := h.trans a b a hab hba
    rw [h.irrefl a] at this
    exact absurd this (by simp)

theorem StrictTotal.flip {κ : Type} {lt : κ → κ → Bool} (h : StrictTotal lt) :
    StrictTotal (fun a b => lt b a) where
  irrefl := h.irrefl
  trans := fun a b c hab hbc => h.trans c b a hbc hab
  total := fun a b => by
    rcases h.total a b with h1 | h1 | h1
    · exact Or.inr (Or.inr h1)
    · exact Or.inr (Or.inl h1)
    · exact Or.inl h1

theorem strictTotal_int : StrictTotal (fun a b : Int => decide (a < b)) where
  irrefl := fun a => by simp
  trans := fun a b c hab hbc => by
    simp only [decide_eq_true_eq] at *
    omega
  total := fun a b => by
    simp only [decide_eq_true_eq]
    omega

namespace storage

theorem pathLess_irrefl : ∀ a : List Int, pathLess a a = false
  | [] => rfl
  | x :: xs => by
    simp only [pathLess, lt_self_iff_false, if_false]
    exact pathLess_irrefl xs

theorem pathLess_trans : ∀ a b c : List Int,
    pathLess a b = true → pathLess b c = true → pathLess a c = true
  | [], [], _, hab, _ => by simp [pathLess] at hab
  | [], _ :: _, [], _, hbc => by simp [pathLess] at hbc
  | [], _ :: _, _ :: _, _, _ => by simp [pathLess]
  | _ :: _, [], _, hab, _ => by simp [pathLess] at hab
  | _ :: _, _ :: _, [], _, hbc => by simp [pathLess] at hbc
  | x :: xs, y :: ys, z :: zs, hab, hbc => by
    simp only [pathLess] at hab hbc ⊢
    by_cases hxy : x < y
    · by_cases hyz : y < z
      · have : x < z := by omega
        simp [this]
      · by_cases hzy : z < y
        · simp [hyz, hzy] at hbc
        · have : x < z := by omega
          simp [this]
    · by_cases hyx : y < x
      · simp [hxy, hyx] at hab
      · simp only [hxy, hyx, if_false] at hab
        have hxy' : x = y := by omega
        subst hxy'
        by_cases hxz : x < z
        · simp [hxz]
        · by_cases hzx : z < x
          · simp [hxz, hzx] at hbc
          · simp only [hxz, hzx, if_false] at hbc ⊢
            exact pathLess_trans xs ys zs hab hbc

theorem pathLess_total : ∀ a b : List Int,
    pathLess a b = true ∨ a = b ∨ pathLess b a = true
  | [], [] => Or.inr (Or.inl rfl)
  | [], _ :: _ => Or.inl (by simp [pathLess])
  | _ :: _, [] => Or.inr (Or.inr (by simp [pathLess]))
  | x :: xs, y :: ys => by
    simp only [pathLess]
    by_cases hxy : x < y
    · left
      simp [hxy]
    · by_cases hyx : y < x
      · right
        right
        simp [hyx]
      · have hxy' : x = y := by omega
        subst hxy'
        simp only [lt_self_iff_false, if_false, List.cons.injEq, true_and]
        exact pathLess_total xs ys

theorem strictTotal_pathLess : StrictTotal pathLess where
  irrefl := pathLess_irrefl
  trans := pathLess_trans
  total := pathLess_total

end storage

/-- A strict total order on a key, refined inside each key by a strict weak
order, is a strict weak order. -/
theorem StrictWeak.lex {α κ : Type} [DecidableEq κ] {lt : κ → κ → Bool}
    {less : α → α → Bool} (key : α → κ) (hlt : StrictTotal lt) (hless : StrictWeak less) :
    StrictWeak (fun a b => lt (key a) (key b) || (decide (key a = key b) && less a b)) where
  asymm := fun a b hab => by
    simp only [Bool.or_eq_true, Bool.and_eq_true, decide_eq_true_eq] at hab
    simp only [Bool.or_eq_false_iff, Bool.and_eq_false_iff, decide_eq_false_iff_not]
    rcases hab with h | ⟨hk, h⟩
    · refine ⟨hlt.asymm _ _ h, Or.inl ?_⟩
      intro hk
      rw [hk, hlt.irrefl] at h
      exact absurd h (by simp)
    · refine ⟨?_, Or.inr (hless.asymm a b h)⟩
      rw [hk]
      exact hlt.irrefl _
  ntrans := fun a b c hba hcb => by
    simp only [Bool.or_eq_false_iff, Bool.and_eq_false_iff, decide_eq_false_iff_not] at hba hcb ⊢
    obtain ⟨hba1, hba2⟩ := hba
    obtain ⟨hcb1, hcb2⟩ := hcb
    -- key a ≤ key b and key b ≤ key c
    have hab : lt (key a) (key b) = true ∨ (key a = key b ∧ less b a = false) := by
      rcases hlt.total (key a) (key b) with h | h | h
      · exact Or.inl h
      · right
        refine ⟨h, ?_⟩
        rcases hba2 with h2 | h2
        · exact absurd h.symm h2
        · exact h2
      · rw [h] at hba1
        exact absurd hba1 (by simp)
    have hbc : lt (key b) (key c) = true ∨ (key b = key c ∧ less c b = false) := by
      rcases hlt.total (key b) (key c) with h | h | h
      · exact Or.inl h
      · right
        refine ⟨h, ?_⟩
        rcases hcb2 with h2 | h2
        · exact absurd h.symm h2
        · exact h2
      · rw [h] at hcb1
        exact absurd hcb1 (by simp)
    have hlt_ac : lt (key a) (key c) = true → (lt (key c) (key a) = false ∧
        (¬ key c = key a ∨ less c a = false)) := by
      intro h
      refine ⟨hlt.asymm _ _ h, Or.inl ?_⟩
      intro hk
      rw [hk, hlt.irrefl] at h
      exact absurd h (by simp)
    rcases hab with h1 | ⟨h1, h1'⟩
    · rcases hbc with h2 | ⟨h2, _⟩
      · exact hlt_ac (hlt.trans _ _ _ h1 h2)
      · exact hlt_ac (h2 ▸ h1)
    · rcases hbc with h2 | ⟨h2, h2'⟩
      · exact hlt_ac (h1 ▸ h2)
      · refine ⟨?_, Or.inr (hless.ntrans a b c h1' h2')⟩
        rw [← h2, ← h1]
        exact hlt.irrefl _

/-- The order of a strict total order on a key alone. -/
theorem StrictWeak.ofKey {α κ : Type} {lt : κ → κ → Bool} (key : α → κ)
    (hlt : StrictTotal lt) : StrictWeak (fun a b : α => lt (key a) (key b)) where
  asymm := fun a b h => hlt.asymm _ _ h
  ntrans := fun a b c hba hcb => by
    rcases hlt.total (key c) (key a) with h | h | h
    · exfalso
      rcases hlt.total (key b) (key a) with h1 | h1 | h1
      · rw [h1] at hba
        exact absurd hba (by simp)
      · rw [h1] at hcb
        rw [hcb] at h
        exact absurd h (by simp)
      · have := hlt.trans _ _ _ h h1
        rw [hcb] at this
        exact absurd this (by simp)
    · show lt (key c) (key a) = false
      rw [h]
      exact hlt.irrefl _
    · exact hlt.asymm _ _ h

/-! ## Sorted output of `sortSlice` -/

theorem orderedInsert_sorted {α : Type} {less : α → α → Bool} (h : StrictWeak less) (a : α)
    (l : List α) (hl : l.Pairwise (fun x y => less y x = false)) :
    (orderedInsert less a l).Pairwise (fun x y => less y x = false) := by
  induction l with
  | nil => simp [orderedInsert]
  | cons b bs ih =>
    rw [List.pairwise_cons] at hl
    unfold orderedInsert
    cases hba : less b a with
    | true =>
      simp only [if_true]
      rw [List.pairwise_cons]
      refine ⟨?_, ih hl.2⟩
      intro y hy
      rcases List.mem_cons.mp ((orderedInsert_perm less a bs).mem_iff.mp hy) with rfl | hy
      · exact h.asymm b y hba
      · exact hl.1 y hy
    | false =>
      simp only [Bool.false_eq_true, if_false]
      rw [List.pairwise_cons, List.pairwise_cons]
      refine ⟨?_, hl⟩
      intro y hy
      rcases List.mem_cons.mp hy with rfl | hy
      · exact hba
      · exact h.ntrans a b y hba (hl.1 y hy)

theorem sortSlice_sorted {α : Type} {less : α → α → Bool} (h : StrictWeak less) (l : List α) :
    (sortSlice less l).Pairwise (fun x y => less y x = false) := by
  induction l with
  | nil => simp [sortSlice]
  | cons a as ih =>
    unfold sortSlice
    exact orderedInsert_sorted h a _ ih

theorem sortSlice_strict {α : Type} {less : α → α → Bool} (h : StrictWeak less) (l : List α)
    (hcmp : l.Pairwise (fun x y => less x y = true ∨ less y x = true)) :
    (sortSlice less l).Pairwise (fun x y => less x y = true) := by
  have h1 : (sortSlice less l).Pairwise (fun x y => less x y = true ∨ less y x = true) :=
    ((sortSlice_perm less l).pairwise_iff (fun hxy => hxy.symm)).mpr hcmp
  have h2 := sortSlice_sorted h l
  refine (h2.and h1).imp ?_
  rintro x y ⟨hyx, hxy | hxy⟩
  · exact hxy
  · rw [hyx] at hxy
    exact absurd hxy (by simp)

namespace storage

/-! ## The four orders are row orders -/

theorem strictWeak_idAsc : StrictWeak (fun a b : PostRow => decide (a.id < b.id)) :=
  StrictWeak.ofKey (fun r : PostRow => r.id) strictTotal_int

theorem strictWeak_idDesc : StrictWeak (fun a b : PostRow => decide (b.id < a.id)) :=
  StrictWeak.ofKey (fun r : PostRow => r.id) strictTotal_int.flip

theorem rowOrder_treeLess (desc : Bool) : RowOrder (treeLess desc) := by
  cases desc
  · refine ⟨?_, ?_⟩
    · have heq : treeLess false = fun a b : PostRow =>
          pathLess a.path b.path || (decide (a.path = b.path) && decide (a.id < b.id)) := by
        funext a b
        simp [treeLess]
      rw [heq]
      exact StrictWeak.lex (fun r : PostRow => r.path) strictTotal_pathLess strictWeak_idAsc
    · intro a b h1 h2
      simp only [treeLess, Bool.false_eq_true, if_false, Bool.or_eq_false_iff,
        Bool.and_eq_false_iff, decide_eq_false_iff_not] at h1 h2
      rcases pathLess_total a.path b.path with h | h | h
      · rw [h] at h1
        exact absurd h1.1 (by simp)
      · have e1 := h1.2
        have e2 := h2.2
        simp only [h, not_true_eq_false, false_or] at e1 e2
        omega
      · rw [h] at h2
        exact absurd h2.1 (by simp)
  · refine ⟨?_, ?_⟩
    · have heq : treeLess true = fun a b : PostRow =>
          pathLess b.path a.path || (decide (a.path = b.path) && decide (b.id < a.id)) := by
        funext a b
        simp [treeLess]
      rw [heq]
      exact StrictWeak.lex (fun r : PostRow => r.path) strictTotal_pathLess.flip
        strictWeak_idDesc
    · intro a b h1 h2
      simp only [treeLess, if_true, Bool.or_eq_false_iff,
        Bool.and_eq_false_iff, decide_eq_false_iff_not] at h1 h2
      rcases pathLess_total a.path b.path with h | h | h
      · rw [h] at h2
        exact absurd h2.1 (by simp)
      · have e1 := h1.2
        have e2 := h2.2
        simp only [h, not_true_eq_false, false_or] at e1 e2
        omega
      · rw [h] at h1
        exact absurd h1.1 (by simp)

theorem rowOrder_parentTreeLess (desc : Bool) : RowOrder (parentTreeLess desc) := by
  cases desc
  · refine ⟨?_, ?_⟩
    · have heq : parentTreeLess false = fun a b : PostRow =>
          decide (a.root_parent_id < b.root_parent_id)
            || (decide (a.root_parent_id = b.root_parent_id)
              && (pathLess a.path b.path
                || (decide (a.path = b.path) && decide (a.id < b.id)))) := by
        funext a b
        simp [parentTreeLess]
      rw [heq]
      exact StrictWeak.lex (fun r : PostRow => r.root_parent_id) strictTotal_int
        (StrictWeak.lex (fun r : PostRow => r.path) strictTotal_pathLess strictWeak_idAsc)
    · intro a b h1 h2
      simp only [parentTreeLess, Bool.false_eq_true, if_false, Bool.or_eq_false_iff,
        Bool.and_eq_false_iff, decide_eq_false_iff_not] at h1 h2
      have hroot : a.root_parent_id = b.root_parent_id := by omega
      have e1 := h1.2
      have e2 := h2.2
      simp only [hroot, not_true_eq_false, false_or] at e1 e2
      rcases pathLess_total a.path b.path with h | h | h
      · rw [h] at e1
        exact absurd e1.1 (by simp)
      · have f1 := e1.2
        have f2 := e2.2
        simp only [h, not_true_eq_false, false_or] at f1 f2
        omega
      · rw [h] at e2
        exact absurd e2.1 (by simp)
  · refine ⟨?_, ?_⟩
    · have heq : parentTreeLess true = fun a b : PostRow =>
          decide (b.root_parent_id < a.root_parent_id)
            || (decide (a.root_parent_id = b.root_parent_id)
              && (pathLess a.path b.path
                || (decide (a.path = b.path) && decide (b.id < a.id)))) := by
        funext a b
        simp [parentTreeLess]
      rw [heq]
      exact StrictWeak.lex (fun r : PostRow => r.root_parent_id) strictTotal_int.flip
        (StrictWeak.lex (fun r : PostRow => r.path) strictTotal_pathLess strictWeak_idDesc)
    · intro a b h1 h2
      simp only [parentTreeLess, if_true, Bool.or_eq_false_iff,
        Bool.and_eq_false_iff, decide_eq_false_iff_not] at h1 h2
      have hroot : a.root_parent_id = b.root_parent_id := by omega
      have e1 := h1.2
      have e2 := h2.2
      simp only [hroot, not_true_eq_false, false_or] at e1 e2
      rcases pathLess_total a.path b.path with h | h | h
      · rw [h] at e1
        exact absurd e1.1 (by simp)
      · have f1 := e1.2
        have f2 := e2.2
        simp only [h, not_true_eq_false, false_or] at f1 f2
        omega
      · rw [h] at e2
        exact absurd e2.1 (by simp)

end storage

namespace storage

/-! ## The listing functions as pages of a sorted selection -/

theorem cursorRow_cases (s : Store) (tid since : Int) (h : CursorOk s tid since) :
    (¬ since > 0 ∧ cursorRow s tid since = none) ∨
    (since > 0 ∧ ∃ c, cursorRow s tid since = some c ∧
      s.posts.find? (fun r => decide (r.id = since) && decide (r.thread_id = tid)) = some c) := by
  by_cases hs : since > 0
  · right
    refine ⟨hs, ?_⟩
    rcases h with h | h
    · omega
    · obtain ⟨c, hc⟩ := Option.isSome_iff_exists.mp h
      refine ⟨c, hc, ?_⟩
      simpa [cursorRow, hs] using hc
  · left
    exact ⟨hs, by simp [cursorRow, hs]⟩

theorem GetTreeThreadPosts_eq (s : Store) (tid limit since : Int) (desc : Bool)
    (h : CursorOk s tid since) :
    GetTreeThreadPosts s tid limit since desc
      = listPage s tid limit "failed to query tree posts" (treeLess desc)
          (after (treeLess desc) (cursorRow s tid since)) := by
  rcases cursorRow_cases s tid since h with ⟨hs, hc⟩ | ⟨hs, c, hc, hfind⟩
  · simp only [GetTreeThreadPosts, hs, if_false, hc]
    rfl
  · simp only [GetTreeThreadPosts, hs, if_true, hfind, hc]
    congr 1
    funext r
    cases desc
    · simp [after, treeLess, eq_comm]
    · simp [after, treeLess, eq_comm]

theorem GetParentTreeThreadPosts_eq (s : Store) (tid limit since : Int) (desc : Bool)
    (h : CursorOk s tid since) :
    GetParentTreeThreadPosts s tid limit since desc
      = parentTreePage s tid limit desc (rootAfter desc (cursorRow s tid since)) := by
  rcases cursorRow_cases s tid since h with ⟨hs, hc⟩ | ⟨hs, c, hc, hfind⟩
  · simp only [GetParentTreeThreadPosts, hs, if_false, hc]
    rfl
  · simp only [GetParentTreeThreadPosts, hs, if_true, hfind, hc]
    rfl

theorem listPage_ok (s : Store) (tid limit : Int) (queryError : String)
    (less : PostRow → PostRow → Bool) (cond : PostRow → Bool) (hl : 0 ≤ limit)
    (hmax : limit ≤ 2147483647) :
    listPage s tid limit queryError less cond
      = .ok ((limitRows limit (sortSlice less
          (s.posts.filter (fun r => decide (r.thread_id = tid) && cond r)))).map scanPost) := by
  have h1 : ¬ (limit < -2147483648 ∨ 2147483647 < limit) := by omega
  have h2 : ¬ limit < 0 := by omega
  simp only [listPage, h1, h2, if_false]

theorem parentTreePage_ok (s : Store) (tid limit : Int) (desc : Bool)
    (cond : PostRow → Bool) (hl : 0 ≤ limit) (hmax : limit ≤ 2147483647) :
    parentTreePage s tid limit desc cond
      = .ok ((sortSlice (parentTreeLess desc)
          (s.posts.filter (fun r => decide (r.thread_id = tid)
            && decide (r.root_parent_id ∈ (limitRows limit (sortSlice (idLess desc)
              (s.posts.filter (fun r =>
                decide (r.thread_id = tid) && decide (r.parent = 0) && cond r)))).map
                  (fun r => r.id))))).map scanPost) := by
  have h1 : ¬ (limit < -2147483648 ∨ 2147483647 < limit) := by omega
  have h2 : ¬ limit < 0 := by omega
  simp only [parentTreePage, h1, h2, if_false]
  split
  · rename_i h0
    have hnil := List.length_eq_zero.mp h0
    rw [hnil]
    simp [sortSlice]
  · rfl

end storage

namespace storage

/-! ## Flat and tree listings -/

theorem StrictWeak.irrefl {α : Type} {less : α → α → Bool} (h : StrictWeak less) (a : α) :
    less a a = false := by
  cases haa : less a a with
  | false => rfl
  | true =>
    have := h.asymm a a haa
    rw [haa] at this
    exact absurd this (by simp)

end storage

namespace storage

theorem limitRows_sublist {α : Type} (limit : Int) (rows : List α) :
    (limitRows limit rows).Sublist rows := by
  unfold limitRows
  split
  · exact List.Sublist.refl _
  · exact List.take_sublist _ _

theorem treeLess_le (desc : Bool) (a b : PostRow) (h : treeLess desc b a = false) :
    (desc = false → pathLess b.path a.path = false) ∧
    (desc = true → pathLess a.path b.path = false) := by
  cases desc
  · simp only [treeLess, Bool.false_eq_true, if_false, Bool.or_eq_false_iff] at h
    exact ⟨fun _ => h.1, fun hd => absurd hd (by simp)⟩
  · simp only [treeLess, if_true, Bool.or_eq_false_iff] at h
    exact ⟨fun hd => absurd hd (by simp), fun _ => h.1⟩

theorem treeLess_strict (desc : Bool) (c r : PostRow)
    (hc : c.path.getLast? = some c.id) (hr : r.path.getLast? = some r.id)
    (h : treeLess desc c r = true) :
    (desc = false → pathLess c.path r.path = true) ∧
    (desc = true → pathLess r.path c.path = true) := by
  have hne : c.path = r.path → c.id = r.id := by
    intro hp
    rw [hp, hr] at hc
    exact (Option.some.inj hc).symm
  cases desc
  · simp only [treeLess, Bool.false_eq_true, if_false, Bool.or_eq_true, Bool.and_eq_true,
      decide_eq_true_eq] at h
    refine ⟨fun _ => ?_, fun hd => absurd hd (by simp)⟩
    rcases h with h | ⟨hp, hid⟩
    · exact h
    · have := hne hp
      omega
  · simp only [treeLess, if_true, Bool.or_eq_true, Bool.and_eq_true,
      decide_eq_true_eq] at h
    refine ⟨fun hd => absurd hd (by simp), fun _ => ?_⟩
    rcases h with h | ⟨hp, hid⟩
    · exact h
    · have := hne hp
      omega

theorem cursorRow_mem (s : Store) (tid since : Int) (c : PostRow)
    (h : cursorRow s tid since = some c) :
    c ∈ s.posts ∧ c.id = since ∧ c.thread_id = tid ∧ 0 < since := by
  unfold cursorRow at h
  split at h
  · rename_i hs
    have hp := List.find?_some h
    simp only [Bool.and_eq_true, decide_eq_true_eq] at hp
    exact ⟨List.mem_of_find?_eq_some h, hp.1, hp.2, hs⟩
  · exact absurd h (by simp)

end storage

/-- C15: for a limit that is not negative and fits in 32 bits, the width of the
parameter of `LIMIT`, a cursor that is absent or resolves, and stored paths that end with the identifier of their post, the rows of
`GetTreeThreadPosts` are, each with the next, non-decreasing in the
lexicographic order of paths, non-increasing when `desc`; and with a cursor row
`c` every row returned has a path strictly greater than the path of `c`,
strictly less when `desc`. -/
theorem C15_tree_listing (s : storage.Store) (tid limit since : Int) (desc : Bool)
    (hl : 0 ≤ limit) (hmax : limit ≤ 2147483647) (hcur : storage.CursorOk s tid since)
    (hpaths : storage.PathsKeyed s) :
    ∃ rows : List storage.PostRow,
      storage.GetTreeThreadPosts s tid limit since desc = .ok (rows.map storage.scanPost) ∧
      (desc = false → rows.Chain' (fun a b => storage.pathLess b.path a.path = false)) ∧
      (desc = true → rows.Chain' (fun a b => storage.pathLess a.path b.path = false)) ∧
      (∀ c, storage.cursorRow s tid since = some c → ∀ r ∈ rows,
        (desc = false → storage.pathLess c.path r.path = true) ∧
        (desc = true → storage.pathLess r.path c.path = true)) := by
  have hw := (storage.rowOrder_treeLess desc).weak
  refine ⟨storage.limitRows limit (sortSlice (storage.treeLess desc) (s.posts.filter (fun r =>
    decide (r.thread_id = tid)
      && storage.after (storage.treeLess desc) (storage.cursorRow s tid since) r))),
    ?_, ?_, ?_, ?_⟩
  · rw [storage.GetTreeThreadPosts_eq s tid limit since desc hcur,
      storage.listPage_ok s tid limit _ _ _ hl hmax]
  · intro hd
    exact (((sortSlice_sorted hw _).sublist (storage.limitRows_sublist limit _)).imp
      (fun {a b} h => (storage.treeLess_le desc a b h).1 hd)).chain'
  · intro hd
    exact (((sortSlice_sorted hw _).sublist (storage.limitRows_sublist limit _)).imp
      (fun {a b} h => (storage.treeLess_le desc a b h).2 hd)).chain'
  · intro c hc r hr
    have hr1 := (storage.limitRows_sublist limit _).subset hr
    have hr2 := (mem_sortSlice _ _ _).mp hr1
    obtain ⟨hrmem, hcond⟩ := List.mem_filter.mp hr2
    simp only [hc, storage.after, Bool.and_eq_true] at hcond
    exact storage.treeLess_strict desc c r
      (hpaths c (storage.cursorRow_mem s tid since c hc).1) (hpaths r hrmem) hcond.2

theorem C15_witness :
    (0 : Int) ≤ 0 ∧ (0 : Int) ≤ 2147483647 ∧ storage.CursorOk example2.store 1 0 ∧
    storage.PathsKeyed example2.store ∧
    storage.GetTreeThreadPosts example2.store 1 0 0 false
      = .ok ([example2.rowA, example2.rowB, example2.rowC, example2.rowD].map
          storage.scanPost) ∧
    (storage.GetTreeThreadPosts example2.store2 1 2 3 false).map
      (fun page => page.map (fun p => p.ID)) = .ok [5, 4] ∧
    (storage.GetTreeThreadPosts example2.store2 1 2 3 true).map
      (fun page => page.map (fun p => p.ID)) = .ok [2, 1] ∧
    ∃ rows : List storage.PostRow,
      storage.GetTreeThreadPosts example2.store 1 0 0 false
        = .ok (rows.map storage.scanPost) ∧
      (false = false → rows.Chain' (fun a b => storage.pathLess b.path a.path = false)) ∧
      (false = true → rows.Chain' (fun a b => storage.pathLess a.path b.path = false)) ∧
      (∀ c, storage.cursorRow example2.store 1 0 = some c → ∀ r ∈ rows,
        (false = false → storage.pathLess c.path r.path = true) ∧
        (false = true → storage.pathLess r.path c.path = true)) :=
  ⟨by decide, by decide, by decide, by decide, by rfl, by rfl, by rfl,
    C15_tree_listing example2.store 1 0 0 false (by decide) (by decide) (by decide) (by decide)⟩

namespace storage

/-! ## Paths and the reply tree -/

theorem pathLess_prefix : ∀ (p : List Int) (x : Int) (t : List Int),
    pathLess p (p ++ x :: t) = true
  | [], _, _ => by simp [pathLess]
  | y :: ys, x, t => by
    simp only [List.cons_append, pathLess, lt_self_iff_false, if_false]
    exact pathLess_prefix ys x t

theorem pathLess_fork : ∀ (p : List Int) (a b : Int) (t1 t2 : List Int), a < b →
    pathLess (p ++ a :: t1) (p ++ b :: t2) = true
  | [], a, b, t1, t2, h => by simp [pathLess, h]
  | y :: ys, a, b, t1, t2, h => by
    simp only [List.cons_append, pathLess, lt_self_iff_false, if_false]
    exact pathLess_fork ys a b t1 t2 h

theorem InSubtree.mem {posts : List PostRow} {a d : PostRow} (ha : a ∈ posts)
    (h : InSubtree posts a d) : d ∈ posts := by
  cases h with
  | self => exact ha
  | reply q _ _ hd _ _ => exact hd

theorem parent_path {posts : List PostRow} (hinv : PathInvariant posts)
    (hnd : (posts.map (fun r => r.id)).Nodup) (r q : PostRow) (hr : r ∈ posts) (hq : q ∈ posts)
    (h0 : r.parent ≠ 0) (hp : q.id = r.parent) : r.path = q.path ++ [r.id] := by
  obtain ⟨q', hq', hid, hpath⟩ := (hinv r hr).2 h0
  have : q' = q := List.inj_on_of_nodup_map hnd hq' hq (hid.trans hp.symm)
  rw [hpath, this]

theorem InSubtree.path {posts : List PostRow} (hinv : PathInvariant posts)
    (hnd : (posts.map (fun r => r.id)).Nodup) {a d : PostRow} (ha : a ∈ posts)
    (h : InSubtree posts a d) : ∃ t, d.path = a.path ++ t := by
  induction h with
  | self => exact ⟨[], by simp⟩
  | reply q d hq hd h0 hp ih =>
    obtain ⟨t, ht⟩ := ih
    refine ⟨t ++ [d.id], ?_⟩
    rw [parent_path hinv hnd d q hd (InSubtree.mem ha hq) h0 hp.symm, ht, List.append_assoc]

end storage

/-- C16: in a set of posts with distinct identifiers whose paths satisfy the
path invariant, the lexicographic order of paths puts every reply strictly
after its parent, and, for two posts `s1`, `s2` with the same parent and
`s1.id < s2.id`, every post of the subtree of `s1` strictly before every post
of the subtree of `s2`, `s2` included. -/
theorem C16_path_order_is_preorder (posts : List storage.PostRow)
    (hinv : storage.PathInvariant posts)
    (hnd : (posts.map (fun r => r.id)).Nodup) :
    (∀ r q, r ∈ posts → q ∈ posts → r.parent ≠ 0 → q.id = r.parent →
      storage.pathLess q.path r.path = true) ∧
    (∀ s1 s2 d1 d2, s1 ∈ posts → s2 ∈ posts → s1.parent = s2.parent → s1.id < s2.id →
      storage.InSubtree posts s1 d1 → storage.InSubtree posts s2 d2 →
      storage.pathLess d1.path d2.path = true) := by
  constructor
  · intro r q hr hq h0 hp
    rw [storage.parent_path hinv hnd r q hr hq h0 hp]
    exact storage.pathLess_prefix q.path r.id []
  · intro s1 s2 d1 d2 hs1 hs2 hpar hlt hd1 hd2
    obtain ⟨t1, ht1⟩ := storage.InSubtree.path hinv hnd hs1 hd1
    obtain ⟨t2, ht2⟩ := storage.InSubtree.path hinv hnd hs2 hd2
    have hcommon : ∃ p, s1.path = p ++ [s1.id] ∧ s2.path = p ++ [s2.id] := by
      by_cases h0 : s1.parent = 0
      · refine ⟨[], ?_, ?_⟩
        · simpa using (hinv s1 hs1).1 h0
        · simpa using (hinv s2 hs2).1 (hpar ▸ h0)
      · obtain ⟨q, hq, hid, hpath⟩ := (hinv s1 hs1).2 h0
        refine ⟨q.path, hpath, ?_⟩
        exact storage.parent_path hinv hnd s2 q hs2 hq (hpar ▸ h0) (hid.trans hpar)
    obtain ⟨p, hp1, hp2⟩ := hcommon
    rw [ht1, ht2, hp1, hp2, List.append_assoc, List.append_assoc]
    exact storage.pathLess_fork p s1.id s2.id _ _ hlt

theorem C16_witness :
    storage.PathInvariant example2.store2.posts ∧
    (example2.store2.posts.map (fun r => r.id)).Nodup ∧
    storage.pathLess example2.rowA.path example2.rowB.path = true ∧
    storage.pathLess example2.rowC.path example2.rowE.path = true ∧
    storage.pathLess example2.rowE.path example2.rowD.path = true :=
  ⟨by decide, by decide,
    (C16_path_order_is_preorder example2.store2.posts (by decide) (by decide)).1
      example2.rowB example2.rowA (by decide) (by decide) (by decide) (by rfl),
    (C16_path_order_is_preorder example2.store2.posts (by decide) (by decide)).2
      example2.rowB example2.rowE example2.rowC example2.rowE (by decide) (by decide)
      (by rfl) (by decide)
      (storage.InSubtree.reply example2.rowB example2.rowC storage.InSubtree.self
        (by decide) (by decide) (by rfl))
      storage.InSubtree.self,
    (C16_path_order_is_preorder example2.store2.posts (by decide) (by decide)).2
      example2.rowA example2.rowD example2.rowE example2.rowD (by decide) (by decide)
      (by rfl) (by decide)
      (storage.InSubtree.reply example2.rowA example2.rowE storage.InSubtree.self
        (by decide) (by decide) (by rfl))
      storage.InSubtree.self⟩

namespace storage

/-! ## The parent-tree listing -/

theorem parentTreeLess_le (desc : Bool) (a b : PostRow) (h : parentTreeLess desc b a = false) :
    (desc = false → a.root_parent_id ≤ b.root_parent_id) ∧
    (desc = true → b.root_parent_id ≤ a.root_parent_id) ∧
    (a.root_parent_id = b.root_parent_id → pathLess b.path a.path = false) := by
  cases desc
  · simp only [parentTreeLess, Bool.false_eq_true, if_false, Bool.or_eq_false_iff,
      Bool.and_eq_false_iff, decide_eq_false_iff_not] at h
    refine ⟨fun _ => by omega, fun hd => absurd hd (by simp), fun heq => ?_⟩
    rcases h.2 with h2 | h2
    · exact absurd heq.symm h2
    · exact h2.1
  · simp only [parentTreeLess, if_true, Bool.or_eq_false_iff,
      Bool.and_eq_false_iff, decide_eq_false_iff_not] at h
    refine ⟨fun hd => absurd hd (by simp), fun _ => by omega, fun heq => ?_⟩
    rcases h.2 with h2 | h2
    · exact absurd heq.symm h2
    · exact h2.1

/-- Rows sorted by a key are grouped by it: between two rows with the same key
every row has that key. -/
theorem contiguous_of_sorted (rows : List PostRow)
    (h : rows.Pairwise (fun a b => a.root_parent_id ≤ b.root_parent_id) ∨
      rows.Pairwise (fun a b => b.root_parent_id ≤ a.root_parent_id)) :
    ∀ (i j k : Nat) (a b c : PostRow), i < j → j < k →
      rows[i]? = some a → rows[j]? = some b → rows[k]? = some c →
      a.root_parent_id = c.root_parent_id → b.root_parent_id = a.root_parent_id := by
  intro i j k a b c hij hjk ha hb hc hac
  obtain ⟨hi, rfl⟩ := List.getElem?_eq_some.mp ha
  obtain ⟨hj, rfl⟩ := List.getElem?_eq_some.mp hb
  obtain ⟨hk, rfl⟩ := List.getElem?_eq_some.mp hc
  rcases h with h | h
  · rw [List.pairwise_iff_getElem] at h
    have h1 := h i j hi hj hij
    have h2 := h j k hj hk hjk
    omega
  · rw [List.pairwise_iff_getElem] at h
    have h1 := h i j hi hj hij
    have h2 := h j k hj hk hjk
    omega

end storage

/-- C18: in the rows of `GetParentTreeThreadPosts`, for every limit that is not
negative and fits in 32 bits, the width of the parameter of `LIMIT`, every
cursor and direction, the rows of one `root_parent_id` are
contiguous, inside a group the paths are ascending whatever the direction, and
the groups come by ascending `root_parent_id`, descending when `desc`. -/
theorem C18_parent_tree_groups (s : storage.Store) (tid limit since : Int) (desc : Bool)
    (hl : 0 ≤ limit) (hmax : limit ≤ 2147483647) :
    ∃ rows : List storage.PostRow,
      storage.GetParentTreeThreadPosts s tid limit since desc
        = .ok (rows.map storage.scanPost) ∧
      (∀ (i j k : Nat) (a b c : storage.PostRow), i < j → j < k →
        rows[i]? = some a → rows[j]? = some b → rows[k]? = some c →
        a.root_parent_id = c.root_parent_id → b.root_parent_id = a.root_parent_id) ∧
      rows.Pairwise (fun a b =>
        a.root_parent_id = b.root_parent_id → storage.pathLess b.path a.path = false) ∧
      (desc = false → rows.Pairwise (fun a b => a.root_parent_id ≤ b.root_parent_id)) ∧
      (desc = true → rows.Pairwise (fun a b => b.root_parent_id ≤ a.root_parent_id)) := by
  by_cases hcur : storage.CursorOk s tid since
  · have hw := (storage.rowOrder_parentTreeLess desc).weak
    rw [storage.GetParentTreeThreadPosts_eq s tid limit since desc hcur,
      storage.parentTreePage_ok s tid limit desc _ hl hmax]
    refine ⟨_, rfl, ?_, ?_, ?_, ?_⟩
    · apply storage.contiguous_of_sorted
      by_cases hd : desc = false
      · left
        exact (sortSlice_sorted hw _).imp
          (fun {a b} h => (storage.parentTreeLess_le desc a b h).1 hd)
      · right
        have hd' : desc = true := by simpa using hd
        exact (sortSlice_sorted hw _).imp
          (fun {a b} h => (storage.parentTreeLess_le desc a b h).2.1 hd')
    · exact (sortSlice_sorted hw _).imp
        (fun {a b} h => (storage.parentTreeLess_le desc a b h).2.2)
    · intro hd
      exact (sortSlice_sorted hw _).imp
        (fun {a b} h => (storage.parentTreeLess_le desc a b h).1 hd)
    · intro hd
      exact (sortSlice_sorted hw _).imp
        (fun {a b} h => (storage.parentTreeLess_le desc a b h).2.1 hd)
  · have hs : since > 0 := by
      unfold storage.CursorOk at hcur
      omega
    have hfind : s.posts.find? (fun r => decide (r.id = since) && decide (r.thread_id = tid))
        = none := by
      cases hf : s.posts.find? (fun r => decide (r.id = since) && decide (r.thread_id = tid)) with
      | none => rfl
      | some c =>
        exfalso
        apply hcur
        right
        simp [storage.cursorRow, hs, hf]
    refine ⟨[], ?_, ?_, List.Pairwise.nil, fun _ => List.Pairwise.nil,
      fun _ => List.Pairwise.nil⟩
    · simp [storage.GetParentTreeThreadPosts, hs, hfind]
    · intro i j k a b c _ _ ha
      simp at ha

theorem C18_witness :
    (0 : Int) ≤ 0 ∧ (0 : Int) ≤ 2147483647 ∧
    (storage.GetParentTreeThreadPosts example2.store2 1 0 0 false).map
      (fun page => page.map (fun p => (p.RootParentID, p.Path))) =
        .ok [(1, some [1]), (1, some [1, 2]), (1, some [1, 2, 3]), (1, some [1, 5]),
          (4, some [4])] ∧
    (storage.GetParentTreeThreadPosts example2.store2 1 0 0 true).map
      (fun page => page.map (fun p => (p.RootParentID, p.Path))) =
        .ok [(4, some [4]), (1, some [1]), (1, some [1, 2]), (1, some [1, 2, 3]),
          (1, some [1, 5])] ∧
    ∃ rows : List storage.PostRow,
      storage.GetParentTreeThreadPosts example2.store2 1 0 0 true
        = .ok (rows.map storage.scanPost) ∧
      (∀ (i j k : Nat) (a b c : storage.PostRow), i < j → j < k →
        rows[i]? = some a → rows[j]? = some b → rows[k]? = some c →
        a.root_parent_id = c.root_parent_id → b.root_parent_id = a.root_parent_id) ∧
      rows.Pairwise (fun a b =>
        a.root_parent_id = b.root_parent_id → storage.pathLess b.path a.path = false) ∧
      (true = false → rows.Pairwise (fun a b => a.root_parent_id ≤ b.root_parent_id)) ∧
      (true = true → rows.Pairwise (fun a b => b.root_parent_id ≤ a.root_parent_id)) :=
  ⟨by decide, by decide, by rfl, by rfl,
    C18_parent_tree_groups example2.store2 1 0 0 true (by decide) (by decide)⟩

namespace storage

end storage

theorem StrictWeak.trans {α : Type} {less : α → α → Bool} (h : StrictWeak less) (a b c : α)
    (hab : less a b = true) (hbc : less b c = true) : less a c = true := by
  cases hac : less a c with
  | true => rfl
  | false =>
    have := h.ntrans b c a (h.asymm b c hbc) hac
    rw [hab] at this
    exact absurd this (by simp)

namespace storage

end storage

namespace storage

end storage

namespace storage

end storage

namespace storage

end storage

namespace storage

theorem resolvePath_ok (tx : List PostRow) (m : List models.Post) (cur : models.Post)
    (p : List Int) (k : Int) (h : resolvePath tx m cur = .ok (p, k)) :
    p.getLast? = some cur.ID ∧ (cur.Parent = 0 → k = cur.ID) := by
  unfold resolvePath at h
  by_cases h0 : cur.Parent = 0
  · rw [if_pos h0] at h
    have := Except.ok.inj h
    simp only [Prod.mk.injEq] at this
    rw [← this.1, ← this.2]
    exact ⟨rfl, fun _ => rfl⟩
  · rw [if_neg h0] at h
    refine ⟨?_, fun h1 => absurd h1 h0⟩
    split at h
    · split at h
      · exact absurd h (by simp)
      · have := Except.ok.inj h
        simp only [Prod.mk.injEq] at this
        rw [← this.1]
        simp
    · split at h
      · exact absurd h (by simp)
      · have := Except.ok.inj h
        simp only [Prod.mk.injEq] at this
        rw [← this.1]
        simp

/-- The statements queued by the loop: one for each post processed, in order,
with a path that ends with the identifier of the post and, for a post without
parent, that identifier as root. -/
theorem assignPaths_updates (tx : List PostRow) (order : List models.Post) :
    ∀ (m : List models.Post) (batch : List (List Int × Int × Int))
      (res : List models.Post) (us : List (List Int × Int × Int)),
    assignPaths tx order m batch = .ok (res, us) →
    ∃ new, us = batch ++ new ∧ new.map (fun u => u.2.2) = order.map (fun c => c.ID) ∧
      ∀ u ∈ new, ∃ cur ∈ order, u.2.2 = cur.ID ∧ u.1.getLast? = some cur.ID ∧
        (cur.Parent = 0 → u.2.1 = cur.ID) := by
  induction order with
  | nil =>
    intro m batch res us h
    simp only [assignPaths, Except.ok.injEq, Prod.mk.injEq] at h
    exact ⟨[], by simp [h.2], rfl, by simp⟩
  | cons cur rest ih =>
    intro m batch res us h
    simp only [assignPaths] at h
    cases hr : resolvePath tx m cur with
    | error e =>
      rw [hr] at h
      exact absurd h (by simp)
    | ok pk =>
      obtain ⟨p, k⟩ := pk
      rw [hr] at h
      obtain ⟨new, hus, hids, hall⟩ := ih _ _ res us h
      have hpk := resolvePath_ok tx m cur p k hr
      refine ⟨(p, k, cur.ID) :: new, ?_, ?_, ?_⟩
      · rw [hus, List.append_assoc]
        rfl
      · simp [hids]
      · intro u hu
        rcases List.mem_cons.mp hu with rfl | hu
        · exact ⟨cur, List.mem_cons_self _ _, rfl, hpk.1, hpk.2⟩
        · obtain ⟨c, hc, h1, h2, h3⟩ := hall u hu
          exact ⟨c, List.mem_cons_of_mem _ hc, h1, h2, h3⟩

theorem applyUpdates_parent (us : List (List Int × Int × Int)) :
    ∀ r : PostRow, (applyUpdates us r).parent = r.parent := by
  induction us with
  | nil => intro r; rfl
  | cons u us ih =>
    intro r
    simp only [applyUpdates, List.foldl_cons] at ih ⊢
    rw [ih]
    split <;> rfl

theorem applyUpdates_inv (P : List Int → Int → Prop) (us : List (List Int × Int × Int)) :
    ∀ r : PostRow, (∀ u ∈ us, u.2.2 = r.id → P u.1 u.2.1) →
      (P r.path r.root_parent_id ∨ ∃ u ∈ us, u.2.2 = r.id) →
      P (applyUpdates us r).path (applyUpdates us r).root_parent_id := by
  induction us with
  | nil =>
    intro r _ h
    rcases h with h | ⟨u, hu, _⟩
    · exact h
    · exact absurd hu (List.not_mem_nil _)
  | cons u us ih =>
    intro r hall h
    simp only [applyUpdates, List.foldl_cons] at ih ⊢
    by_cases hid : r.id = u.2.2
    · rw [if_pos hid]
      apply ih
      · intro v hv hvid
        exact hall v (List.mem_cons_of_mem _ hv) hvid
      · exact Or.inl (hall u (List.mem_cons_self _ _) hid.symm)
    · rw [if_neg hid]
      apply ih
      · intro v hv hvid
        exact hall v (List.mem_cons_of_mem _ hv) hvid
      · rcases h with h | ⟨v, hv, hvid⟩
        · exact Or.inl h
        · rcases List.mem_cons.mp hv with rfl | hv
          · exact absurd hvid.symm hid
          · exact Or.inr ⟨v, hv, hvid⟩

end storage

namespace storage

/-- The table `posts` after a successful `CreatePosts`: the committed rows and
the inserted rows, with the queued updates applied; every update is for an
inserted row, and every inserted row has its update. -/
theorem CreatePosts_rows (s : Store) (posts : List models.Post) (created : Time)
    (rs : List models.Post) (s' : Store) (hne : posts ≠ [])
    (h : CreatePosts s posts created = (.ok rs, s')) :
    ∃ (th : models.Thread) (us : List (List Int × Int × Int)),
      s'.postSeq = s.postSeq + posts.length ∧
      s'.posts = (s.posts ++ insertedRows s.postSeq th.Forum created posts).map
        (applyUpdates us) ∧
      (∀ u ∈ us, ∃ r ∈ insertedRows s.postSeq th.Forum created posts,
        u.2.2 = r.id ∧ u.1.getLast? = some r.id ∧ (r.parent = 0 → u.2.1 = r.id)) ∧
      (∀ r ∈ insertedRows s.postSeq th.Forum created posts, ∃ u ∈ us, u.2.2 = r.id) := by
  obtain ⟨p0, ps, rfl⟩ := List.exists_cons_of_ne_nil hne
  simp only [CreatePosts] at h
  cases hth : s.threads.find? (fun t => decide (t.ID = p0.Thread)) with
  | none =>
    rw [hth] at h
    exact absurd (congrArg Prod.fst h) (by simp)
  | some th =>
    rw [hth] at h
    simp only at h
    cases ha : assignPaths (s.posts ++ insertedRows s.postSeq th.Forum created (p0 :: ps))
        (sortSlice processingLess
          ((insertedRows s.postSeq th.Forum created (p0 :: ps)).map scanCreated))
        ((insertedRows s.postSeq th.Forum created (p0 :: ps)).map scanCreated) [] with
    | error e =>
      rw [ha] at h
      exact absurd (congrArg Prod.fst h) (by simp)
    | ok pr =>
      obtain ⟨result, us⟩ := pr
      rw [ha] at h
      simp only [Prod.mk.injEq] at h
      obtain ⟨new, hus, hids, hall⟩ := assignPaths_updates _ _ _ _ _ _ ha
      rw [List.nil_append] at hus
      subst hus
      refine ⟨th, us, ?_, ?_, ?_, ?_⟩
      · rw [← h.2]
      · rw [← h.2, ← foldl_execUpdate]
      · intro u hu
        obtain ⟨cur, hcur, h1, h2, h3⟩ := hall u hu
        obtain ⟨r, hr, rfl⟩ := List.mem_map.mp ((mem_sortSlice _ _ _).mp hcur)
        exact ⟨r, hr, h1, h2, h3⟩
      · intro r hr
        have hmem : r.id ∈ (sortSlice processingLess
            ((insertedRows s.postSeq th.Forum created (p0 :: ps)).map scanCreated)).map
              (fun c => c.ID) :=
          List.mem_map.mpr ⟨scanCreated r,
            (mem_sortSlice _ _ _).mpr (List.mem_map.mpr ⟨r, hr, rfl⟩), rfl⟩
        rw [← hids] at hmem
        obtain ⟨u, hu, hid⟩ := List.mem_map.mp hmem
        exact ⟨u, hu, hid⟩

end storage

namespace service

/-- A call of `CreatePosts` leaves the store as it was, or it is a successful
call of the storage on a batch that is not empty. -/
theorem CreatePosts_cases (s : storage.Store) (slugOrID : String)
    (newPosts : List models.Post) (creationTime created : Time)
    (res : Except GoError (List models.Post)) (s' : storage.Store)
    (hk : storage.PostsKeyed s)
    (h : CreatePosts s slugOrID newPosts creationTime created = (res, s')) :
    s' = s ∨ ∃ tid rs, newPosts ≠ [] ∧
      storage.CreatePosts s (postsToCreate tid creationTime newPosts) created = (.ok rs, s') := by
  cases hth : storage.GetThreadIDBySlugOrID s slugOrID with
  | error e =>
    unfold CreatePosts at h
    simp only [hth] at h
    left
    split at h <;> exact (Prod.mk.inj h).2.symm
  | ok tid =>
    rw [CreatePosts_resolved s slugOrID tid newPosts creationTime created hth] at h
    by_cases h0 : newPosts.length = 0
    · rw [if_pos h0] at h
      exact Or.inl (Prod.mk.inj h).2.symm
    · rw [if_neg h0] at h
      have hne : newPosts ≠ [] := fun hnil => h0 (by rw [hnil]; rfl)
      by_cases h1 : ∀ p ∈ newPosts, storage.UserExists s p.Author
      · rw [if_neg (not_not.mpr h1)] at h
        by_cases h2 : ∀ p ∈ newPosts, p.Parent ≠ 0 →
            storage.CheckParentPostExistsInThread s p.Parent tid = true
        · rw [if_neg (not_not.mpr h2)] at h
          obtain ⟨th, hfind⟩ := GetThreadIDBySlugOrID_ok s slugOrID tid hth
          have hne' : postsToCreate tid creationTime newPosts ≠ [] := by
            unfold postsToCreate
            simpa using hne
          obtain ⟨Y, _, heq⟩ := storage.CreatePosts_checked s
            (postsToCreate tid creationTime newPosts) created tid th hk.1 hfind hne'
            (fun p hp => (mem_postsToCreate tid creationTime newPosts p hp).1)
            (fun p hp hp0 => by
              obtain ⟨_, p0, hp0', hpp, _⟩ := mem_postsToCreate tid creationTime newPosts p hp
              rw [hpp] at hp0 ⊢
              exact h2 p0 hp0' hp0)
          right
          rw [heq] at h
          simp only [Prod.mk.injEq] at h
          exact ⟨tid, _, hne, by rw [heq, ← h.2]⟩
        · rw [if_pos h2] at h
          exact Or.inl (Prod.mk.inj h).2.symm
      · rw [if_pos h1] at h
        exact Or.inl (Prod.mk.inj h).2.symm

/-- The service keeps table `posts` well formed: identifiers distinct, positive
and issued by the sequence, every path ending with the identifier of its post,
and every post without parent its own root. -/
theorem CreatePosts_wellFormed (s : storage.Store) (slugOrID : String)
    (newPosts : List models.Post) (creationTime created : Time)
    (res : Except GoError (List models.Post)) (s' : storage.Store)
    (hw : storage.WellFormed s)
    (h : CreatePosts s slugOrID newPosts creationTime created = (res, s')) :
    storage.WellFormed s' := by
  obtain ⟨hseq, hk, hpos, hpaths, hroots⟩ := hw
  have hk' := CreatePosts_keyed s slugOrID newPosts creationTime created res s' hk h
  rcases CreatePosts_cases s slugOrID newPosts creationTime created res s' hk h with
    rfl | ⟨tid, rs, hne, hst⟩
  · exact ⟨hseq, hk, hpos, hpaths, hroots⟩
  · have hne' : postsToCreate tid creationTime newPosts ≠ [] := by
      unfold postsToCreate
      simpa using hne
    obtain ⟨th, us, hseq', hposts, hus, hrows⟩ :=
      storage.CreatePosts_rows s _ created rs s' hne' hst
    have hold : ∀ r ∈ s.posts, storage.applyUpdates us r = r := by
      intro r hr
      apply storage.applyUpdates_of_not_mem
      intro u hu hid
      obtain ⟨r1, hr1, h1, _, _⟩ := hus u hu
      have := (storage.insertedRows_id_gt _ _ _ _ r1 hr1).1
      have := hk.1 r hr
      omega
    have hnew : ∀ r ∈ storage.insertedRows s.postSeq th.Forum created
        (postsToCreate tid creationTime newPosts),
        (storage.applyUpdates us r).path.getLast? = some r.id ∧
        (r.parent = 0 → (storage.applyUpdates us r).root_parent_id = r.id) := by
      intro r hr
      apply storage.applyUpdates_inv
        (fun p k => p.getLast? = some r.id ∧ (r.parent = 0 → k = r.id)) us r
      · intro u hu hid
        obtain ⟨r1, hr1, h1, h2, h3⟩ := hus u hu
        have heq : r1 = r := List.inj_on_of_nodup_map
          (storage.insertedRows_nodup _ _ _ _) hr1 hr (h1.symm.trans hid)
        rw [heq] at h2 h3
        exact ⟨h2, h3⟩
      · exact Or.inr (hrows r hr)
    refine ⟨by rw [hseq']; omega, hk', ?_, ?_, ?_⟩
    · intro r hr
      rw [hposts] at hr
      obtain ⟨r0, hr0, rfl⟩ := List.mem_map.mp hr
      rw [storage.applyUpdates_id]
      rcases List.mem_append.mp hr0 with h0 | h0
      · exact hpos r0 h0
      · have := (storage.insertedRows_id_gt _ _ _ _ r0 h0).1
        omega
    · intro r hr
      rw [hposts] at hr
      obtain ⟨r0, hr0, rfl⟩ := List.mem_map.mp hr
      rcases List.mem_append.mp hr0 with h0 | h0
      · rw [hold r0 h0]
        exact hpaths r0 h0
      · rw [storage.applyUpdates_id]
        exact (hnew r0 h0).1
    · intro r hr hpar
      rw [hposts] at hr
      obtain ⟨r0, hr0, rfl⟩ := List.mem_map.mp hr
      rcases List.mem_append.mp hr0 with h0 | h0
      · rw [hold r0 h0] at hpar ⊢
        exact hroots r0 h0 hpar
      · rw [storage.applyUpdates_parent] at hpar
        rw [storage.applyUpdates_id]
        exact (hnew r0 h0).2 hpar

theorem wellFormed_emptyStore : storage.WellFormed storage.emptyStore := by
  decide

end service
/-! ## Votes that cannot be cast, and cursors that are not positive -/

/-- C29: with `since ≤ 0` no cursor row is looked up and each of the three
listings is the listing without cursor condition, the one of `since = 0`; so is
the result of the service for every sort, and the answer of the handler to a
`since` parameter that reads as such a number is its answer to a request
without `since`. -/
theorem C29_nonpositive_since_is_no_cursor (s : storage.Store) (tid limit since : Int)
    (desc : Bool) (h : since ≤ 0) :
    storage.cursorRow s tid since = none ∧
    storage.GetFlatThreadPosts s tid limit since desc
      = storage.listPage s tid limit "failed to query flat posts" (storage.flatLess desc)
          (fun _ => true) ∧
    storage.GetTreeThreadPosts s tid limit since desc
      = storage.listPage s tid limit "failed to query tree posts" (storage.treeLess desc)
          (fun _ => true) ∧
    storage.GetParentTreeThreadPosts s tid limit since desc
      = storage.parentTreePage s tid limit desc (fun _ => true) ∧
    storage.GetFlatThreadPosts s tid limit since desc
      = storage.GetFlatThreadPosts s tid limit 0 desc ∧
    storage.GetTreeThreadPosts s tid limit since desc
      = storage.GetTreeThreadPosts s tid limit 0 desc ∧
    storage.GetParentTreeThreadPosts s tid limit since desc
      = storage.GetParentTreeThreadPosts s tid limit 0 desc ∧
    (∀ (slugOrID sort : String),
      service.GetThreadPosts s slugOrID limit since sort desc
        = service.GetThreadPosts s slugOrID limit 0 sort desc) ∧
    (∀ (slugOrID sinceStr : String) (limitQuery sortQuery descQuery : Option String),
      storage.ParseInt sinceStr = some since →
      api.GetThreadPosts s slugOrID limitQuery (some sinceStr) sortQuery descQuery
        = api.GetThreadPosts s slugOrID limitQuery none sortQuery descQuery) := by
  have hs : ¬ since > 0 := by omega
  have h0 : ¬ (0 : Int) > 0 := by omega
  have hflat : ∀ l : Int, storage.GetFlatThreadPosts s tid l since desc
      = storage.GetFlatThreadPosts s tid l 0 desc := by
    intro l
    simp only [storage.GetFlatThreadPosts, hs, h0, if_false]
  have htree : ∀ l : Int, storage.GetTreeThreadPosts s tid l since desc
      = storage.GetTreeThreadPosts s tid l 0 desc := by
    intro l
    simp only [storage.GetTreeThreadPosts, hs, h0, if_false]
  have hpt : ∀ l : Int, storage.GetParentTreeThreadPosts s tid l since desc
      = storage.GetParentTreeThreadPosts s tid l 0 desc := by
    intro l
    simp only [storage.GetParentTreeThreadPosts, hs, h0, if_false]
  have hsvc : ∀ (d : Bool) (l : Int) (slugOrID sort : String),
      service.GetThreadPosts s slugOrID l since sort d
        = service.GetThreadPosts s slugOrID l 0 sort d := by
    intro d l slugOrID sort
    unfold service.GetThreadPosts
    cases storage.GetThreadIDBySlugOrID s slugOrID with
    | error e => rfl
    | ok t =>
      simp only [storage.GetFlatThreadPosts, storage.GetTreeThreadPosts,
        storage.GetParentTreeThreadPosts, hs, h0, if_false]
  refine ⟨by simp [storage.cursorRow, hs], ?_, ?_, ?_, hflat limit, htree limit, hpt limit,
    hsvc desc limit, ?_⟩
  · simp only [storage.GetFlatThreadPosts, hs, if_false]
  · simp only [storage.GetTreeThreadPosts, hs, if_false]
  · simp only [storage.GetParentTreeThreadPosts, hs, if_false]
  · intro slugOrID sinceStr limitQuery sortQuery descQuery hparse
    have hne : sinceStr ≠ "" := by
      intro he
      have hempty : storage.ParseInt "" = none := by rfl
      rw [he, hempty] at hparse
      exact absurd hparse (by simp)
    unfold api.GetThreadPosts
    simp only [Option.getD_some, Option.getD_none, hparse, hne, ne_eq, not_false_eq_true,
      Option.isNone_some, and_false, if_false, if_true, not_true_eq_false, false_and,
      Bool.false_eq_true]
    split
    · rfl
    · cases api.ParseBool (descQuery.getD "false") with
      | none => rfl
      | some d =>
        simp only
        rw [hsvc d]

theorem C29_witness :
    ((-5 : Int) ≤ 0) ∧
    (storage.GetFlatThreadPosts example1.store 1 0 (-5) false).map
      (fun page => page.map (fun p => p.ID)) = .ok [1, 2] ∧
    (storage.GetParentTreeThreadPosts example1.store 1 0 (-5) true).map
      (fun page => page.map (fun p => p.ID)) = .ok [1, 2] ∧
    storage.ParseInt "-5" = some (-5) ∧
    api.GetThreadPosts example1.store "th" none (some "-5") (some "tree") none
      = api.GetThreadPosts example1.store "th" none none (some "tree") none ∧
    storage.GetTreeThreadPosts example1.store 1 0 (-5) false
      = storage.GetTreeThreadPosts example1.store 1 0 0 false :=
  ⟨by decide, by rfl, by rfl, by rfl,
    (C29_nonpositive_since_is_no_cursor example1.store 1 0 (-5) false (by decide)).2.2.2.2.2.2.2.2
      "th" "-5" none (some "tree") none (by rfl),
    (C29_nonpositive_since_is_no_cursor example1.store 1 0 (-5) false
      (by decide)).2.2.2.2.2.1⟩

/-! ## Editing the message of a post -/

namespace storage

/-- What an edit may change in a row: the message and the edited flag of the
rows with identifier `id`, and nothing in the other rows. -/
theorem edit_frame (id : Int) (newMessage : String) (rows : List PostRow) :
    List.Forall₂ (fun r r' : PostRow =>
      r'.id = r.id ∧ r'.parent = r.parent ∧ r'.author = r.author ∧ r'.thread_id = r.thread_id ∧
      r'.forum = r.forum ∧ r'.created = r.created ∧ r'.path = r.path ∧
      r'.root_parent_id = r.root_parent_id ∧ (r.id ≠ id → r' = r))
      rows (rows.map (fun r =>
        if r.id = id then { r with message := newMessage, is_edited := true } else r)) := by
  rw [List.forall₂_map_right_iff, List.forall₂_same]
  intro r _
  by_cases h : r.id = id
  · rw [if_pos h]
    exact ⟨rfl, rfl, rfl, rfl, rfl, rfl, rfl, rfl, fun hne => absurd h hne⟩
  · rw [if_neg h]
    exact ⟨rfl, rfl, rfl, rfl, rfl, rfl, rfl, rfl, fun _ => rfl⟩

theorem frame_refl (id : Int) (rows : List PostRow) :
    List.Forall₂ (fun r r' : PostRow =>
      r'.id = r.id ∧ r'.parent = r.parent ∧ r'.author = r.author ∧ r'.thread_id = r.thread_id ∧
      r'.forum = r.forum ∧ r'.created = r.created ∧ r'.path = r.path ∧
      r'.root_parent_id = r.root_parent_id ∧ (r.id ≠ id → r' = r)) rows rows := by
  rw [List.forall₂_same]
  intro r _
  exact ⟨rfl, rfl, rfl, rfl, rfl, rfl, rfl, rfl, fun _ => rfl⟩

/-- The store after `UpdatePostMessage`: the one before, or the one before with
the message and the flag set in the rows of the identifier. -/
theorem UpdatePostMessage_store (s : Store) (id : Int) (newMessage : String) :
    (UpdatePostMessage s id newMessage).2 = s ∨
    (UpdatePostMessage s id newMessage).2 = { s with posts := s.posts.map (fun r =>
      if r.id = id then { r with message := newMessage, is_edited := true } else r) } := by
  unfold UpdatePostMessage
  cases s.posts.find? (fun r => decide (r.id = id)) with
  | none => exact Or.inl rfl
  | some r => exact Or.inr rfl

end storage

namespace service

theorem UpdatePostDetails_store (s : storage.Store) (id : Int) (newMessage : String) :
    (UpdatePostDetails s id newMessage).2 = s ∨
    (UpdatePostDetails s id newMessage).2 = { s with posts := s.posts.map (fun r =>
      if r.id = id then { r with message := newMessage, is_edited := true } else r) } := by
  unfold UpdatePostDetails
  cases storage.GetPostByID s id with
  | error e =>
    left
    simp only
    split <;> rfl
  | ok p =>
    simp only
    by_cases h1 : newMessage = ""
    · rw [if_pos h1]
      exact Or.inl rfl
    · rw [if_neg h1]
      by_cases h2 : p.Message = newMessage
      · rw [if_pos h2]
        exact Or.inl rfl
      · rw [if_neg h2]
        have hsnd : ∀ res : Except GoError models.Post × storage.Store,
            (match res with
              | (.error err, s') =>
                if errorsIs err .ErrNotFound then (Except.error GoError.ErrPostNotFound, s')
                else (.error (.Errorf "failed to update post message in storage" err), s')
              | (.ok updatedPost, s') => (.ok updatedPost, s')).2 = res.2 := by
          intro res
          obtain ⟨r, s'⟩ := res
          cases r with
          | error e =>
            simp only
            split <;> rfl
          | ok u => rfl
        rw [hsnd]
        exact storage.UpdatePostMessage_store s id newMessage

end service

/-- C25: a message edit, `UpdatePostMessage` of the storage or
`UpdatePostDetails` of the service, for every post identifier and every new
message, leaves every table but `posts` as it was and table `posts` row for
row: each row keeps its identifier, parent, author, thread, forum, creation
time, path and root, and a row with another identifier is unchanged. -/
theorem C25_edit_changes_message_only (s : storage.Store) (id : Int) (newMessage : String) :
    (∀ s', (s' = (storage.UpdatePostMessage s id newMessage).2 ∨
        s' = (service.UpdatePostDetails s id newMessage).2) →
      List.Forall₂ (fun r r' : storage.PostRow =>
        r'.id = r.id ∧ r'.parent = r.parent ∧ r'.author = r.author ∧
        r'.thread_id = r.thread_id ∧ r'.forum = r.forum ∧ r'.created = r.created ∧
        r'.path = r.path ∧ r'.root_parent_id = r.root_parent_id ∧ (r.id ≠ id → r' = r))
        s.posts s'.posts ∧
      s'.users = s.users ∧ s'.forums = s.forums ∧ s'.threads = s.threads ∧
      s'.forum_users = s.forum_users ∧ s'.votes = s.votes ∧ s'.postSeq = s.postSeq) := by
  intro s' hs'
  have hcases : s' = s ∨ s' = { s with posts := s.posts.map (fun r =>
      if r.id = id then { r with message := newMessage, is_edited := true } else r) } := by
    rcases hs' with h | h
    · rw [h]
      exact storage.UpdatePostMessage_store s id newMessage
    · rw [h]
      exact service.UpdatePostDetails_store s id newMessage
  rcases hcases with h | h
  · rw [h]
    exact ⟨storage.frame_refl id s.posts, rfl, rfl, rfl, rfl, rfl, rfl⟩
  · rw [h]
    exact ⟨storage.edit_frame id newMessage s.posts, rfl, rfl, rfl, rfl, rfl, rfl⟩

theorem C25_witness :
    (service.UpdatePostDetails example1.store 2 "new").2.posts.map
      (fun r => (r.id, r.message, r.is_edited, r.path, r.root_parent_id))
      = [(1, "a", false, [1], 1), (2, "new", true, [1, 2], 1)] ∧
    (service.UpdatePostDetails example1.store 2 "new").2.threads = example1.store.threads ∧
    (service.UpdatePostDetails example1.store 2 "new").2.postSeq = example1.store.postSeq :=
  ⟨by rfl,
    (C25_edit_changes_message_only example1.store 2 "new" _ (Or.inr rfl)).2.2.2.1,
    (C25_edit_changes_message_only example1.store 2 "new" _ (Or.inr rfl)).2.2.2.2.2.2⟩

namespace service

/-- What `CreateForum` answers when the requesting user is stored and the slug
is taken: a conflict, the store as it was, and the stored forum with the
nickname of the requesting user in the place of its owner. -/
theorem CreateForum_taken (s : storage.Store) (newForum : models.Forum) (u : models.User)
    (f : models.Forum)
    (hu : storage.GetUserByNickname s newForum.User = .ok u)
    (hf : storage.GetForumBySlug s newForum.Slug = .ok f) :
    CreateForum s newForum = (({ f with User := u.Nickname }, some .ErrForumConflict), s) := by
  simp [CreateForum, hu, hf]

end service

/-- C26: on the store of the example, where forum `f` belongs to `ann`, the
request of the stored user `bob` to create a forum with slug `f` reports a
forum conflict and leaves the store as it was; the forum returned has the
slug, title and counters of the stored row, and `bob`, not `ann`, as user: it
is not the stored row. -/
theorem C26_conflict_returns_requester_as_owner :
    storage.UserExists example1.store "bob" ∧
    storage.GetForumBySlug example1.store "f"
      = .ok { Title := "Forum", User := "ann", Slug := "f", Posts := 2, Threads := 1 } ∧
    service.CreateForum example1.store
        { Title := "Mine", User := "bob", Slug := "f", Posts := 0, Threads := 0 }
      = (({ Title := "Forum", User := "bob", Slug := "f", Posts := 2, Threads := 1 },
          some .ErrForumConflict), example1.store) ∧
    (service.CreateForum example1.store
        { Title := "Mine", User := "bob", Slug := "f", Posts := 0, Threads := 0 }).1.1
      ≠ { Title := "Forum", User := "ann", Slug := "f", Posts := 2, Threads := 1 } := by
  refine ⟨by decide, by rfl, by rfl, by decide⟩

/-! ## The vote ledger -/

namespace storage

/-- The ledger notions read the votes and, of the threads, identifiers and
tallies only. -/
theorem VotesConsistent_congr (s s' : Store) (hv : s'.votes = s.votes)
    (ht : s'.threads.map (fun t => (t.ID, t.Votes)) = s.threads.map (fun t => (t.ID, t.Votes)))
    (h : VotesConsistent s) : VotesConsistent s' := by
  obtain ⟨hk, href, htally⟩ := h
  have hmem : ∀ p : Int × Int, (∃ t ∈ s'.threads, (t.ID, t.Votes) = p) ↔
      (∃ t ∈ s.threads, (t.ID, t.Votes) = p) := by
    intro p
    have h1 : p ∈ s'.threads.map (fun t => (t.ID, t.Votes)) ↔
        p ∈ s.threads.map (fun t => (t.ID, t.Votes)) := by rw [ht]
    simpa [List.mem_map] using h1
  refine ⟨?_, ?_, ?_⟩
  · unfold VotesKeyed at hk ⊢
    rw [hv]
    exact hk
  · intro v hvm
    rw [hv] at hvm
    obtain ⟨t, htm, hid⟩ := href v hvm
    obtain ⟨t', ht', he⟩ := (hmem (t.ID, t.Votes)).mpr ⟨t, htm, rfl⟩
    refine ⟨t', ht', ?_⟩
    have := congrArg Prod.fst he
    simp only at this
    rw [this, hid]
  · intro t' ht'
    obtain ⟨t, htm, he⟩ := (hmem (t'.ID, t'.Votes)).mp ⟨t', ht', rfl⟩
    have e1 := congrArg Prod.fst he
    have e2 := congrArg Prod.snd he
    simp only at e1 e2
    have := htally t htm
    unfold tally at this ⊢
    rw [hv, ← e1, ← e2]
    exact this

/-- The sum for a thread after the vote of a pair is replaced: it moves by the
new voice minus the old one. -/
theorem sum_replace (tid : Int) (nick : String) (voice : Int) :
    ∀ (l : List VoteRow) (old : VoteRow),
    (l.map (fun v => (v.thread_id, v.user_nickname))).Nodup →
    l.find? (fun v => decide (v.thread_id = tid) && decide (v.user_nickname = nick)) = some old →
    (((l.map (fun v => if v.thread_id = tid ∧ v.user_nickname = nick
        then { v with voice := voice } else v)).filter
        (fun v => decide (v.thread_id = tid))).map (fun v => v.voice)).sum
      = ((l.filter (fun v => decide (v.thread_id = tid))).map (fun v => v.voice)).sum
        + (voice - old.voice)
  | [], old, _, hfind => by simp at hfind
  | v :: vs, old, hnd, hfind => by
    rw [List.map_cons, List.nodup_cons] at hnd
    by_cases hm : v.thread_id = tid ∧ v.user_nickname = nick
    · have hold : v = old := by
        simpa [List.find?_cons, hm.1, hm.2] using hfind
      subst hold
      have hrest : vs.map (fun w => if w.thread_id = tid ∧ w.user_nickname = nick
          then { w with voice := voice } else w) = vs := by
        conv_rhs => rw [← List.map_id vs]
        apply List.map_congr_left
        intro w hw
        have hne : ¬ (w.thread_id = tid ∧ w.user_nickname = nick) := by
          intro hwm
          apply hnd.1
          rw [List.mem_map]
          exact ⟨w, hw, by rw [hwm.1, hwm.2, hm.1, hm.2]⟩
        rw [if_neg hne]
        rfl
      rw [List.map_cons, hrest, if_pos hm]
      have h1 : decide (v.thread_id = tid) = true := by simp [hm.1]
      simp only [List.filter_cons, h1, if_true, List.map_cons, List.sum_cons]
      ring
    · have hfind' : vs.find? (fun v => decide (v.thread_id = tid)
          && decide (v.user_nickname = nick)) = some old := by
        have hb : (decide (v.thread_id = tid) && decide (v.user_nickname = nick)) = false := by
          simpa using hm
        simpa [List.find?_cons, hb] using hfind
      have ih := sum_replace tid nick voice vs old hnd.2 hfind'
      rw [List.map_cons, if_neg hm]
      by_cases ht : v.thread_id = tid
      · have h1 : decide (v.thread_id = tid) = true := by simp [ht]
        simp only [List.filter_cons, h1, if_true, List.map_cons, List.sum_cons]
        rw [ih]
        ring
      · have h1 : decide (v.thread_id = tid) = false := by simpa using ht
        simp only [List.filter_cons, h1, Bool.false_eq_true, if_false]
        exact ih

/-- The sum for another thread is not moved. -/
theorem sum_replace_other (tid : Int) (nick : String) (voice : Int) (tid' : Int)
    (hne : tid' ≠ tid) :
    ∀ l : List VoteRow,
    (((l.map (fun v => if v.thread_id = tid ∧ v.user_nickname = nick
        then { v with voice := voice } else v)).filter
        (fun v => decide (v.thread_id = tid'))).map (fun v => v.voice)).sum
      = ((l.filter (fun v => decide (v.thread_id = tid'))).map (fun v => v.voice)).sum
  | [] => rfl
  | v :: vs => by
    have ih := sum_replace_other tid nick voice tid' hne vs
    rw [List.map_cons]
    by_cases hm : v.thread_id = tid ∧ v.user_nickname = nick
    · rw [if_pos hm]
      have h1 : decide (v.thread_id = tid') = false := by
        simp only [decide_eq_false_iff_not]
        rw [hm.1]
        exact fun h => hne h.symm
      simp only [List.filter_cons, h1, Bool.false_eq_true, if_false]
      exact ih
    · rw [if_neg hm]
      by_cases ht : v.thread_id = tid'
      · have h1 : decide (v.thread_id = tid') = true := by simp [ht]
        simp only [List.filter_cons, h1, if_true, List.map_cons, List.sum_cons]
        rw [ih]
      · have h1 : decide (v.thread_id = tid') = false := by simpa using ht
        simp only [List.filter_cons, h1, Bool.false_eq_true, if_false]
        exact ih

end storage

namespace storage

theorem UpdateThreadVote_missing (s : Store) (tid : Int) (nick : String) (voice : Int)
    (hfind : s.threads.find? (fun t => decide (t.ID = tid)) = none) :
    UpdateThreadVote s tid nick voice = (.error .ErrNotFound, s) := by
  unfold UpdateThreadVote
  cases s.votes.find? (fun v => decide (v.thread_id = tid) && decide (v.user_nickname = nick)) with
  | none => simp only [find_thread_map, hfind, Option.map_none']
  | some old =>
    by_cases hne : old.voice = voice
    · simp only [hne, ne_eq, not_true_eq_false, if_false, hfind]
    · simp only [ne_eq, hne, not_false_eq_true, if_true, find_thread_map, hfind,
        Option.map_none']

theorem UpdateThreadVote_first (s : Store) (tid : Int) (nick : String) (voice : Int)
    (th : models.Thread)
    (hfind : s.threads.find? (fun t => decide (t.ID = tid)) = some th)
    (hv : s.votes.find? (fun v => decide (v.thread_id = tid) && decide (v.user_nickname = nick))
      = none)
    (hfit : fitsInt32 (th.Votes + (voice - storedVoice s tid nick))) :
    UpdateThreadVote s tid nick voice
      = (.ok { th with Votes := th.Votes + voice },
        { s with
          votes := s.votes ++ [{ thread_id := tid, user_nickname := nick, voice := voice }]
          threads := s.threads.map (fun t =>
            if t.ID = tid then { t with Votes := t.Votes + voice } else t) }) := by
  unfold storedVoice at hfit
  simp only [hv, sub_zero] at hfit
  unfold UpdateThreadVote
  simp only [hv, find_thread_map, hfind, Option.map_some', hfit, if_true]

theorem UpdateThreadVote_again (s : Store) (tid : Int) (nick : String) (voice : Int)
    (th : models.Thread) (old : VoteRow)
    (hfind : s.threads.find? (fun t => decide (t.ID = tid)) = some th)
    (hv : s.votes.find? (fun v => decide (v.thread_id = tid) && decide (v.user_nickname = nick))
      = some old)
    (hne : old.voice ≠ voice)
    (hfit : fitsInt32 (th.Votes + (voice - storedVoice s tid nick))) :
    UpdateThreadVote s tid nick voice
      = (.ok { th with Votes := th.Votes + (voice - old.voice) },
        { s with
          votes := s.votes.map (fun v =>
            if v.thread_id = tid ∧ v.user_nickname = nick then { v with voice := voice } else v)
          threads := s.threads.map (fun t =>
            if t.ID = tid then { t with Votes := t.Votes + (voice - old.voice) } else t) }) := by
  unfold storedVoice at hfit
  simp only [hv] at hfit
  unfold UpdateThreadVote
  simp only [hv, ne_eq, hne, not_false_eq_true, if_true, find_thread_map, hfind,
    Option.map_some', hfit]

theorem UpdateThreadVote_same (s : Store) (tid : Int) (nick : String) (voice : Int)
    (th : models.Thread) (old : VoteRow)
    (hfind : s.threads.find? (fun t => decide (t.ID = tid)) = some th)
    (hv : s.votes.find? (fun v => decide (v.thread_id = tid) && decide (v.user_nickname = nick))
      = some old)
    (he : old.voice = voice)
    (hfit : fitsInt32 (th.Votes + (voice - storedVoice s tid nick))) :
    UpdateThreadVote s tid nick voice = (.ok th, s) := by
  unfold storedVoice at hfit
  simp only [hv, he, sub_self, add_zero] at hfit
  unfold UpdateThreadVote
  simp only [hv, he, ne_eq, not_true_eq_false, if_false, hfind, hfit, if_true]

theorem tally_first (s : Store) (tid : Int) (nick : String) (voice : Int) (tid' : Int)
    (threads : List models.Thread) :
    tally { s with
        votes := s.votes ++ [{ thread_id := tid, user_nickname := nick, voice := voice }]
        threads := threads } tid'
      = tally s tid' + (if tid = tid' then voice else 0) := by
  unfold tally
  simp only [List.filter_append, List.map_append, List.sum_append]
  by_cases h : tid = tid'
  · simp [List.filter_cons, h]
  · simp [List.filter_cons, h]

end storage

namespace storage

theorem find_thread_id (threads : List models.Thread) (tid : Int) (th : models.Thread)
    (h : threads.find? (fun t => decide (t.ID = tid)) = some th) :
    th ∈ threads ∧ th.ID = tid :=
  ⟨List.mem_of_find?_eq_some h, by simpa using List.find?_some h⟩

theorem find_vote_none (votes : List VoteRow) (tid : Int) (nick : String)
    (h : votes.find? (fun v => decide (v.thread_id = tid) && decide (v.user_nickname = nick))
      = none) :
    (tid, nick) ∉ votes.map (fun v => (v.thread_id, v.user_nickname)) := by
  intro hmem
  obtain ⟨v, hv, he⟩ := List.mem_map.mp hmem
  have := List.find?_eq_none.mp h v hv
  simp only [Prod.mk.injEq] at he
  simp [he.1, he.2] at this

/-- `UpdateThreadVote` keeps the ledger consistent, and the thread it returns
is a row of the resulting store whose tally is the sum of the stored votes. -/
theorem UpdateThreadVote_consistent (s : Store) (tid : Int) (nick : String) (voice : Int)
    (h : VotesConsistent s) :
    VotesConsistent (UpdateThreadVote s tid nick voice).2 ∧
    ∀ th, (UpdateThreadVote s tid nick voice).1 = .ok th →
      th ∈ (UpdateThreadVote s tid nick voice).2.threads ∧ th.ID = tid ∧
      th.Votes = tally (UpdateThreadVote s tid nick voice).2 tid := by
  obtain ⟨hk, href, htally⟩ := h
  cases hfind : s.threads.find? (fun t => decide (t.ID = tid)) with
  | none =>
    rw [UpdateThreadVote_missing s tid nick voice hfind]
    exact ⟨⟨hk, href, htally⟩, fun th hth => absurd hth (by simp)⟩
  | some th0 =>
    obtain ⟨hth0, hid0⟩ := find_thread_id s.threads tid th0 hfind
    by_cases hfit : fitsInt32 (th0.Votes + (voice - storedVoice s tid nick))
    swap
    · rw [UpdateThreadVote_overflow s tid nick voice th0 hfind hfit]
      exact ⟨⟨hk, href, htally⟩, fun th hth => absurd hth (by simp)⟩
    cases hv : s.votes.find? (fun v =>
        decide (v.thread_id = tid) && decide (v.user_nickname = nick)) with
    | none =>
      rw [UpdateThreadVote_first s tid nick voice th0 hfind hv hfit]
      have hinv : VotesConsistent { s with
          votes := s.votes ++ [{ thread_id := tid, user_nickname := nick, voice := voice }]
          threads := s.threads.map (fun t =>
            if t.ID = tid then { t with Votes := t.Votes + voice } else t) } := by
        refine ⟨?_, ?_, ?_⟩
        · unfold VotesKeyed at hk ⊢
          simp only [List.map_append, List.map_cons, List.map_nil]
          rw [List.nodup_append]
          refine ⟨hk, List.nodup_singleton _, ?_⟩
          intro p hp hp'
          rw [List.mem_singleton] at hp'
          rw [hp'] at hp
          exact find_vote_none s.votes tid nick hv hp
        · intro v hvm
          simp only [List.mem_append, List.mem_singleton] at hvm
          have hex : ∃ t ∈ s.threads, t.ID = v.thread_id := by
            rcases hvm with hvm | hvm
            · exact href v hvm
            · rw [hvm]
              exact ⟨th0, hth0, hid0⟩
          obtain ⟨t, ht, hte⟩ := hex
          refine ⟨_, List.mem_map.mpr ⟨t, ht, rfl⟩, ?_⟩
          rw [← hte]
          split <;> rfl
        · intro t' ht'
          obtain ⟨t, ht, rfl⟩ := List.mem_map.mp ht'
          rw [tally_first]
          by_cases he : t.ID = tid
          · rw [if_pos he]
            simp only
            rw [if_pos he.symm, ← htally t ht]
          · rw [if_neg he, if_neg (fun h' => he h'.symm), add_zero]
            exact htally t ht
      refine ⟨hinv, ?_⟩
      intro th hth
      have he := (Except.ok.inj hth).symm
      subst he
      refine ⟨List.mem_map.mpr ⟨th0, hth0, by rw [if_pos hid0]⟩, hid0, ?_⟩
      rw [tally_first, if_pos rfl]
      simp only
      rw [htally th0 hth0, hid0]
    | some old =>
      by_cases hne : old.voice = voice
      · rw [UpdateThreadVote_same s tid nick voice th0 old hfind hv hne hfit]
        refine ⟨⟨hk, href, htally⟩, ?_⟩
        intro th hth
        have he := (Except.ok.inj hth).symm
        subst he
        refine ⟨hth0, hid0, ?_⟩
        rw [htally th hth0, hid0]
      · rw [UpdateThreadVote_again s tid nick voice th0 old hfind hv hne hfit]
        have hpairs : (s.votes.map (fun v =>
            if v.thread_id = tid ∧ v.user_nickname = nick then { v with voice := voice }
            else v)).map (fun v => (v.thread_id, v.user_nickname))
            = s.votes.map (fun v => (v.thread_id, v.user_nickname)) := by
          rw [List.map_map]
          apply List.map_congr_left
          intro v _
          simp only [Function.comp]
          split <;> rfl
        have htl : ∀ tid', tally { s with
            votes := s.votes.map (fun v =>
              if v.thread_id = tid ∧ v.user_nickname = nick then { v with voice := voice }
              else v)
            threads := s.threads.map (fun t =>
              if t.ID = tid then { t with Votes := t.Votes + (voice - old.voice) } else t) } tid'
            = tally s tid' + (if tid' = tid then voice - old.voice else 0) := by
          intro tid'
          unfold tally
          by_cases he : tid' = tid
          · rw [if_pos he, he]
            exact sum_replace tid nick voice s.votes old hk hv
          · rw [if_neg he, add_zero]
            exact sum_replace_other tid nick voice tid' he s.votes
        have hinv : VotesConsistent { s with
            votes := s.votes.map (fun v =>
              if v.thread_id = tid ∧ v.user_nickname = nick then { v with voice := voice }
              else v)
            threads := s.threads.map (fun t =>
              if t.ID = tid then { t with Votes := t.Votes + (voice - old.voice) }
              else t) } := by
          refine ⟨?_, ?_, ?_⟩
          · unfold VotesKeyed at hk ⊢
            simp only
            rw [hpairs]
            exact hk
          · intro v' hvm
            obtain ⟨v, hvm0, rfl⟩ := List.mem_map.mp hvm
            obtain ⟨t, ht, hte⟩ := href v hvm0
            refine ⟨_, List.mem_map.mpr ⟨t, ht, rfl⟩, ?_⟩
            have e1 : (if t.ID = tid then { t with Votes := t.Votes + (voice - old.voice) }
                else t).ID = t.ID := by
              split <;> rfl
            have e2 : (if v.thread_id = tid ∧ v.user_nickname = nick
                then { v with voice := voice } else v).thread_id = v.thread_id := by
              split <;> rfl
            rw [e1, e2, hte]
          · intro t' ht'
            obtain ⟨t, ht, rfl⟩ := List.mem_map.mp ht'
            by_cases he : t.ID = tid
            · rw [if_pos he]
              simp only
              rw [htl, if_pos he, ← htally t ht]
            · rw [if_neg he, htl, if_neg he, add_zero]
              exact htally t ht
        refine ⟨hinv, ?_⟩
        intro th hth
        have he := (Except.ok.inj hth).symm
        subst he
        refine ⟨List.mem_map.mpr ⟨th0, hth0, by rw [if_pos hid0]⟩, hid0, ?_⟩
        rw [htl, if_pos rfl]
        simp only
        rw [htally th0 hth0, hid0]

end storage

namespace storage

theorem CreatePosts_ledger (s : Store) (posts : List models.Post) (created : Time) :
    (CreatePosts s posts created).2.threads = s.threads ∧
    (CreatePosts s posts created).2.votes = s.votes := by
  unfold CreatePosts
  cases posts with
  | nil => exact ⟨rfl, rfl⟩
  | cons p0 ps =>
    simp only
    cases s.threads.find? (fun t => decide (t.ID = p0.Thread)) with
    | none => exact ⟨rfl, rfl⟩
    | some th =>
      simp only
      split <;> exact ⟨rfl, rfl⟩

theorem CreateForum_ledger (s : Store) (forum : models.Forum) :
    (CreateForum s forum).2.threads = s.threads ∧ (CreateForum s forum).2.votes = s.votes := by
  unfold CreateForum
  cases s.users.find? (fun u => decide (u.Nickname = forum.User)) with
  | none => exact ⟨rfl, rfl⟩
  | some u =>
    simp only
    split <;> exact ⟨rfl, rfl⟩

theorem IncrementForumThreadsCount_ledger (s : Store) (forumSlug : String) :
    (IncrementForumThreadsCount s forumSlug).2.threads = s.threads ∧
    (IncrementForumThreadsCount s forumSlug).2.votes = s.votes := by
  unfold IncrementForumThreadsCount
  split <;> exact ⟨rfl, rfl⟩

/-- The threads after `CreateThread` of the storage: those before, or those
before and a new one with tally 0 and an identifier none of them has. -/
theorem CreateThread_ledger (s : Store) (thread : models.Thread) (id : Int) (now : Time) :
    (CreateThread s thread id now).2.votes = s.votes ∧
    ((CreateThread s thread id now).2.threads = s.threads ∨
      ∃ created : models.Thread, created.Votes = 0 ∧ created.ID = id ∧
        (∀ t ∈ s.threads, t.ID ≠ id) ∧
        (CreateThread s thread id now).1 = .ok created ∧
        (CreateThread s thread id now).2.threads = s.threads ++ [created]) := by
  unfold CreateThread
  cases s.users.find? (fun u => decide (u.Nickname = thread.Author)) with
  | none => exact ⟨rfl, Or.inl rfl⟩
  | some u =>
    simp only
    cases s.forums.find? (fun f => decide (f.Slug = thread.Forum)) with
    | none => exact ⟨rfl, Or.inl rfl⟩
    | some f =>
      simp only
      split
      · exact ⟨rfl, Or.inl rfl⟩
      · rename_i hany
        refine ⟨rfl, Or.inr ⟨_, rfl, rfl, ?_, rfl, rfl⟩⟩
        intro t ht hid
        apply hany
        unfold threadKeysTaken
        rw [List.any_eq_true]
        exact ⟨t, ht, by simp [hid]⟩

theorem UpdateThread_ledger (s : Store) (slugOrID : String) (updateData : models.ThreadUpdate) :
    (UpdateThread s slugOrID updateData).2.votes = s.votes ∧
    (UpdateThread s slugOrID updateData).2.threads.map (fun t => (t.ID, t.Votes))
      = s.threads.map (fun t => (t.ID, t.Votes)) := by
  unfold UpdateThread
  cases GetThreadIDBySlugOrID s slugOrID with
  | error e => exact ⟨rfl, rfl⟩
  | ok tid =>
    simp only
    split
    · split <;> exact ⟨rfl, rfl⟩
    · split
      · exact ⟨rfl, rfl⟩
      · refine ⟨rfl, ?_⟩
        simp only [List.map_map]
        apply List.map_congr_left
        intro t _
        simp only [Function.comp]
        split <;> rfl

end storage

namespace service

theorem CreateForum_service_ledger (s : storage.Store) (newForum : models.Forum) :
    (CreateForum s newForum).2.threads = s.threads ∧
    (CreateForum s newForum).2.votes = s.votes := by
  unfold CreateForum
  cases storage.GetUserByNickname s newForum.User with
  | error e =>
    simp only
    split <;> exact ⟨rfl, rfl⟩
  | ok u =>
    simp only
    cases storage.GetForumBySlug s newForum.Slug with
    | ok f => exact ⟨rfl, rfl⟩
    | error e =>
      simp only
      split
      · exact ⟨rfl, rfl⟩
      · have hl := storage.CreateForum_ledger s
          { Slug := newForum.Slug, Title := newForum.Title, User := u.Nickname,
            Posts := 0, Threads := 0 }
        cases hres : storage.CreateForum s
            { Slug := newForum.Slug, Title := newForum.Title, User := u.Nickname,
              Posts := 0, Threads := 0 } with
        | mk r s' =>
          rw [hres] at hl
          cases r with
          | ok f => exact hl
          | error e2 =>
            simp only
            split
            · split <;> exact hl
            · exact hl

theorem CreatePosts_service_ledger (s : storage.Store) (slugOrID : String)
    (newPosts : List models.Post) (creationTime created : Time) :
    (CreatePosts s slugOrID newPosts creationTime created).2.threads = s.threads ∧
    (CreatePosts s slugOrID newPosts creationTime created).2.votes = s.votes := by
  unfold CreatePosts
  cases storage.GetThreadIDBySlugOrID s slugOrID with
  | error e =>
    simp only
    split <;> exact ⟨rfl, rfl⟩
  | ok tid =>
    simp only
    split
    · exact ⟨rfl, rfl⟩
    · cases checkAuthors s (uniqueAuthors newPosts []) with
      | error e => exact ⟨rfl, rfl⟩
      | ok _ =>
        simp only
        cases checkParents s tid newPosts with
        | error e => exact ⟨rfl, rfl⟩
        | ok _ =>
          simp only
          have hl := storage.CreatePosts_ledger s (postsToCreate tid creationTime newPosts) created
          cases hres : storage.CreatePosts s (postsToCreate tid creationTime newPosts) created with
          | mk r s' =>
            rw [hres] at hl
            cases r with
            | ok ps => exact hl
            | error e => exact hl

theorem UpdateThread_service_ledger (s : storage.Store) (slugOrID : String)
    (updateData : models.ThreadUpdate) :
    (UpdateThread s slugOrID updateData).2.votes = s.votes ∧
    (UpdateThread s slugOrID updateData).2.threads.map (fun t => (t.ID, t.Votes))
      = s.threads.map (fun t => (t.ID, t.Votes)) := by
  unfold UpdateThread
  have hl := storage.UpdateThread_ledger s slugOrID updateData
  cases hres : storage.UpdateThread s slugOrID updateData with
  | mk r s' =>
    rw [hres] at hl
    cases r with
    | ok t => exact hl
    | error e =>
      simp only
      split <;> exact hl

/-- The ledger after `CreateThread` of the service: as before, or with one new
thread of tally 0 whose identifier no stored thread has. -/
theorem CreateThread_service_ledger (s : storage.Store) (forumSlug : String)
    (newThread : models.Thread) (id : Int) (now now2 : Time) :
    (CreateThread s forumSlug newThread id now now2).2.votes = s.votes ∧
    ((CreateThread s forumSlug newThread id now now2).2.threads = s.threads ∨
      ∃ created : models.Thread, created.Votes = 0 ∧ created.ID = id ∧
        (∀ t ∈ s.threads, t.ID ≠ id) ∧
        (CreateThread s forumSlug newThread id now now2).2.threads
          = s.threads ++ [created]) := by
  unfold CreateThread
  cases storage.GetForumBySlug s forumSlug with
  | error e =>
    simp only
    split <;> exact ⟨rfl, Or.inl rfl⟩
  | ok f =>
    simp only
    cases storage.GetUserByNickname s newThread.Author with
    | error e =>
      simp only
      split <;> exact ⟨rfl, Or.inl rfl⟩
    | ok u =>
      simp only
      split
      · exact ⟨rfl, Or.inl rfl⟩
      · have hl := storage.CreateThread_ledger s
          { ID := 0, Title := newThread.Title, Author := u.Nickname, Forum := f.Slug,
            Message := newThread.Message, Slug := newThread.Slug,
            Created := if IsZero newThread.Created then now else newThread.Created,
            Votes := 0 } id now2
        cases hres : storage.CreateThread s
            { ID := 0, Title := newThread.Title, Author := u.Nickname, Forum := f.Slug,
              Message := newThread.Message, Slug := newThread.Slug,
              Created := if IsZero newThread.Created then now else newThread.Created,
              Votes := 0 } id now2 with
        | mk r s' =>
          rw [hres] at hl
          simp only at hl
          cases r with
          | error e =>
            have hl' : s'.votes = s.votes ∧ s'.threads = s.threads := by
              refine ⟨hl.1, ?_⟩
              rcases hl.2 with h | ⟨c, _, _, _, hc, _⟩
              · exact h
              · exact absurd hc (by simp)
            simp only
            split
            · split
              · exact ⟨hl'.1, Or.inl hl'.2⟩
              · exact ⟨hl'.1, Or.inl hl'.2⟩
            · exact ⟨hl'.1, Or.inl hl'.2⟩
          | ok c =>
            simp only
            have hi := storage.IncrementForumThreadsCount_ledger s' f.Slug
            rw [hi.1, hi.2]
            refine ⟨hl.1, ?_⟩
            rcases hl.2 with h | ⟨c', h1, h2, h3, _, h5⟩
            · exact Or.inl h
            · exact Or.inr ⟨c', h1, h2, h3, h5⟩

theorem VoteThread_consistent (s : storage.Store) (slugOrID : String) (vote : models.Vote)
    (h : storage.VotesConsistent s) : storage.VotesConsistent (VoteThread s slugOrID vote).2 := by
  unfold VoteThread
  cases storage.GetUserByNickname s vote.Nickname with
  | error e =>
    simp only
    split <;> exact h
  | ok u =>
    simp only
    cases storage.GetThreadIDBySlugOrID s slugOrID with
    | error e =>
      simp only
      split <;> exact h
    | ok tid =>
      simp only
      have hc := (storage.UpdateThreadVote_consistent s tid vote.Nickname vote.Voice h).1
      cases hres : storage.UpdateThreadVote s tid vote.Nickname vote.Voice with
      | mk r s' =>
        rw [hres] at hc
        cases r with
        | ok t => exact hc
        | error e =>
          simp only
          split <;> exact hc

end service

namespace storage

theorem VotesConsistent_new_thread (s s' : Store) (created : models.Thread)
    (h : VotesConsistent s) (hv : s'.votes = s.votes)
    (ht : s'.threads = s.threads ++ [created]) (h0 : created.Votes = 0)
    (hfresh : ∀ t ∈ s.threads, t.ID ≠ created.ID) : VotesConsistent s' := by
  obtain ⟨hk, href, htally⟩ := h
  refine ⟨?_, ?_, ?_⟩
  · unfold VotesKeyed at hk ⊢
    rw [hv]
    exact hk
  · intro v hvm
    rw [hv] at hvm
    obtain ⟨t, htm, hid⟩ := href v hvm
    exact ⟨t, by rw [ht]; exact List.mem_append_left _ htm, hid⟩
  · intro t htm
    rw [ht] at htm
    have htl : ∀ tid, tally s' tid = tally s tid := by
      intro tid
      unfold tally
      rw [hv]
    rw [htl]
    rcases List.mem_append.mp htm with h1 | h1
    · exact htally t h1
    · rw [List.mem_singleton] at h1
      rw [h1, h0]
      unfold tally
      have hnil : s.votes.filter (fun v => decide (v.thread_id = created.ID)) = [] := by
        rw [List.filter_eq_nil_iff]
        intro v hvm hvid
        obtain ⟨t0, ht0, hid0⟩ := href v hvm
        simp only [decide_eq_true_eq] at hvid
        exact hfresh t0 ht0 (hid0.trans hvid)
      rw [hnil]
      rfl

theorem VotesConsistent_of_empty (s : Store) (ht : s.threads = []) (hv : s.votes = []) :
    VotesConsistent s := by
  refine ⟨?_, ?_, ?_⟩
  · unfold VotesKeyed
    rw [hv]
    exact List.nodup_nil
  · intro v hvm
    rw [hv] at hvm
    exact absurd hvm (List.not_mem_nil _)
  · intro t htm
    rw [ht] at htm
    exact absurd htm (List.not_mem_nil _)

end storage

namespace service

/-- Every store reached from a store with a consistent ledger has a consistent
ledger. -/
theorem Reachable_consistent (s0 s : storage.Store) (h0 : storage.VotesConsistent s0)
    (hr : Reachable s0 s) : storage.VotesConsistent s := by
  induction hr with
  | start => exact h0
  | createForum s newForum _ ih =>
    have hl := CreateForum_service_ledger s newForum
    exact storage.VotesConsistent_congr s _ hl.2 (by rw [hl.1]) ih
  | createThread s forumSlug newThread id now now2 _ ih =>
    have hl := CreateThread_service_ledger s forumSlug newThread id now now2
    rcases hl.2 with h | ⟨created, h1, h2, h3, h4⟩
    · exact storage.VotesConsistent_congr s _ hl.1 (by rw [h]) ih
    · exact storage.VotesConsistent_new_thread s _ created ih hl.1 h4 h1
        (fun t ht => by rw [h2]; exact h3 t ht)
  | updateThread s slugOrID updateData _ ih =>
    have hl := UpdateThread_service_ledger s slugOrID updateData
    exact storage.VotesConsistent_congr s _ hl.1 hl.2 ih
  | voteThread s slugOrID vote _ ih => exact VoteThread_consistent s slugOrID vote ih
  | createPosts s slugOrID newPosts creationTime created _ ih =>
    have hl := CreatePosts_service_ledger s slugOrID newPosts creationTime created
    exact storage.VotesConsistent_congr s _ hl.2 (by rw [hl.1]) ih
  | updatePostDetails s id newMessage _ ih =>
    rcases UpdatePostDetails_store s id newMessage with h | h
    · rw [h]
      exact ih
    · rw [h]
      exact storage.VotesConsistent_congr s _ rfl rfl ih

end service

/-- C21: in every store reached, by calls of the service one after the other
(thread creation, thread update and vote among them), from a store whose ledger
is consistent, as is every store without threads and votes, the tally of every
thread is the sum of the voices of the votes stored for it; `UpdateThreadVote`
on such a store gives a store where this holds again, and the thread it returns
is a row of that store and carries the sum of the votes stored there. -/
theorem C21_tally_is_sum_of_votes (s0 s : storage.Store)
    (h0 : storage.VotesConsistent s0) (hr : service.Reachable s0 s) :
    (∀ t ∈ s.threads, t.Votes = storage.tally s t.ID) ∧
    (∀ (tid : Int) (nick : String) (voice : Int),
      (∀ t ∈ (storage.UpdateThreadVote s tid nick voice).2.threads,
        t.Votes = storage.tally (storage.UpdateThreadVote s tid nick voice).2 t.ID) ∧
      (∀ th, (storage.UpdateThreadVote s tid nick voice).1 = .ok th →
        th ∈ (storage.UpdateThreadVote s tid nick voice).2.threads ∧ th.ID = tid ∧
        th.Votes = storage.tally (storage.UpdateThreadVote s tid nick voice).2 tid)) := by
  have hc := service.Reachable_consistent s0 s h0 hr
  refine ⟨hc.2.2, ?_⟩
  intro tid nick voice
  have hu := storage.UpdateThreadVote_consistent s tid nick voice hc
  exact ⟨hu.1.2.2, hu.2⟩

theorem C21_witness :
    example3.base.threads = [] ∧ example3.base.votes = [] ∧
    storage.VotesConsistent example3.base ∧
    example3.revoted.votes.map (fun v => (v.thread_id, v.user_nickname, v.voice))
      = [(1, "ann", -1), (1, "bob", 1)] ∧
    example3.revoted.threads.map (fun t => (t.ID, t.Votes)) = [(1, 0)] ∧
    storage.tally example3.revoted 1 = 0 ∧
    (∀ t ∈ example3.revoted.threads, t.Votes = storage.tally example3.revoted t.ID) :=
  ⟨by rfl, by rfl, by decide, by rfl, by rfl, by rfl,
    (C21_tally_is_sum_of_votes example3.base example3.revoted (by decide)
      (service.Reachable.voteThread _ "th" example1.voteDown
        (service.Reachable.voteThread _ "1" example3.bobUp
          (service.Reachable.voteThread _ "th" example1.voteUp
            (service.Reachable.createThread _ "f" example3.newThread 1 5 6
              service.Reachable.start))))).1⟩

namespace storage

end storage

namespace storage

/-- The comparison of `sort.Slice` read as a condition: roots before the other
posts, roots by identifier, the others by parent and then by identifier. -/
theorem processingLess_iff (a b : models.Post) :
    processingLess a b = true ↔
      (a.Parent = 0 ∧ b.Parent ≠ 0) ∨ (a.Parent = 0 ∧ b.Parent = 0 ∧ a.ID < b.ID) ∨
      (a.Parent ≠ 0 ∧ b.Parent ≠ 0 ∧
        (a.Parent < b.Parent ∨ (a.Parent = b.Parent ∧ a.ID < b.ID))) := by
  unfold processingLess
  split_ifs with h1 h2 h3
  · simp only [true_iff]
    omega
  · simp only [Bool.false_eq_true, false_iff]
    omega
  · simp only [decide_eq_true_eq]
    omega
  · simp only [decide_eq_true_eq]
    omega

theorem processingLess_false_iff (a b : models.Post) :
    processingLess a b = false ↔
      ¬ ((a.Parent = 0 ∧ b.Parent ≠ 0) ∨ (a.Parent = 0 ∧ b.Parent = 0 ∧ a.ID < b.ID) ∨
      (a.Parent ≠ 0 ∧ b.Parent ≠ 0 ∧
        (a.Parent < b.Parent ∨ (a.Parent = b.Parent ∧ a.ID < b.ID)))) := by
  rw [← processingLess_iff, Bool.not_eq_true]

theorem strictWeak_processingLess : StrictWeak processingLess where
  asymm := fun a b h => by
    rw [processingLess_iff] at h
    rw [processingLess_false_iff]
    omega
  ntrans := fun a b c h1 h2 => by
    rw [processingLess_false_iff] at h1 h2 ⊢
    omega

theorem processingLess_sep (a b : models.Post) (h1 : processingLess a b = false)
    (h2 : processingLess b a = false) : a.ID = b.ID := by
  rw [processingLess_false_iff] at h1 h2
  omega

/-- Posts with distinct identifiers come out of the sort in strictly increasing
processing order. -/
theorem processing_strict (posts : List models.Post)
    (hnd : (posts.map (fun q => q.ID)).Nodup) :
    (sortSlice processingLess posts).Pairwise (fun a b => processingLess a b = true) := by
  apply sortSlice_strict strictWeak_processingLess
  have hne : posts.Pairwise (fun x y => x.ID ≠ y.ID) := by
    rw [List.Nodup, List.pairwise_map] at hnd
    exact hnd
  refine hne.imp ?_
  intro x y hxy
  cases h1 : processingLess x y with
  | true => exact Or.inl rfl
  | false =>
    cases h2 : processingLess y x with
    | true => exact Or.inr rfl
    | false => exact absurd (processingLess_sep x y h1 h2) hxy

/-- In a list sorted strictly, an element that is less than another comes
before it. -/
theorem before_of_less {α : Type} {less : α → α → Bool} (hw : StrictWeak less) (l : List α)
    (hs : l.Pairwise (fun a b => less a b = true)) (p c : α) (hp : p ∈ l) (hc : c ∈ l)
    (hpc : less p c = true) : ∃ l1 l2 l3, l = l1 ++ p :: (l2 ++ c :: l3) := by
  obtain ⟨l1, r, hl⟩ := List.append_of_mem hp
  rw [hl] at hs hc
  have hs' := List.pairwise_append.mp hs
  rcases List.mem_append.mp hc with h | h
  · have := hs'.2.2 c h p (List.mem_cons_self _ _)
    rw [hw.asymm c p this] at hpc
    exact absurd hpc (by simp)
  · rcases List.mem_cons.mp h with h | h
    · rw [h] at hpc
      have hcc := hw.asymm p p hpc
      rw [hpc] at hcc
      exact absurd hcc (by simp)
    · obtain ⟨l2, l3, hr⟩ := List.append_of_mem h
      exact ⟨l1, l2, l3, by rw [hl, hr]⟩

end storage

namespace storage

/-! ## The loop of path assignment, step by step -/

theorem assignPaths_cons (tx : List PostRow) (cur : models.Post) (rest m : List models.Post)
    (batch : List (List Int × Int × Int)) (res : List models.Post)
    (us : List (List Int × Int × Int))
    (h : assignPaths tx (cur :: rest) m batch = .ok (res, us)) :
    ∃ p r, resolvePath tx m cur = .ok (p, r) ∧
      assignPaths tx rest (setPath m cur.ID p r) (batch ++ [(p, r, cur.ID)]) = .ok (res, us) := by
  simp only [assignPaths] at h
  cases hr : resolvePath tx m cur with
  | error e =>
    rw [hr] at h
    exact absurd h (by simp)
  | ok pk =>
    obtain ⟨p, r⟩ := pk
    rw [hr] at h
    exact ⟨p, r, rfl, h⟩

theorem assignPaths_append (tx : List PostRow) (l1 l2 : List models.Post) :
    ∀ (m : List models.Post) (batch : List (List Int × Int × Int)) (res : List models.Post)
      (us : List (List Int × Int × Int)),
    assignPaths tx (l1 ++ l2) m batch = .ok (res, us) →
    ∃ m1 b1, assignPaths tx l1 m batch = .ok (m1, b1) ∧
      assignPaths tx l2 m1 b1 = .ok (res, us) := by
  induction l1 with
  | nil =>
    intro m batch res us h
    exact ⟨m, batch, rfl, h⟩
  | cons cur rest ih =>
    intro m batch res us h
    rw [List.cons_append] at h
    obtain ⟨p, r, hr, h'⟩ := assignPaths_cons tx cur _ m batch res us h
    obtain ⟨m1, b1, h1, h2⟩ := ih _ _ res us h'
    refine ⟨m1, b1, ?_, h2⟩
    simp only [assignPaths, hr]
    exact h1

theorem setPath_ids (m : List models.Post) (id : Int) (p : List Int) (k : Int) :
    (setPath m id p k).map (fun q => q.ID) = m.map (fun q => q.ID) := by
  simp only [setPath, List.map_map]
  apply List.map_congr_left
  intro q _
  simp only [Function.comp_apply]
  split <;> rfl

theorem assignPaths_ids (tx : List PostRow) (order : List models.Post) :
    ∀ (m : List models.Post) (batch : List (List Int × Int × Int)) (res : List models.Post)
      (us : List (List Int × Int × Int)),
    assignPaths tx order m batch = .ok (res, us) →
    res.map (fun q => q.ID) = m.map (fun q => q.ID) := by
  induction order with
  | nil =>
    intro m batch res us h
    simp only [assignPaths, Except.ok.injEq, Prod.mk.injEq] at h
    rw [← h.1]
  | cons cur rest ih =>
    intro m batch res us h
    obtain ⟨p, r, _, h'⟩ := assignPaths_cons tx cur rest m batch res us h
    rw [ih _ _ res us h', setPath_ids]

theorem setPath_other (m : List models.Post) (id : Int) (p : List Int) (k : Int)
    (q : models.Post) (hq : q ∈ m) (hne : q.ID ≠ id) : q ∈ setPath m id p k := by
  unfold setPath
  exact List.mem_map.mpr ⟨q, hq, by rw [if_neg hne]⟩

theorem setPath_self (m : List models.Post) (id : Int) (p : List Int) (k : Int)
    (q : models.Post) (hq : q ∈ m) (he : q.ID = id) :
    { q with Path := some p, RootParentID := k } ∈ setPath m id p k := by
  unfold setPath
  exact List.mem_map.mpr ⟨q, hq, by rw [if_pos he]⟩

/-- An entry of the map whose identifier is not among the posts still to be
processed is in the final map as it is. -/
theorem assignPaths_stable (tx : List PostRow) (order : List models.Post) :
    ∀ (m : List models.Post) (batch : List (List Int × Int × Int)) (res : List models.Post)
      (us : List (List Int × Int × Int)),
    assignPaths tx order m batch = .ok (res, us) →
    ∀ q ∈ m, q.ID ∉ order.map (fun c => c.ID) → q ∈ res := by
  induction order with
  | nil =>
    intro m batch res us h q hq _
    simp only [assignPaths, Except.ok.injEq, Prod.mk.injEq] at h
    rw [← h.1]
    exact hq
  | cons cur rest ih =>
    intro m batch res us h q hq hnot
    obtain ⟨p, r, _, h'⟩ := assignPaths_cons tx cur rest m batch res us h
    simp only [List.map_cons, List.mem_cons, not_or] at hnot
    exact ih _ _ res us h' q (setPath_other m cur.ID p r q hq hnot.1) hnot.2

/-- The path of a post whose parent is an entry of the map: the path of that
entry followed by the identifier of the post, and the root of that entry. -/
theorem resolvePath_in_batch (tx : List PostRow) (m : List models.Post) (cur pe : models.Post)
    (pp : List Int) (hnd : (m.map (fun q => q.ID)).Nodup) (hpe : pe ∈ m)
    (hid : pe.ID = cur.Parent) (h0 : cur.Parent ≠ 0) (hpath : pe.Path = some pp) :
    resolvePath tx m cur = .ok (pp ++ [cur.ID], pe.RootParentID) := by
  have hfind : m.find? (fun q => decide (q.ID = cur.Parent)) = some pe := by
    cases hf : m.find? (fun q => decide (q.ID = cur.Parent)) with
    | none =>
      have := List.find?_eq_none.mp hf pe hpe
      simp [hid] at this
    | some q =>
      have hq := List.find?_some hf
      simp only [decide_eq_true_eq] at hq
      have := List.inj_on_of_nodup_map hnd (List.mem_of_find?_eq_some hf) hpe (hq.trans hid.symm)
      rw [this]
  unfold resolvePath
  rw [if_neg h0, hfind]
  simp only [hpath]

end storage

namespace storage

theorem mem_ids_of_eq {m m1 : List models.Post} (x : Int)
    (he : m1.map (fun q => q.ID) = m.map (fun q => q.ID))
    (hx : x ∈ m.map (fun q => q.ID)) : ∃ q ∈ m1, q.ID = x := by
  rw [← he] at hx
  obtain ⟨q, hq, hid⟩ := List.mem_map.mp hx
  exact ⟨q, hq, hid⟩

/-- A post processed while its parent, an entry of the map, has not been
processed takes the path and root that entry has at that time. -/
theorem assignPaths_at (tx : List PostRow) (l1 l3 : List models.Post) (c pe : models.Post)
    (pp : List Int) (m : List models.Post) (batch : List (List Int × Int × Int))
    (res : List models.Post) (us : List (List Int × Int × Int))
    (hndm : (m.map (fun q => q.ID)).Nodup)
    (hndo : ((l1 ++ c :: l3).map (fun q => q.ID)).Nodup)
    (hc : c.ID ∈ m.map (fun q => q.ID))
    (hpe : pe ∈ m) (hid : pe.ID = c.Parent) (h0 : c.Parent ≠ 0) (hpath : pe.Path = some pp)
    (hnot : pe.ID ∉ l1.map (fun q => q.ID))
    (h : assignPaths tx (l1 ++ c :: l3) m batch = .ok (res, us)) :
    ∃ ce ∈ res, ce.ID = c.ID ∧ ce.Path = some (pp ++ [c.ID]) ∧
      ce.RootParentID = pe.RootParentID := by
  obtain ⟨m1, b1, h1, h2⟩ := assignPaths_append tx l1 (c :: l3) m batch res us h
  have hids1 := assignPaths_ids tx l1 m batch m1 b1 h1
  have hpe1 : pe ∈ m1 := assignPaths_stable tx l1 m batch m1 b1 h1 pe hpe hnot
  have hnd1 : (m1.map (fun q => q.ID)).Nodup := by rw [hids1]; exact hndm
  obtain ⟨p, r, hr, h3⟩ := assignPaths_cons tx c l3 m1 b1 res us h2
  rw [resolvePath_in_batch tx m1 c pe pp hnd1 hpe1 hid h0 hpath] at hr
  have hpr := Except.ok.inj hr
  simp only [Prod.mk.injEq] at hpr
  obtain ⟨c1, hc1, hc1id⟩ := mem_ids_of_eq c.ID hids1 hc
  have hce := setPath_self m1 c.ID p r c1 hc1 hc1id
  have hcnot : c.ID ∉ l3.map (fun q => q.ID) := by
    rw [List.map_append, List.map_cons] at hndo
    have := (List.nodup_append.mp hndo).2.1
    exact (List.nodup_cons.mp this).1
  refine ⟨_, assignPaths_stable tx l3 _ _ res us h3 _ hce (by show c1.ID ∉ _; rw [hc1id]; exact hcnot),
    hc1id, ?_, ?_⟩
  · simp only
    rw [← hpr.1]
  · simp only
    rw [← hpr.2]

/-- A post processed after its parent of the same batch takes, with paths as
values, the path of the parent followed by its own identifier, and the root of
the parent; a parent that is a root has the path of its identifier alone and is
its own root. -/
theorem assignPaths_child_after_parent (tx : List PostRow) (l1 l2 l3 : List models.Post)
    (p c : models.Post) (m : List models.Post) (batch : List (List Int × Int × Int))
    (res : List models.Post) (us : List (List Int × Int × Int))
    (hndm : (m.map (fun q => q.ID)).Nodup)
    (hndo : ((l1 ++ p :: (l2 ++ c :: l3)).map (fun q => q.ID)).Nodup)
    (hp : p.ID ∈ m.map (fun q => q.ID)) (hc : c.ID ∈ m.map (fun q => q.ID))
    (hpar : c.Parent = p.ID) (h0 : c.Parent ≠ 0)
    (h : assignPaths tx (l1 ++ p :: (l2 ++ c :: l3)) m batch = .ok (res, us)) :
    ∃ pe ∈ res, ∃ ce ∈ res, ∃ pp, pe.ID = p.ID ∧ ce.ID = c.ID ∧ pe.Path = some pp ∧
      ce.Path = some (pp ++ [c.ID]) ∧ ce.RootParentID = pe.RootParentID ∧
      (p.Parent = 0 → pp = [p.ID] ∧ pe.RootParentID = p.ID) := by
  obtain ⟨m1, b1, h1, h2⟩ := assignPaths_append tx l1 (p :: (l2 ++ c :: l3)) m batch res us h
  have hids1 := assignPaths_ids tx l1 m batch m1 b1 h1
  obtain ⟨pp, pr, hr, h3⟩ := assignPaths_cons tx p (l2 ++ c :: l3) m1 b1 res us h2
  obtain ⟨p1, hp1, hp1id⟩ := mem_ids_of_eq p.ID hids1 hp
  have hpe := setPath_self m1 p.ID pp pr p1 hp1 hp1id
  have hids2 : (setPath m1 p.ID pp pr).map (fun q => q.ID) = m.map (fun q => q.ID) := by
    rw [setPath_ids, hids1]
  have hndo' : ((p :: (l2 ++ c :: l3)).map (fun q => q.ID)).Nodup := by
    rw [List.map_append] at hndo
    exact (List.nodup_append.mp hndo).2.1
  have hndo2 : ((l2 ++ c :: l3).map (fun q => q.ID)).Nodup := by
    rw [List.map_cons] at hndo'
    exact (List.nodup_cons.mp hndo').2
  have hpnot : p.ID ∉ (l2 ++ c :: l3).map (fun q => q.ID) := by
    rw [List.map_cons] at hndo'
    exact (List.nodup_cons.mp hndo').1
  have hpnot2 : p.ID ∉ l2.map (fun q => q.ID) := by
    intro hm
    apply hpnot
    rw [List.map_append]
    exact List.mem_append_left _ hm
  obtain ⟨ce, hce, hceid, hcepath, hceroot⟩ := assignPaths_at tx l2 l3 c
    { p1 with Path := some pp, RootParentID := pr } pp (setPath m1 p.ID pp pr) _ res us
    (by rw [hids2]; exact hndm) hndo2 (by rw [hids2]; exact hc) hpe
    (by simp only; rw [hp1id, hpar]) h0 rfl (by show p1.ID ∉ _; rw [hp1id]; exact hpnot2) h3
  have hperes := assignPaths_stable tx (l2 ++ c :: l3) _ _ res us h3 _ hpe
    (by show p1.ID ∉ _; rw [hp1id]; exact hpnot)
  refine ⟨_, hperes, ce, hce, pp, hp1id, hceid, rfl, hcepath, hceroot, ?_⟩
  intro hroot
  simp only [resolvePath, hroot, if_true, Except.ok.injEq, Prod.mk.injEq] at hr
  exact ⟨hr.1.symm, hr.2.symm⟩

end storage

namespace storage

theorem scanCreated_nodup (seq : Int) (f : String) (c : Time) (ps : List models.Post) :
    (((insertedRows seq f c ps).map scanCreated).map (fun q => q.ID)).Nodup := by
  rw [scanCreated_ids]
  exact insertedRows_nodup seq f c ps

theorem core_mem {rs m : List models.Post} (he : rs.map corePost = m.map corePost)
    (q : models.Post) (hq : q ∈ rs) :
    ∃ q0 ∈ m, q0.ID = q.ID ∧ q0.Parent = q.Parent := by
  have : corePost q ∈ m.map corePost := by
    rw [← he]
    exact List.mem_map.mpr ⟨q, hq, rfl⟩
  obtain ⟨q0, hq0, hc⟩ := List.mem_map.mp this
  refine ⟨q0, hq0, ?_, ?_⟩
  · have := congrArg (fun x : models.Post => x.ID) hc
    exact this
  · have := congrArg (fun x : models.Post => x.Parent) hc
    exact this

/-- The loop that `CreatePosts` runs when it succeeds. -/
theorem CreatePosts_loop (s : Store) (p0 : models.Post) (ps : List models.Post)
    (created : Time) (th : models.Thread) (rs : List models.Post) (s' : Store)
    (hth : s.threads.find? (fun t => decide (t.ID = p0.Thread)) = some th)
    (h : CreatePosts s (p0 :: ps) created = (.ok rs, s')) :
    ∃ us, assignPaths (s.posts ++ insertedRows s.postSeq th.Forum created (p0 :: ps))
      (sortSlice processingLess
        ((insertedRows s.postSeq th.Forum created (p0 :: ps)).map scanCreated))
      ((insertedRows s.postSeq th.Forum created (p0 :: ps)).map scanCreated) []
        = .ok (rs, us) := by
  simp only [CreatePosts, hth] at h
  split at h
  · exact absurd (congrArg Prod.fst h) (by simp)
  · rename_i result us hassign
    simp only [Prod.mk.injEq, Except.ok.injEq] at h
    rw [← h.1]
    exact ⟨us, hassign⟩

end storage

/-- C27: `CreatePosts` assigns paths to the posts of a batch in the order of
its sort: every post without parent before every post with one, the posts
without parent by ascending identifier, the others by ascending parent and then
by ascending identifier.  A post whose parent is in the batch stands after that
parent in the order as soon as the parent has no parent or a parent identifier
smaller than its own identifier, as it is when every post with a parent has a
parent identifier smaller than its own; then the parent has its path and root
when the post is processed: in the result of a successful call the root of the
post is the root of the parent and its path is one longer than the path of the
parent, and the child of a post without parent has the path made of the
identifier of the parent and its own. -/
theorem C27_processing_order (s : storage.Store) (p0 : models.Post) (ps : List models.Post)
    (created : Time) (th : models.Thread)
    (hth : s.threads.find? (fun t => decide (t.ID = p0.Thread)) = some th) :
    (sortSlice storage.processingLess
      ((storage.insertedRows s.postSeq th.Forum created (p0 :: ps)).map storage.scanCreated)).Perm
      ((storage.insertedRows s.postSeq th.Forum created (p0 :: ps)).map storage.scanCreated) ∧
    (sortSlice storage.processingLess
      ((storage.insertedRows s.postSeq th.Forum created (p0 :: ps)).map
        storage.scanCreated)).Pairwise (fun a b =>
        (a.Parent = 0 ∧ b.Parent ≠ 0) ∨ (a.Parent = 0 ∧ b.Parent = 0 ∧ a.ID < b.ID) ∨
        (a.Parent ≠ 0 ∧ b.Parent ≠ 0 ∧
          (a.Parent < b.Parent ∨ (a.Parent = b.Parent ∧ a.ID < b.ID)))) ∧
    (∀ p ∈ (storage.insertedRows s.postSeq th.Forum created (p0 :: ps)).map
        storage.scanCreated,
      ∀ c ∈ (storage.insertedRows s.postSeq th.Forum created (p0 :: ps)).map
        storage.scanCreated,
      c.Parent ≠ 0 → c.Parent = p.ID → (p.Parent ≠ 0 → p.Parent < p.ID) →
      ∃ l1 l2 l3, sortSlice storage.processingLess
        ((storage.insertedRows s.postSeq th.Forum created (p0 :: ps)).map
          storage.scanCreated) = l1 ++ p :: (l2 ++ c :: l3)) ∧
    (∀ rs s', storage.CreatePosts s (p0 :: ps) created = (.ok rs, s') →
      ∀ p ∈ rs, ∀ c ∈ rs, c.Parent ≠ 0 → c.Parent = p.ID →
      (p.Parent ≠ 0 → p.Parent < p.ID) →
      c.RootParentID = p.RootParentID ∧
      (∃ pp cp, p.Path = some pp ∧ c.Path = some cp ∧ cp.length = pp.length + 1) ∧
      (p.Parent = 0 → c.Path = some [p.ID, c.ID] ∧ c.RootParentID = p.ID)) := by
  have hnd := storage.scanCreated_nodup s.postSeq th.Forum created (p0 :: ps)
  have hstrict := storage.processing_strict _ hnd
  have hbefore : ∀ p ∈ (storage.insertedRows s.postSeq th.Forum created (p0 :: ps)).map
        storage.scanCreated,
      ∀ c ∈ (storage.insertedRows s.postSeq th.Forum created (p0 :: ps)).map
        storage.scanCreated,
      c.Parent ≠ 0 → c.Parent = p.ID → (p.Parent ≠ 0 → p.Parent < p.ID) →
      ∃ l1 l2 l3, sortSlice storage.processingLess
        ((storage.insertedRows s.postSeq th.Forum created (p0 :: ps)).map
          storage.scanCreated) = l1 ++ p :: (l2 ++ c :: l3) := by
    intro p hp c hc h0 hpar hlt
    apply storage.before_of_less storage.strictWeak_processingLess _ hstrict p c
      ((mem_sortSlice _ _ _).mpr hp) ((mem_sortSlice _ _ _).mpr hc)
    rw [storage.processingLess_iff]
    omega
  refine ⟨sortSlice_perm _ _, ?_, hbefore, ?_⟩
  · exact hstrict.imp (fun {a b} h => (storage.processingLess_iff a b).mp h)
  · intro rs s' hcall p hp c hc h0 hpar hlt
    obtain ⟨us, hloop⟩ := storage.CreatePosts_loop s p0 ps created th rs s' hth hcall
    have hcore := storage.assignPaths_core _ _ _ _ _ _ hloop
    have hids := storage.assignPaths_ids _ _ _ _ _ _ hloop
    have hndrs : (rs.map (fun q => q.ID)).Nodup := by rw [hids]; exact hnd
    obtain ⟨pm, hpm, hpmid, hpmpar⟩ := storage.core_mem hcore p hp
    obtain ⟨cm, hcm, hcmid, hcmpar⟩ := storage.core_mem hcore c hc
    obtain ⟨l1, l2, l3, horder⟩ := hbefore pm hpm cm hcm (by rw [hcmpar]; exact h0)
      (by rw [hcmpar, hpmid]; exact hpar) (by rw [hpmpar, hpmid]; exact hlt)
    rw [horder] at hloop
    have hndo : ((l1 ++ pm :: (l2 ++ cm :: l3)).map (fun q => q.ID)).Nodup := by
      rw [← horder]
      exact ((sortSlice_perm _ _).map _).nodup_iff.mpr hnd
    obtain ⟨pe, hpe, ce, hce, pp, hpeid, hceid, hpath, hcpath, hcroot, hproot⟩ :=
      storage.assignPaths_child_after_parent _ l1 l2 l3 pm cm _ [] rs us hnd hndo
        (List.mem_map.mpr ⟨pm, hpm, rfl⟩) (List.mem_map.mpr ⟨cm, hcm, rfl⟩)
        (by rw [hcmpar, hpmid]; exact hpar) (by rw [hcmpar]; exact h0) hloop
    have e1 : pe = p := List.inj_on_of_nodup_map hndrs hpe hp (hpeid.trans hpmid)
    have e2 : ce = c := List.inj_on_of_nodup_map hndrs hce hc (hceid.trans hcmid)
    rw [e1] at hpath hcroot hproot
    rw [e2] at hcpath hcroot
    rw [hcmid] at hcpath
    rw [hpmpar, hpmid] at hproot
    refine ⟨hcroot, ⟨pp, pp ++ [c.ID], hpath, hcpath, by simp⟩, ?_⟩
    intro hroot
    obtain ⟨hpp, hpr⟩ := hproot hroot
    rw [hcpath, hpp, hcroot, hpr]
    exact ⟨rfl, rfl⟩

theorem C27_witness :
    example1.store.threads.find? (fun t => decide (t.ID = (example4.post 0).Thread))
      = some example4.thread ∧
    (storage.insertedRows example1.store.postSeq example4.thread.Forum 11
      (example4.post 0 :: example4.replies)).map (fun r => (r.id, r.parent))
      = [(3, 0), (4, 3), (5, 4), (6, 1), (7, 0)] ∧
    (sortSlice storage.processingLess
      ((storage.insertedRows example1.store.postSeq example4.thread.Forum 11
        (example4.post 0 :: example4.replies)).map storage.scanCreated)).map
        (fun q => (q.ID, q.Parent)) = [(3, 0), (7, 0), (6, 1), (4, 3), (5, 4)] ∧
    (storage.CreatePosts example1.store (example4.post 0 :: example4.replies) 11).1.map
      (fun rs => rs.map (fun r => (r.ID, r.Parent, r.Path, r.RootParentID)))
      = .ok [(3, 0, some [3], 3), (4, 3, some [3, 4], 3), (5, 4, some [3, 4, 5], 3),
          (6, 1, some [1, 6], 1), (7, 0, some [7], 7)] ∧
    (storage.CreatePosts example1.store [example4.post 4, example4.post 0] 11).1.map
      (fun rs => rs.map (fun r => (r.ID, r.Parent, r.Path, r.RootParentID)))
      = .ok [(3, 4, some [4, 3], 4), (4, 0, some [4], 4)] ∧
    (storage.CreatePosts example1.store [example4.post 4, example4.post 1] 11).1.map
      (fun rs => rs.map (fun r => (r.ID, r.Parent, r.Path, r.RootParentID)))
      = .ok [(3, 4, some [1, 4, 3], 1), (4, 1, some [1, 4], 1)] ∧
    (sortSlice storage.processingLess
      ((storage.insertedRows example1.store.postSeq example4.thread.Forum 11
        (example4.post 0 :: example4.replies)).map storage.scanCreated)).Perm
      ((storage.insertedRows example1.store.postSeq example4.thread.Forum 11
        (example4.post 0 :: example4.replies)).map storage.scanCreated) ∧
    (∀ rs s', storage.CreatePosts example1.store (example4.post 0 :: example4.replies) 11
        = (.ok rs, s') →
      ∀ p ∈ rs, ∀ c ∈ rs, c.Parent ≠ 0 → c.Parent = p.ID →
      (p.Parent ≠ 0 → p.Parent < p.ID) →
      c.RootParentID = p.RootParentID ∧
      (∃ pp cp, p.Path = some pp ∧ c.Path = some cp ∧ cp.length = pp.length + 1) ∧
      (p.Parent = 0 → c.Path = some [p.ID, c.ID] ∧ c.RootParentID = p.ID)) :=
  ⟨by rfl, by rfl, by rfl, by rfl, by rfl, by rfl,
    (C27_processing_order example1.store (example4.post 0) example4.replies 11
      example4.thread (by rfl)).1,
    (C27_processing_order example1.store (example4.post 0) example4.replies 11
      example4.thread (by rfl)).2.2.2⟩

/-! ## The internal error of path assignment -/

namespace storage

end storage

end DbForum
